import Mathlib

/-!
# rubber_types: type erasure with merged concepts

A verification development for `rubber_types.hpp` and its examples
(`examples/simple.cpp`, `examples/merge_concepts.cpp`, `examples/drawable.cpp`).

The header is a template meta-program.  Its meta-functions (`unwrap_holder`,
`unwrap_container`, `ConceptOf`, `ModelOf`, `ExternalInterfaceOf`, `rfold`,
`MergeSpecs`, `TypeErasure`, `MergeConcepts`) are embedded as functions on a
datatype `Ty` of class types; its run-time part (`Holder`, `Container`,
`model_get`, `interface_get`) as functions on a store of adapter objects.

Conventions.
* A user-authored description (a "spec") is `Ty.spec name ops`: the struct
  `name` whose `Concept` declares the pure virtual operations `ops`, whose
  `Model<Holder>` overrides each of them by `model_get(this).op(args)` and whose
  `ExternalInterface<Container>` exposes each of them by
  `interface_get(this).op(args)`, as the usage instructions of the header and
  the three examples do.
* A build-time failure (ill-formed instantiation, failed or ambiguous name
  lookup, a payload lacking an operation) is an `Except.error`.
-/

namespace rubber_types

/-! ## Class types -/

mutual
/-- Class types that occur in instantiations of the header. -/
inductive Ty where
  /-- A class from outside the library, e.g. a payload type. -/
  | named (n : String)
  /-- A user-authored description `struct name { Concept; Model; ExternalInterface }`
  with operations `ops`. -/
  | spec (name : String) (ops : List String)
  /-- The class `MergeSpecs<Specs...>`. -/
  | MergeSpecs (Specs : Pack)
  /-- The class `detail::Holder<T>`. -/
  | Holder (T : Ty)
  /-- The member class `Concept` declared in the class `S`. -/
  | Concept (S : Ty)
  /-- The instantiation `Model<H>` of the member template `Model` declared in `S`. -/
  | Model (S : Ty) (H : Ty)
  /-- The instantiation `ExternalInterface<C>` of the member template declared in `S`. -/
  | ExternalInterface (S : Ty) (C : Ty)
  /-- The class `detail::Container<Concept_, Model>`; the template template argument
  is named by the class `M` that declares it. -/
  | Container (Concept_ : Ty) (M : Ty)
  /-- The class `detail::TypeErasureSingeSpec<Spec_>`. -/
  | TypeErasureSingeSpec (Spec_ : Ty)
  deriving DecidableEq
/-- A template parameter pack of class types. -/
inductive Pack where
  | nil
  | cons (head : Ty) (tail : Pack)
  deriving DecidableEq
end

/-- The types of a pack, in order. -/
def Pack.toList : Pack → List Ty
  | .nil => []
  | .cons t p => t :: p.toList

/-- The pack holding the given types. -/
def Pack.ofList : List Ty → Pack
  | [] => .nil
  | t :: ts => .cons t (Pack.ofList ts)

namespace detail

/-- The meta-function `unwrap_holder`: `unwrap_holder<Holder<T>>::type = Holder<T>`, and
`unwrap_holder<Model<Holder>>::type = Holder` for every other instantiation of a class
template with exactly one type parameter: one layer is taken off.  The primary template is
declared only, so the remaining class types have no `type`. -/
def unwrap_holder : Ty → Option Ty
  | .Holder T => some (.Holder T)
  | .Model _ H => some H
  | .ExternalInterface _ C => some C
  | .TypeErasureSingeSpec S => some S
  | _ => none

/-- The alias `UnwrapHolder<T> = typename unwrap_holder<T>::type`. -/
def UnwrapHolder (T : Ty) : Option Ty := unwrap_holder T

/-- The meta-function `unwrap_container`: `Container<Concept, Model>` is mapped to itself,
any other `ExternalInterface<Container>` (an instantiation of a class template with one
type parameter) to its argument. -/
def unwrap_container : Ty → Option Ty
  | .Container c m => some (.Container c m)
  | .ExternalInterface _ C => some C
  | .Model _ H => some H
  | .Holder T => some T
  | .TypeErasureSingeSpec S => some S
  | _ => none

/-- The alias `UnwrapContainer<T> = typename unwrap_container<T>::type`. -/
def UnwrapContainer (T : Ty) : Option Ty := unwrap_container T

/-- The class in which the members `Concept`, `Model` and `ExternalInterface` named through
`Spec::` are declared: the specialisation `MergeSpecs<Spec> : public Spec {}` declares
nothing itself and inherits them from `Spec`. -/
def declaringSpec : Ty → Ty
  | .MergeSpecs (.cons S .nil) => declaringSpec S
  | S => S

/-- The alias `ConceptOf<Spec> = typename Spec::Concept`. -/
def ConceptOf (Spec : Ty) : Ty := .Concept (declaringSpec Spec)

/-- The alias `ModelOf<Spec, Holder> = typename Spec::template Model<Holder>`. -/
def ModelOf (Spec Holder : Ty) : Ty := .Model (declaringSpec Spec) Holder

/-- The alias `ExternalInterfaceOf<Spec, Container>`. -/
def ExternalInterfaceOf (Spec Container : Ty) : Ty :=
  .ExternalInterface (declaringSpec Spec) Container

/-- The meta-function `rfold<Func, Arg, Args...>`.  The specialisation for two arguments
gives `Func<L, R>`, the primary template gives `Func<Arg, rfold<Func, Args...>::type>`;
with fewer than two arguments the instantiation is ill-formed (the primary template
needs `Arg`). -/
def rfold {α : Type} (Func : α → α → α) : List α → Option α
  | [] => none
  | [_] => none
  | [L, R] => some (Func L R)
  | Arg :: Args => (rfold Func Args).map (Func Arg)

/-- The alias `Rfold<Func, Args...> = typename rfold<Func, Args...>::type`. -/
def Rfold {α : Type} (Func : α → α → α) (Args : List α) : Option α := rfold Func Args

end detail

open detail

/-- The member alias `Base` of `MergeSpecs<Specs...>::Model<Holder>`:
`detail::Rfold<detail::ModelOf, Specs..., Holder>`. -/
def MergeSpecs.Model.Base (Specs : List Ty) (Holder : Ty) : Option Ty :=
  Rfold ModelOf (Specs ++ [Holder])

/-- The member alias `Base` of `MergeSpecs<Specs...>::ExternalInterface<Container>`:
`detail::Rfold<detail::ExternalInterfaceOf, Specs..., Container>`. -/
def MergeSpecs.ExternalInterface.Base (Specs : List Ty) (Container : Ty) : Option Ty :=
  Rfold ExternalInterfaceOf (Specs ++ [Container])

/-- The alias `TypeErasure<Specs...> = detail::TypeErasureSingeSpec<MergeSpecs<Specs...>>`. -/
def TypeErasure (Specs : List Ty) : Ty :=
  .TypeErasureSingeSpec (.MergeSpecs (Pack.ofList Specs))

/-- The member alias `Spec` of an erasure class (`using Spec = Spec_`); no other class of
the library has such a member. -/
def SpecOf : Ty → Option Ty
  | .TypeErasureSingeSpec Spec_ => some Spec_
  | _ => none

/-- The alias `MergeConcepts<Concepts...> = TypeErasure<typename Concepts::Spec...>`. -/
def MergeConcepts (Concepts : List Ty) : Option Ty :=
  (Concepts.mapM SpecOf).map TypeErasure

/-- The direct base classes of a class, as written in the header and prescribed for
user-authored descriptions; `none` when the class has no well-formed definition.
* `Holder<T>`, `Container<..>` and a description's `Concept` have no bases;
* `MergeSpecs<Specs...>::Concept : public virtual detail::ConceptOf<Specs>...`, ill-formed
  when a class is named twice in this list of direct bases;
* a description's `Model<Holder> : public Holder, public virtual Concept`;
* `MergeSpecs<Specs...>::Model<Holder> : public Base, public virtual Concept`;
* a description's `ExternalInterface<Container> : public Container`;
* `MergeSpecs<Specs...>::ExternalInterface<Container> : public Base`;
* `TypeErasureSingeSpec<Spec_> : public Spec_::ExternalInterface<Container<Spec_::Concept,
  Spec_::Model>>`;
* `MergeSpecs<Spec> : public Spec`. -/
def bases : Ty → Option (List Ty)
  | .named _ => some []
  | .spec _ _ => some []
  | .MergeSpecs (.cons S .nil) => some [S]
  | .MergeSpecs _ => some []
  | .Holder _ => some []
  | .Container _ _ => some []
  | .Concept (.spec _ _) => some []
  | .Concept (.MergeSpecs (.cons _ .nil)) => none
  | .Concept (.MergeSpecs Specs) =>
      if (Specs.toList.map ConceptOf).Nodup then some (Specs.toList.map ConceptOf) else none
  | .Concept _ => none
  | .Model (.spec n ops) H => some [H, .Concept (.spec n ops)]
  | .Model (.MergeSpecs (.cons _ .nil)) _ => none
  | .Model (.MergeSpecs Specs) H =>
      (MergeSpecs.Model.Base Specs.toList H).map fun B => [B, .Concept (.MergeSpecs Specs)]
  | .Model _ _ => none
  | .ExternalInterface (.spec _ _) C => some [C]
  | .ExternalInterface (.MergeSpecs (.cons _ .nil)) _ => none
  | .ExternalInterface (.MergeSpecs Specs) C =>
      (MergeSpecs.ExternalInterface.Base Specs.toList C).map fun B => [B]
  | .ExternalInterface _ _ => none
  | .TypeErasureSingeSpec Spec_ =>
      some [ExternalInterfaceOf Spec_ (.Container (ConceptOf Spec_) (declaringSpec Spec_))]

/-! ## Members, name lookup and overriding -/

/-- Names of class members.  The operations of descriptions are kept apart from the
member names the library itself declares and looks up. -/
inductive Member where
  /-- An operation `name` of a description. -/
  | op (name : String)
  /-- The alias `Holder<T>::Data`. -/
  | Data
  /-- The accessor `Holder<T>::get_from_rubber_types_holder_`. -/
  | get_from_rubber_types_holder_
  /-- The alias `Container<..>::Concept`. -/
  | Concept
  /-- The accessor `Container<..>::get_from_rubber_types_container_`. -/
  | get_from_rubber_types_container_
  /-- The alias `Base` of the merged model, the merged facade and the erasure class. -/
  | Base
  /-- The alias `TypeErasureSingeSpec<Spec_>::Spec`. -/
  | Spec
  deriving DecidableEq

/-- The members a class declares in its own body.  The classes of a description declare
its operations: `Concept` as pure virtual functions, `Model` as their overriders,
`ExternalInterface` as the public operations. -/
def declared : Ty → List Member
  | .Holder _ => [.Data, .get_from_rubber_types_holder_]
  | .Container _ _ => [.Concept, .get_from_rubber_types_container_]
  | .Concept (.spec _ ops) => ops.map .op
  | .Model (.spec _ ops) _ => ops.map .op
  | .ExternalInterface (.spec _ ops) _ => ops.map .op
  | .Model (.MergeSpecs _) _ => [.Base]
  | .ExternalInterface (.MergeSpecs _) _ => [.Base]
  | .TypeErasureSingeSpec _ => [.Base, .Spec]
  | _ => []

/-- The result of looking a member name up in the scope of a class: the lookup set. -/
inductive Lookup where
  | notFound
  /-- The name denotes the member declared in class `C`. -/
  | found (C : Ty)
  /-- The name is declared in each of the unrelated classes `Cs`. -/
  | ambiguous (Cs : List Ty)
  deriving DecidableEq

/-- The classes whose declarations make up a lookup set. -/
def Lookup.classes : Lookup → List Ty
  | .notFound => []
  | .found C => [C]
  | .ambiguous Cs => Cs

mutual
/-- A bound on the number of inheritance levels below a class: every direct base of a
class weighs less than the class. -/
def Ty.weight : Ty → Nat
  | .named _ => 1
  | .spec _ _ => 1
  | .MergeSpecs Specs => Specs.weight + 1
  | .Holder _ => 1
  | .Concept S => S.weight
  | .Model S H => S.weight + H.weight
  | .ExternalInterface S C => S.weight + C.weight
  | .Container _ _ => 1
  | .TypeErasureSingeSpec Spec_ => Spec_.weight + 2
/-- The summed weight of the types of a pack. -/
def Pack.weight : Pack → Nat
  | .nil => 0
  | .cons t p => t.weight + p.weight
end

/-- The direct and indirect base classes of `C` (at most `fuel` levels down). -/
def ancestors : Nat → Ty → List Ty
  | 0, _ => []
  | fuel + 1, C =>
      match bases C with
      | none => []
      | some Bs => Bs ++ Bs.flatMap fun B => ancestors fuel B

/-- Whether `B` is a direct or indirect base class of `C`. -/
def isBaseOf (B C : Ty) : Bool := (ancestors C.weight C).contains B

/-- Whether every class of `Ds` is one of `Cs` or a base class of one of `Cs`: then the
declarations in `Ds` are the same as, or hidden by, those in `Cs`. -/
def hides (Cs Ds : List Ty) : Bool :=
  Ds.all fun D => Cs.any fun C => C = D || isBaseOf D C

/-- Merging the lookup sets of two base classes.  The same class reached twice is one
declaration (the concepts are virtual bases, hence one subobject); a declaration in a
class hides the declarations in its base classes; declarations found in unrelated classes
make the lookup ambiguous. -/
def Lookup.merge : Lookup → Lookup → Lookup
  | .notFound, r => r
  | l, .notFound => l
  | l, r =>
      if hides l.classes r.classes then l
      else if hides r.classes l.classes then r
      else .ambiguous (l.classes ++ r.classes.filter fun D => !l.classes.contains D)

/-- Member name lookup in the scope of class `C`, bounded by `fuel` inheritance levels: a
declaration in `C` itself hides those of its bases, otherwise the lookup sets of the direct
bases are merged. -/
def lookup : Nat → Ty → Member → Lookup
  | 0, _, _ => .notFound
  | fuel + 1, C, m =>
      if (declared C).contains m then .found C
      else match bases C with
        | none => .notFound
        | some Bs => Bs.foldl (fun acc B => acc.merge (lookup fuel B m)) .notFound

/-- Member name lookup `C::m`. -/
def memberLookup (C : Ty) (m : Member) : Lookup := lookup C.weight C m

/-- The class among `C` and its bases (at most `fuel` levels down) whose virtual member
function `op` is the final overrider in an object of most derived class `C`: overriders
are declared by the model layers only, these form a single chain of non-virtual bases,
and a layer overrides the same-named function of every layer below it, so the final
overrider is the declaration of the first model layer on the chain that has one. -/
def finalOverrider : Nat → Ty → String → Option Ty
  | 0, _, _ => none
  | fuel + 1, C, op =>
      match C with
      | .Model S H =>
          if (declared (.Model S H)).contains (.op op) then some (.Model S H)
          else match bases (.Model S H) with
            | none => none
            | some Bs => Bs.findSome? fun B => finalOverrider fuel B op
      | _ => none

/-- The virtual member functions defined by the model layers of the class `C` (at most
`fuel` levels down), each with the layer that defines it.  All of them are instantiated
together with the class. -/
def overriders : Nat → Ty → List (Ty × String)
  | 0, _ => []
  | fuel + 1, C =>
      match C with
      | .Model S H =>
          (match S with
            | .spec _ ops => ops.map fun op => (Ty.Model S H, op)
            | _ => []) ++
          (match bases (.Model S H) with
            | none => []
            | some Bs => Bs.flatMap fun B => overriders fuel B)
      | _ => []

/-- The pure virtual operations visible in the concept class `K` (at most `fuel` levels
down), in the order of the base-class lists. -/
def operations : Nat → Ty → List String
  | 0, _ => []
  | fuel + 1, K =>
      match K with
      | .Concept (.spec _ ops) => ops
      | .Concept S =>
          (match bases (.Concept S) with
            | none => []
            | some Bs => Bs.flatMap fun B => operations fuel B)
      | _ => []

/-- The descriptions whose model layers make up the class `C`, outermost first. -/
def layers : Nat → Ty → List Ty
  | 0, _ => []
  | fuel + 1, C =>
      match C with
      | .Model S H =>
          (match S with
            | .spec _ _ => [S]
            | _ => []) ++
          (match bases (.Model S H) with
            | none => []
            | some Bs => Bs.flatMap fun B => layers fuel B)
      | _ => []

/-! ## Descriptions and the user-authored descriptions they merge -/

mutual
/-- The user-authored descriptions a description is merged from, in the order of the
template arguments: a description is user-authored or a `MergeSpecs` of descriptions. -/
def Ty.descriptions : Ty → List Ty
  | .spec n ops => [.spec n ops]
  | .MergeSpecs Specs => Specs.descriptions
  | _ => []
/-- The user-authored descriptions the descriptions of a pack are merged from. -/
def Pack.descriptions : Pack → List Ty
  | .nil => []
  | .cons t p => t.descriptions ++ p.descriptions
end

mutual
/-- Whether a class is a description: a user-authored description, or `MergeSpecs` of at
least one description. -/
def Ty.isDescription : Ty → Bool
  | .spec _ _ => true
  | .MergeSpecs .nil => false
  | .MergeSpecs Specs => Specs.areDescriptions
  | _ => false
/-- Whether every class of a pack is a description. -/
def Pack.areDescriptions : Pack → Bool
  | .nil => true
  | .cons t p => t.isDescription && p.areDescriptions
end

/-- Whether a user-authored description declares the operation `op`. -/
def declares (op : String) : Ty → Bool
  | .spec _ ops => ops.contains op
  | _ => false

/-- The lookup set made of declarations in the classes `Cs`. -/
def Lookup.ofClasses : List Ty → Lookup
  | [] => .notFound
  | [C] => .found C
  | Cs => .ambiguous Cs

/-! ## Objects, handles and dispatch -/

/-- An object created by `std::make_shared<Model<Holder<T>>>(obj)`: its most derived class
and the member `data_` of its `Holder<T>` subobject.  `V` is the type of payload values. -/
structure Object (V : Type) where
  dyn : Ty
  data_ : V

/-- The free store: the adapter objects in allocation order, newest first.  The address of
an object is the number of objects allocated before it.  Objects are reached through
`shared_ptr<const Concept>` only and are never modified; releasing an object when its last
owner goes away is not modelled, it stays in the store. -/
abbrev Store (V : Type) := List (Object V)

/-- The object at address `p`. -/
def Store.deref {V : Type} : Store V → Nat → Option (Object V)
  | [], _ => none
  | obj :: older, p => if p = older.length then some obj else Store.deref older p

/-- The class `detail::Container`: its one data member `self_`, a `shared_ptr<const
Concept>`, is the address of the adapter object it shares.  The facade layers add no data,
so an erasure instance is a `Container` together with its static class. -/
structure Container where
  self_ : Nat
  deriving DecidableEq

/-- Why an expression has no value: the first five are build-time errors. -/
inductive Failure where
  /-- The class has no well-formed definition. -/
  | ill_formed (C : Ty)
  /-- Name lookup of `m` in the scope of `C` finds nothing. -/
  | no_member (C : Ty) (m : Member)
  /-- Name lookup of `m` in the scope of `C` is ambiguous. -/
  | ambiguous (C : Ty) (m : Member)
  /-- The payload type `T` does not provide the duck-typed operation `op`. -/
  | no_operation (T : Ty) (op : String)
  /-- The pure virtual `op` has no overrider in `C`: the class is abstract. -/
  | pure_virtual (C : Ty) (op : String)
  /-- A handle whose pointee is not in the store. -/
  | dangling (p : Nat)
  deriving DecidableEq

/-- The duck-typed operations of the payload types: `Γ T op = some f` when the type `T`
provides the operation `op`, and then `f v args` is the result of `v.op(args)`. -/
abbrev Duck (V A R : Type) := Ty → String → Option (V → A → R)

/-- The member found by `C::m`, or the build-time error. -/
def resolve (C : Ty) (m : Member) : Except Failure Ty :=
  match memberLookup C m with
  | .found D => .ok D
  | .ambiguous _ => .error (.ambiguous C m)
  | .notFound => .error (.no_member C m)

/-- The static part of `model_get<Model>`: `using Holder = detail::UnwrapHolder<Model>`, the
member named by `this_->Holder::get_from_rubber_types_holder_` and the type
`typename detail::UnwrapHolder<Model>::Data` of the payload it returns. -/
def model_get.Data (Model : Ty) : Except Failure Ty :=
  match UnwrapHolder Model with
  | none => .error (.ill_formed Model)
  | some Holder =>
      match resolve Holder .Data, resolve Holder .get_from_rubber_types_holder_ with
      | .ok (.Holder Data), .ok (.Holder _) => .ok Data
      | .ok (.Holder _), .ok C => .error (.no_member C .get_from_rubber_types_holder_)
      | .ok C, .ok _ => .error (.no_member C .Data)
      | .error err, _ => .error err
      | _, .error err => .error err

/-- The member `Holder<T>::get_from_rubber_types_holder_`: `return data_;`. -/
def Holder.get_from_rubber_types_holder_ {V : Type} (this : Object V) : V := this.data_

/-- The function `model_get(this_)` for `this_` of static type `const Model *`:
`using Holder = detail::UnwrapHolder<Model>;
return this_->Holder::get_from_rubber_types_holder_();` with return type
`const typename detail::UnwrapHolder<Model>::Data &`.  Gives the payload type and the
payload. -/
def model_get {V : Type} (Model : Ty) (this_ : Object V) : Except Failure (Ty × V) :=
  (model_get.Data Model).map fun Data => (Data, Holder.get_from_rubber_types_holder_ this_)

/-- The member `Container::get_from_rubber_types_container_`: `*self_.get()`. -/
def Container.get_from_rubber_types_container_ {V : Type} (σ : Store V) (this : Container) :
    Except Failure (Object V) :=
  match σ.deref this.self_ with
  | some obj => .ok obj
  | none => .error (.dangling this.self_)

/-- The static part of `interface_get<ExternalInterface>`:
`using Container = detail::UnwrapContainer<ExternalInterface>`, the member named by
`this_->Container::get_from_rubber_types_container_` and the class
`typename detail::UnwrapContainer<ExternalInterface>::Concept` it returns a reference to. -/
def interface_get.Concept (ExternalInterface : Ty) : Except Failure Ty :=
  match UnwrapContainer ExternalInterface with
  | none => .error (.ill_formed ExternalInterface)
  | some Container =>
      match resolve Container .Concept, resolve Container .get_from_rubber_types_container_ with
      | .ok (.Container Concept _), .ok (.Container _ _) => .ok Concept
      | .ok (.Container _ _), .ok C => .error (.no_member C .get_from_rubber_types_container_)
      | .ok C, .ok _ => .error (.no_member C .Concept)
      | .error err, _ => .error err
      | _, .error err => .error err

/-- The function `interface_get(this_)` for `this_` of static type
`const ExternalInterface *`: `using Container = detail::UnwrapContainer<ExternalInterface>;
return this_->Container::get_from_rubber_types_container_();` with return type
`const typename detail::UnwrapContainer<ExternalInterface>::Concept &`.  Gives the static
class of the reference and the object referred to. -/
def interface_get {V : Type} (σ : Store V) (ExternalInterface : Ty) (this_ : Container) :
    Except Failure (Ty × Object V) :=
  match interface_get.Concept ExternalInterface with
  | .error err => .error err
  | .ok Concept => (this_.get_from_rubber_types_container_ σ).map fun obj => (Concept, obj)

/-- A completed call of an operation on an erasure instance: the facade layer and the
adapter layer whose member functions ran (no other code of a description runs), and the
value returned. -/
structure Invocation (R : Type) where
  facade : Ty
  adapter : Ty
  result : R

/-- The override `op` of the model layer `M`, as every description writes it:
`return rubber_types::model_get(this).op(args);`. -/
def Model.op {V A R : Type} (Γ : Duck V A R) (M : Ty) (this : Object V) (op : String)
    (args : A) : Except Failure R :=
  match model_get M this with
  | .error err => .error err
  | .ok (T, v) =>
      match Γ T op with
      | some f => .ok (f v args)
      | none => .error (.no_operation T op)

/-- The call `k.op(args)` on a reference `k` of static class `K` to the object `obj`: name
lookup of `op` in `K`, then virtual dispatch to the final overrider in the most derived
class of `obj`.  Gives the layer that ran and its result. -/
def Concept.op {V A R : Type} (Γ : Duck V A R) (K : Ty) (obj : Object V) (op : String)
    (args : A) : Except Failure (Ty × R) :=
  match resolve K (.op op) with
  | .error err => .error err
  | .ok _ =>
      match finalOverrider obj.dyn.weight obj.dyn op with
      | none => .error (.pure_virtual obj.dyn op)
      | some M => (Model.op Γ M obj op args).map fun r => (M, r)

/-- The member `op` of the facade layer `F`, as every description writes it:
`return rubber_types::interface_get(this).op(args);`. -/
def ExternalInterface.op {V A R : Type} (Γ : Duck V A R) (σ : Store V) (F : Ty)
    (this : Container) (op : String) (args : A) : Except Failure (Ty × R) :=
  match interface_get σ F this with
  | .error err => .error err
  | .ok (K, obj) => Concept.op Γ K obj op args

/-- The call `e.op(args)` on an erasure instance `e` of class `E`: name lookup of `op` in
`E` selects a facade layer, whose member runs. -/
def invoke {V A R : Type} (Γ : Duck V A R) (σ : Store V) (E : Ty) (e : Container)
    (op : String) (args : A) : Except Failure (Invocation R) :=
  match resolve E (.op op) with
  | .error err => .error err
  | .ok F => (ExternalInterface.op Γ σ F e op args).map fun (M, r) => ⟨F, M, r⟩

/-- Whether the class `C` and all its bases (at most `fuel` levels down) have well-formed
definitions. -/
def complete : Nat → Ty → Bool
  | 0, _ => false
  | fuel + 1, C =>
      match bases C with
      | none => false
      | some Bs => Bs.all fun B => complete fuel B

/-- Whether the body of the override `op` of the model layer `M` compiles: `model_get`
resolves and the payload type provides the operation. -/
def Model.compiles {V A R : Type} (Γ : Duck V A R) (M : Ty) (op : String) :
    Except Failure Unit :=
  match model_get.Data M with
  | .error err => .error err
  | .ok T => if (Γ T op).isSome then .ok () else .error (.no_operation T op)

/-- Instantiating the adapter class `C = Model<Holder<T>>` for `make_shared`: the class and
its bases must be well-formed, the body of every virtual member function of its layers must
compile, and every pure virtual operation of the concept `K` must have an overrider. -/
def instantiate {V A R : Type} (Γ : Duck V A R) (K C : Ty) : Except Failure Unit :=
  if complete C.weight C then do
    (overriders C.weight C).forM fun (M, op) => Model.compiles Γ M op
    (operations K.weight K).forM fun op =>
      if (finalOverrider C.weight C op).isSome then .ok () else .error (.pure_virtual C op)
  else .error (.ill_formed C)

/-- Constructing an erasure instance of class `E` from a payload `obj` of type `T`.  The
inherited constructors lead to `Container(T obj) : self_(std::make_shared<Model<Holder<T>>>(
std::move(obj)))`: a new adapter object is allocated and the handle points to it.  (From
an instance of `E` itself the copy constructor is chosen instead, see `Container.copy`.) -/
def construct {V A R : Type} (Γ : Duck V A R) (σ : Store V) (E T : Ty) (obj : V) :
    Except Failure (Store V × Container) :=
  match resolve E .get_from_rubber_types_container_ with
  | .error err => .error err
  | .ok (.Container Concept_ Model) =>
      match instantiate Γ Concept_ (.Model Model (.Holder T)) with
      | .error err => .error err
      | .ok _ => .ok (⟨.Model Model (.Holder T), obj⟩ :: σ, ⟨σ.length⟩)
  | .ok C => .error (.ill_formed C)

/-- The implicitly defined copy constructor of an erasure class copies `self_`; the copy of
a `shared_ptr` points to the same object and nothing is allocated. -/
def Container.copy {V : Type} (σ : Store V) (e : Container) : Store V × Container :=
  (σ, ⟨e.self_⟩)

/-! ## The examples `simple.cpp` and `merge_concepts.cpp` -/

namespace examples

/-- The standard output stream `cout`: the characters written so far. -/
abbrev ostream := String

/-- The payload type `struct UserWidget`, which has no data members. -/
structure UserWidget where
  deriving DecidableEq

/-- What a call in the examples yields: the value returned (`none` for `void`) and `cout`
after the call. -/
structure Ret where
  value : Option Int
  cout : ostream
  deriving DecidableEq

/-- The member `UserWidget::render`: `cout << "UserWidget::render\n";`. -/
def UserWidget.render (_ : UserWidget) (cout : ostream) : Ret :=
  ⟨none, cout ++ "UserWidget::render\n"⟩

/-- The member `UserWidget::size`: `return 42;`. -/
def UserWidget.size (_ : UserWidget) (cout : ostream) : Ret :=
  ⟨some 42, cout⟩

/-- The duck-typed operations of the payload type of the examples. -/
def Γ : Duck UserWidget ostream Ret
  | .named "UserWidget", "render" => some UserWidget.render
  | .named "UserWidget", "size" => some UserWidget.size
  | _, _ => none

/-- The description `struct WidgetSpec` with the operation `void render() const`. -/
def WidgetSpec : Ty := .spec "WidgetSpec" ["render"]

/-- The description `struct GeometrySpec` with the operation `int size() const`. -/
def GeometrySpec : Ty := .spec "GeometrySpec" ["size"]

/-- The alias `using Widget = rt::TypeErasure<WidgetSpec>`. -/
def Widget : Ty := TypeErasure [WidgetSpec]

/-- The alias `using Geometry = rt::TypeErasure<GeometrySpec>`. -/
def Geometry : Ty := TypeErasure [GeometrySpec]

/-- The alias `using GeomWidget = rt::MergeConcepts<Geometry, Widget>`. -/
def GeomWidget : Option Ty := MergeConcepts [Geometry, Widget]

/-- The function `render_widget(const Widget &w)`: `w.render();`, called with a
`UserWidget`, from which the parameter is constructed. -/
def render_widget (σ : Store UserWidget) (w : UserWidget) (cout : ostream) :
    Except Failure ostream := do
  let (σ, w) ← construct Γ σ Widget (.named "UserWidget") w
  let r ← invoke Γ σ Widget w "render" cout
  pure r.result.cout

/-- The function `measure_geometry(const Geometry &g)`:
`cout << "size: " << g.size() << "\n";`, called with a `UserWidget`. -/
def measure_geometry (σ : Store UserWidget) (g : UserWidget) (cout : ostream) :
    Except Failure ostream := do
  let (σ, g) ← construct Γ σ Geometry (.named "UserWidget") g
  let r ← invoke Γ σ Geometry g "size" (cout ++ "size: ")
  pure (r.result.cout ++ toString (r.result.value.getD 0) ++ "\n")

/-- The function `measure_and_render(const GeomWidget &gw)`:
`cout << "size: " << gw.size() << "\n"; gw.render();`, called with a `UserWidget`. -/
def measure_and_render (σ : Store UserWidget) (gw : UserWidget) (cout : ostream) :
    Except Failure ostream :=
  match GeomWidget with
  | none => .error (.no_member Geometry .Spec)
  | some GeomWidget => do
      let (σ, gw) ← construct Γ σ GeomWidget (.named "UserWidget") gw
      let r ← invoke Γ σ GeomWidget gw "size" (cout ++ "size: ")
      let cout := r.result.cout ++ toString (r.result.value.getD 0) ++ "\n"
      let r ← invoke Γ σ GeomWidget gw "render" cout
      pure r.result.cout

end examples

/-! ## The example `drawable.cpp` -/

namespace drawable

/-- An output stream: the characters written so far, with the default formatting. -/
abbrev ostream := String

/-- The largest value of the type `int`, taken to be 32 bits wide. -/
def INT_MAX : Int := 2147483647

/-- The smallest value of the type `int`. -/
def INT_MIN : Int := -2147483648

/-- The value of an `int` expression whose mathematical value is `x`: signed overflow has
no defined result.  (Where the overflow of `pos * 2` for a `pos ≥ 0` wraps around instead,
the product is negative and `std_string` has no result either.) -/
def as_int (x : Int) : Option Int :=
  if INT_MIN ≤ x ∧ x ≤ INT_MAX then some x else none

/-- The constructor `std::string(n, c)` called with an `int`: the count is converted to
`size_t`, so a negative `n` becomes a count above `max_size()` and the constructor throws
`std::length_error`. -/
def std_string (n : Int) (c : Char) : Option String :=
  if 0 ≤ n then some (String.mk (List.replicate n.toNat c)) else none

/-- The description `struct DrawableSpec` with the operation `draw_`. -/
def DrawableSpec : Ty := .spec "DrawableSpec" ["draw_"]

/-- The alias `using Drawable = rt::TypeErasure<DrawableSpec>`: an instance is the handle
it inherits from `Container`. -/
abbrev Drawable := Container

/-- The alias `using Document = vector<Drawable>`. -/
abbrev Document := List Drawable

/-- The alias `using History = vector<Document>`. -/
abbrev History := List Document

/-- The payloads wrapped in a `Drawable` by the example: `int`, `string` and `Document`. -/
inductive Payload where
  | int (i : Int)
  | string (s : String)
  | Document (doc : drawable.Document)
  deriving DecidableEq

/-- The overload `draw(int i, ostream &o, int pos)`:
`o << string(pos * 2, ' ') << i << "\n";`. -/
def draw_int (i : Int) (o : ostream) (pos : Int) : Option ostream := do
  let n ← as_int (pos * 2)
  let indent ← std_string n ' '
  pure (o ++ indent ++ toString i ++ "\n")

/-- The overload `draw(const string &s, ostream &o, int pos)`:
`o << string(pos * 2, ' ') << s << "\n";`. -/
def draw_string (s : String) (o : ostream) (pos : Int) : Option ostream := do
  let n ← as_int (pos * 2)
  let indent ← std_string n ' '
  pure (o ++ indent ++ s ++ "\n")

/-- The loop `for (auto& item : doc) { draw(item, o, pos + 1); }`, given the overload
of `draw` for the items. -/
def draw_items (drawItem : Drawable → ostream → Int → Option ostream) :
    Document → ostream → Int → Option ostream
  | [], o, _ => some o
  | item :: rest, o, pos => do
      let pos1 ← as_int (pos + 1)
      let o ← drawItem item o pos1
      draw_items drawItem rest o pos

/-- The body of the overload `draw(const Document &doc, ostream &o, int pos)`, given the
overload of `draw` for the items:
`o << string(pos * 2, ' ') << "<document>\n";`, the loop over the items,
`o << string(pos * 2, ' ') << "</document>\n";`. -/
def draw_body (drawItem : Drawable → ostream → Int → Option ostream) (doc : Document)
    (o : ostream) (pos : Int) : Option ostream := do
  let n ← as_int (pos * 2)
  let indent ← std_string n ' '
  let o ← draw_items drawItem doc (o ++ indent ++ "<document>\n") pos
  let n ← as_int (pos * 2)
  let indent ← std_string n ' '
  pure (o ++ indent ++ "</document>\n")

/-- The override `DrawableSpec::Model<Holder<T>>::draw_`: `draw(rt::model_get(this), o, pos);`
where overload resolution picks the `draw` for the payload type `T`.  The handles held by
a `Document` payload were copied into it when the object was built, so they point to older
objects; `drawItem` is the overload of `draw` for them. -/
def DrawableSpec.Model.draw_ (drawItem : Drawable → ostream → Int → Option ostream)
    (this : Object Payload) (o : ostream) (pos : Int) : Option ostream :=
  match Holder.get_from_rubber_types_holder_ this with
  | .int i => draw_int i o pos
  | .string s => draw_string s o pos
  | .Document doc => draw_body drawItem doc o pos

/-- The friend `draw(const ExternalInterface &e, ostream &o, int pos)` of
`DrawableSpec::ExternalInterface`: `rt::interface_get(e).draw_(o, pos);`, a virtual call on
the object `*e.self_`. -/
def draw_Drawable : Store Payload → Drawable → ostream → Int → Option ostream
  | [], _, _, _ => none
  | this :: older, e, o, pos =>
      if e.self_ = older.length then DrawableSpec.Model.draw_ (draw_Drawable older) this o pos
      else draw_Drawable older e o pos

/-- The overload `draw(const Document &doc, ostream &o, int pos)`. -/
def draw_Document (σ : Store Payload) (doc : Document) (o : ostream) (pos : Int) :
    Option ostream :=
  draw_body (draw_Drawable σ) doc o pos

/-- The function `commit(History &h)`: `assert(h.size()); h.push_back(h.back());`. -/
def commit (h : History) : Option History :=
  match h.getLast? with
  | none => none
  | some back => some (h ++ [back])

/-- The function `undo(History &h)`: `assert(h.size()); h.pop_back();`. -/
def undo (h : History) : Option History :=
  match h.getLast? with
  | none => none
  | some _ => some h.dropLast

/-- The function `current(History &h)`: `assert(h.size()); return h.back();`. -/
def current (h : History) : Option Document :=
  h.getLast?

/-- The C++ type of a payload. -/
def Payload.type : Payload → Ty
  | .int _ => .named "int"
  | .string _ => .named "string"
  | .Document _ => .named "vector<Drawable>"

/-- The converting constructor of `Drawable` applied to a payload: the constructor of
`Container` allocates the adapter `DrawableSpec::Model<Holder<T>>`. -/
def Drawable.construct (σ : Store Payload) (obj : Payload) : Store Payload × Drawable :=
  (⟨.Model DrawableSpec (.Holder obj.type), obj⟩ :: σ, ⟨σ.length⟩)

/-- An argument from which an element of a document is made. -/
inductive Arg where
  | int (i : Int)
  | string (s : String)
  /-- A document, copied into the payload. -/
  | Document (doc : drawable.Document)
  /-- The document `current(h)` itself, as in `current(h).emplace_back(current(h))`. -/
  | current
  /-- An existing `Drawable`, which is copied. -/
  | Drawable (e : drawable.Drawable)

/-- The `Drawable` made from an argument, `cur` being the current document. -/
def Arg.toDrawable (σ : Store Payload) (cur : drawable.Document) :
    Arg → Store Payload × drawable.Drawable
  | .int i => Drawable.construct σ (.int i)
  | .string s => Drawable.construct σ (.string s)
  | .Document doc => Drawable.construct σ (.Document doc)
  | .current => Drawable.construct σ (.Document cur)
  | .Drawable e => Container.copy σ e

/-- A mutation of the document `current(h)`. -/
inductive Mutation where
  /-- The statement `current(h).emplace_back(x);`. -/
  | emplace_back (x : Arg)
  /-- The statement `current(h)[i] = x;`. -/
  | assign (i : Nat) (x : Arg)

/-- The effect of a mutation on the store and the current document; indexing past the end
has no defined result. -/
def Mutation.apply (σ : Store Payload) (doc : Document) :
    Mutation → Option (Store Payload × Document)
  | .emplace_back x =>
      let (σ, e) := x.toDrawable σ doc
      some (σ, doc ++ [e])
  | .assign i x =>
      if i < doc.length then
        let (σ, e) := x.toDrawable σ doc
        some (σ, doc.set i e)
      else none

/-- A sequence of mutations of `current(h)`. -/
def mutate (σ : Store Payload) (h : History) : List Mutation → Option (Store Payload × History)
  | [] => some (σ, h)
  | m :: ms =>
      match current h with
      | none => none
      | some doc =>
          match m.apply σ doc with
          | none => none
          | some (σ, doc) => mutate σ (h.dropLast ++ [doc]) ms

/-- Whether every statement `current(h)[i] = x` of a sequence of mutations indexes an
existing element, `size` being the size of the current document before the sequence. -/
def inBounds : Nat → List Mutation → Bool
  | _, [] => true
  | size, .emplace_back _ :: ms => inBounds (size + 1) ms
  | size, .assign i _ :: ms => decide (i < size) && inBounds size ms

/-- The function `main` of the example, giving what it writes to `cout`. -/
def main : Option ostream := do
  let σ : Store Payload := []
  let h : History := [[]]
  let (σ, h) ← mutate σ h [.emplace_back (.int 0), .emplace_back (.int 1)]
  let cout ← draw_Document σ (← current h) "" 0
  let cout := cout ++ "--------------------------\n"
  let h ← commit h
  let (σ, h) ← mutate σ h
    [.emplace_back (.string "Hello World"), .emplace_back .current, .assign 1 (.string "Roof")]
  let cout ← draw_Document σ (← current h) cout 0
  let cout := cout ++ "--------------------------\n"
  let h ← undo h
  draw_Document σ (← current h) cout 0

/-! ### The rendering of a document, as the specification words it -/

/-- A string of `n` spaces. -/
def spaces (n : Nat) : String := String.mk (List.replicate n ' ')

/-- The concatenation of a list of strings. -/
def concat (lines : List String) : String := lines.foldr (fun line rest => line ++ rest) ""

/-- From the specification: what an item contributes at depth `depth`.  An integer or a
string gives one line, `2 * depth` spaces, the text of the value, a newline; a nested
document gives its start marker indented by `2 * depth` spaces, its items at depth
`depth + 1` in sequence order, and its end marker with the same indentation. -/
def rendering : Store Payload → Drawable → Nat → String
  | [], _, _ => ""
  | this :: older, e, depth =>
      if e.self_ = older.length then
        match this.data_ with
        | .int i => spaces (2 * depth) ++ toString i ++ "\n"
        | .string s => spaces (2 * depth) ++ s ++ "\n"
        | .Document doc =>
            spaces (2 * depth) ++ "<document>\n" ++
              concat (doc.map fun item => rendering older item (depth + 1)) ++
              spaces (2 * depth) ++ "</document>\n"
      else rendering older e depth

/-- From the specification: the rendering of a document at depth `depth`, one entry per
item, bracketed by the start and end markers. -/
def document_rendering (σ : Store Payload) (doc : Document) (depth : Nat) : String :=
  spaces (2 * depth) ++ "<document>\n" ++
    concat (doc.map fun item => rendering σ item (depth + 1)) ++
    spaces (2 * depth) ++ "</document>\n"

/-- The number of levels below its own depth at which drawing an item draws something: 0
for an integer, a string and an empty document. -/
def levels : Store Payload → Drawable → Nat
  | [], _ => 0
  | this :: older, e =>
      if e.self_ = older.length then
        match this.data_ with
        | .Document doc => (doc.map fun item => levels older item + 1).foldr max 0
        | _ => 0
      else levels older e

/-- The number of levels below its own depth at which drawing a document draws
something. -/
def document_levels (σ : Store Payload) (doc : Document) : Nat :=
  (doc.map fun item => levels σ item + 1).foldr max 0

/-- Whether a handle, and every handle in the document it may wrap, points to an object of
the store, as every handle of a running program does. -/
def live : Store Payload → Drawable → Bool
  | [], _ => false
  | this :: older, e =>
      if e.self_ = older.length then
        match this.data_ with
        | .Document doc => doc.all fun item => live older item
        | _ => true
      else live older e

end drawable

/-! ## Auxiliary facts -/

open detail

theorem forM_ok {ε α : Type} (l : List α) (f : α → Except ε Unit)
    (h : ∀ x ∈ l, f x = .ok ()) : l.forM f = .ok () := by
  induction l with
  | nil => rfl
  | cons a as ih =>
      have ha : f a = .ok () := h a (List.mem_cons_self a as)
      have hr : as.forM f = .ok () := ih fun x hx => h x (List.mem_cons_of_mem a hx)
      simp [List.forM, ha, hr, bind, Except.bind]

theorem contains_op (ops : List String) (op : String) :
    (ops.map Member.op).contains (.op op) = ops.contains op := by
  induction ops with
  | nil => rfl
  | cons a as ih => simp [List.contains_cons, ih]

theorem deref_new {V : Type} (obj : Object V) (σ : Store V) :
    Store.deref (obj :: σ) σ.length = some obj := by
  simp [Store.deref]

theorem toList_ofList (l : List Ty) : (Pack.ofList l).toList = l := by
  induction l with
  | nil => rfl
  | cons t ts ih => simp [Pack.ofList, Pack.toList, ih]

theorem rfold_snoc {α : Type} (F : α → α → α) (S : α) (Ss : List α) (B : α) :
    rfold F (S :: Ss ++ [B]) = some ((S :: Ss).foldr F B) := by
  induction Ss generalizing S with
  | nil => rfl
  | cons S1 Ss ih =>
      have h := ih S1
      simp only [List.cons_append] at h ⊢
      cases hSs : Ss ++ [B] with
      | nil => simp at hSs
      | cons x xs =>
          rw [hSs] at h
          simp [rfold, h]

/-! ### One inheritance level of the walks over a class hierarchy -/

theorem lookup_Holder (f : Nat) (T : Ty) (m : Member) :
    lookup (f + 1) (.Holder T) m =
      if (declared (.Holder T)).contains m then .found (.Holder T) else .notFound := by
  simp [lookup, bases]

theorem lookup_Container (f : Nat) (K M : Ty) (m : Member) :
    lookup (f + 1) (.Container K M) m =
      if (declared (.Container K M)).contains m then .found (.Container K M) else .notFound := by
  simp [lookup, bases]

theorem lookup_Concept (f : Nat) (S : Ty) (m : Member) :
    lookup (f + 1) (.Concept S) m =
      if (declared (.Concept S)).contains m then .found (.Concept S)
      else match bases (.Concept S) with
        | none => .notFound
        | some Bs => Bs.foldl (fun acc B => acc.merge (lookup f B m)) .notFound := rfl

theorem lookup_Model (f : Nat) (S H : Ty) (m : Member) :
    lookup (f + 1) (.Model S H) m =
      if (declared (.Model S H)).contains m then .found (.Model S H)
      else match bases (.Model S H) with
        | none => .notFound
        | some Bs => Bs.foldl (fun acc B => acc.merge (lookup f B m)) .notFound := rfl

theorem lookup_ExternalInterface (f : Nat) (S C : Ty) (m : Member) :
    lookup (f + 1) (.ExternalInterface S C) m =
      if (declared (.ExternalInterface S C)).contains m then .found (.ExternalInterface S C)
      else match bases (.ExternalInterface S C) with
        | none => .notFound
        | some Bs => Bs.foldl (fun acc B => acc.merge (lookup f B m)) .notFound := rfl

theorem lookup_TypeErasureSingeSpec (f : Nat) (S : Ty) (m : Member) :
    lookup (f + 1) (.TypeErasureSingeSpec S) m =
      if (declared (.TypeErasureSingeSpec S)).contains m then .found (.TypeErasureSingeSpec S)
      else match bases (.TypeErasureSingeSpec S) with
        | none => .notFound
        | some Bs => Bs.foldl (fun acc B => acc.merge (lookup f B m)) .notFound := rfl

theorem finalOverrider_Model (f : Nat) (S H : Ty) (op : String) :
    finalOverrider (f + 1) (.Model S H) op =
      if (declared (.Model S H)).contains (.op op) then some (.Model S H)
      else match bases (.Model S H) with
        | none => none
        | some Bs => Bs.findSome? fun B => finalOverrider f B op := rfl

theorem finalOverrider_Holder (f : Nat) (T : Ty) (op : String) :
    finalOverrider f (.Holder T) op = none := by
  cases f <;> rfl

theorem finalOverrider_Concept (f : Nat) (S : Ty) (op : String) :
    finalOverrider f (.Concept S) op = none := by
  cases f <;> rfl

theorem overriders_Model (f : Nat) (S H : Ty) :
    overriders (f + 1) (.Model S H) =
      (match S with
        | .spec _ ops => ops.map fun op => (Ty.Model S H, op)
        | _ => []) ++
      (match bases (.Model S H) with
        | none => []
        | some Bs => Bs.flatMap fun B => overriders f B) := rfl

theorem overriders_Holder (f : Nat) (T : Ty) : overriders f (.Holder T) = [] := by
  cases f <;> rfl

theorem overriders_Concept (f : Nat) (S : Ty) : overriders f (.Concept S) = [] := by
  cases f <;> rfl

theorem layers_Model (f : Nat) (S H : Ty) :
    layers (f + 1) (.Model S H) =
      (match S with
        | .spec _ _ => [S]
        | _ => []) ++
      (match bases (.Model S H) with
        | none => []
        | some Bs => Bs.flatMap fun B => layers f B) := rfl

theorem layers_Holder (f : Nat) (T : Ty) : layers f (.Holder T) = [] := by
  cases f <;> rfl

theorem layers_Concept (f : Nat) (S : Ty) : layers f (.Concept S) = [] := by
  cases f <;> rfl

theorem operations_spec (f : Nat) (n : String) (ops : List String) :
    operations (f + 1) (.Concept (.spec n ops)) = ops := rfl

theorem operations_MergeSpecs (f : Nat) (P : Pack) :
    operations (f + 1) (.Concept (.MergeSpecs P)) =
      match bases (.Concept (.MergeSpecs P)) with
      | none => []
      | some Bs => Bs.flatMap fun B => operations f B := rfl

theorem complete_Holder (f : Nat) (T : Ty) : complete (f + 1) (.Holder T) = true := rfl

theorem complete_Concept (f : Nat) (S : Ty) :
    complete (f + 1) (.Concept S) =
      match bases (.Concept S) with
      | none => false
      | some Bs => Bs.all fun B => complete f B := rfl

theorem complete_Model (f : Nat) (S H : Ty) :
    complete (f + 1) (.Model S H) =
      match bases (.Model S H) with
      | none => false
      | some Bs => Bs.all fun B => complete f B := rfl

theorem contains_op_Data (ops : List String) :
    (ops.map Member.op).contains .Data = false := by
  induction ops with
  | nil => rfl
  | cons a as ih => simp [List.contains_cons, ih]

theorem contains_op_holder (ops : List String) :
    (ops.map Member.op).contains .get_from_rubber_types_holder_ = false := by
  induction ops with
  | nil => rfl
  | cons a as ih => simp [List.contains_cons, ih]

theorem contains_op_Concept (ops : List String) :
    (ops.map Member.op).contains .Concept = false := by
  induction ops with
  | nil => rfl
  | cons a as ih => simp [List.contains_cons, ih]

theorem contains_op_container (ops : List String) :
    (ops.map Member.op).contains .get_from_rubber_types_container_ = false := by
  induction ops with
  | nil => rfl
  | cons a as ih => simp [List.contains_cons, ih]

theorem isBaseOf_spec_Concept (B : Ty) (n : String) (ops : List String) :
    isBaseOf B (.Concept (.spec n ops)) = false := by
  simp [isBaseOf, Ty.weight, ancestors, bases]

theorem instantiate_ok {V A R : Type} (Γ : Duck V A R) (K C : Ty)
    (hc : complete C.weight C = true)
    (ho : ∀ x ∈ overriders C.weight C, Model.compiles Γ x.1 x.2 = .ok ())
    (hp : ∀ op ∈ operations K.weight K, (finalOverrider C.weight C op).isSome = true) :
    instantiate Γ K C = .ok () := by
  unfold instantiate
  rw [if_pos hc, forM_ok _ _ ho, forM_ok]
  · rfl
  · intro op hop
    rw [if_pos (hp op hop)]

/-! ## The fuel of the walks over a class hierarchy is enough -/

theorem Ty.weight_pos : (t : Ty) → 0 < t.weight
  | .named _ => by simp [Ty.weight]
  | .spec _ _ => by simp [Ty.weight]
  | .MergeSpecs _ => by simp [Ty.weight]
  | .Holder _ => by simp [Ty.weight]
  | .Concept S => by
      have := Ty.weight_pos S
      simpa [Ty.weight] using this
  | .Model S H => by
      have := Ty.weight_pos S
      simp only [Ty.weight]
      omega
  | .ExternalInterface S C => by
      have := Ty.weight_pos S
      simp only [Ty.weight]
      omega
  | .Container _ _ => by simp [Ty.weight]
  | .TypeErasureSingeSpec _ => by simp [Ty.weight]

theorem declaringSpec_weight (S : Ty) : (declaringSpec S).weight ≤ S.weight := by
  induction S using declaringSpec.induct with
  | case1 S ih =>
      simp only [declaringSpec, Ty.weight, Pack.weight]
      omega
  | case2 S h =>
      rw [declaringSpec]
      intro S' hS
      exact h S' hS

theorem weight_ConceptOf : (P : Pack) → (B : Ty) → B ∈ P.toList.map ConceptOf →
    B.weight ≤ P.weight
  | .nil, B, h => by simp [Pack.toList] at h
  | .cons t p, B, h => by
      simp only [Pack.toList, List.map_cons, List.mem_cons] at h
      rcases h with rfl | h
      · have := declaringSpec_weight t
        simp only [ConceptOf, Ty.weight, Pack.weight]
        omega
      · have := weight_ConceptOf p B h
        simp only [Pack.weight]
        omega

theorem weight_foldr_ModelOf : (P : Pack) → (H : Ty) →
    (P.toList.foldr ModelOf H).weight ≤ P.weight + H.weight
  | .nil, H => by simp [Pack.toList, Pack.weight]
  | .cons t p, H => by
      have h1 := weight_foldr_ModelOf p H
      have h2 := declaringSpec_weight t
      simp only [Pack.toList, List.foldr_cons, ModelOf, Ty.weight, Pack.weight]
      omega

theorem weight_foldr_ExternalInterfaceOf : (P : Pack) → (C : Ty) →
    (P.toList.foldr ExternalInterfaceOf C).weight ≤ P.weight + C.weight
  | .nil, C => by simp [Pack.toList, Pack.weight]
  | .cons t p, C => by
      have h1 := weight_foldr_ExternalInterfaceOf p C
      have h2 := declaringSpec_weight t
      simp only [Pack.toList, List.foldr_cons, ExternalInterfaceOf, Ty.weight, Pack.weight]
      omega

theorem rfold_eq_foldr {α : Type} (F : α → α → α) (Ss : List α) (B R : α)
    (h : rfold F (Ss ++ [B]) = some R) : R = Ss.foldr F B := by
  cases Ss with
  | nil => simp [rfold] at h
  | cons S Ss =>
      rw [rfold_snoc] at h
      exact (Option.some.inj h).symm

theorem weight_bases (C : Ty) (Bs : List Ty) (h : bases C = some Bs) :
    ∀ B ∈ Bs, B.weight < C.weight := by
  intro B hB
  unfold bases at h
  split at h
  all_goals first
    | (simp only [Option.some.injEq] at h; subst h; exact absurd hB (List.not_mem_nil _))
    | exact Option.noConfusion h
    | skip
  case h_3 S =>
    simp only [Option.some.injEq] at h
    subst h
    simp only [List.mem_singleton] at hB
    subst hB
    simp only [Ty.weight, Pack.weight]
    omega
  case h_9 P _ =>
    split at h
    · simp only [Option.some.injEq] at h
      subst h
      have := weight_ConceptOf P B hB
      simp only [Ty.weight]
      omega
    · simp only [reduceCtorEq] at h
  case h_11 n ops H =>
    simp only [Option.some.injEq] at h
    subst h
    have := Ty.weight_pos H
    simp only [List.mem_cons, List.mem_singleton, List.not_mem_nil, or_false] at hB
    rcases hB with rfl | rfl <;> simp only [Ty.weight] <;> omega
  case h_13 P H _ =>
    cases hR : MergeSpecs.Model.Base P.toList H with
    | none => simp [hR] at h
    | some R =>
        simp only [hR, Option.map_some', Option.some.injEq] at h
        subst h
        have h1 := rfold_eq_foldr ModelOf P.toList H R hR
        have h2 := weight_foldr_ModelOf P H
        have h3 := Ty.weight_pos H
        simp only [List.mem_cons, List.mem_singleton, List.not_mem_nil, or_false] at hB
        rcases hB with rfl | rfl
        · rw [h1]
          simp only [Ty.weight]
          omega
        · simp only [Ty.weight]
          omega
  case h_15 n ops C0 =>
    simp only [Option.some.injEq] at h
    subst h
    simp only [List.mem_singleton] at hB
    subst hB
    simp only [Ty.weight]
    omega
  case h_17 P C0 _ =>
    cases hR : MergeSpecs.ExternalInterface.Base P.toList C0 with
    | none => simp [hR] at h
    | some R =>
        simp only [hR, Option.map_some', Option.some.injEq] at h
        subst h
        have h1 := rfold_eq_foldr ExternalInterfaceOf P.toList C0 R hR
        have h2 := weight_foldr_ExternalInterfaceOf P C0
        simp only [List.mem_singleton] at hB
        subst hB
        rw [h1]
        simp only [Ty.weight]
        omega
  case h_19 S =>
    simp only [Option.some.injEq] at h
    subst h
    simp only [List.mem_singleton] at hB
    subst hB
    have := declaringSpec_weight S
    simp only [ExternalInterfaceOf, Ty.weight]
    omega

theorem foldl_merge_congr (F G : Ty → Lookup) (Bs : List Ty) (h : ∀ B ∈ Bs, F B = G B)
    (acc : Lookup) :
    Bs.foldl (fun acc B => acc.merge (F B)) acc = Bs.foldl (fun acc B => acc.merge (G B)) acc := by
  induction Bs generalizing acc with
  | nil => rfl
  | cons B Bs ih =>
      simp only [List.foldl_cons, h B (List.mem_cons_self _ _)]
      exact ih (fun B' hB' => h B' (List.mem_cons_of_mem _ hB')) _

theorem lookup_fuel (m : Member) (f : Nat) :
    ∀ (g : Nat) (C : Ty), C.weight ≤ f → C.weight ≤ g → lookup f C m = lookup g C m := by
  induction f with
  | zero =>
      intro g C hf _
      have := Ty.weight_pos C
      omega
  | succ f ih =>
      intro g C hf hg
      have hpos := Ty.weight_pos C
      obtain ⟨g, rfl⟩ : ∃ g', g = g' + 1 := ⟨g - 1, by omega⟩
      simp only [lookup]
      split
      · rfl
      · cases hb : bases C with
        | none => rfl
        | some Bs =>
            simp only
            apply foldl_merge_congr
            intro B hB
            have := weight_bases C Bs hb B hB
            exact ih g B (by omega) (by omega)

/-- More fuel than the weight of the class does not change the result of name lookup. -/
theorem memberLookup_fuel (C : Ty) (m : Member) (f : Nat) (hf : C.weight ≤ f) :
    lookup f C m = memberLookup C m :=
  lookup_fuel m f C.weight C hf (le_refl _)

theorem findSome_congr {β : Type} (F G : Ty → Option β) (Bs : List Ty)
    (h : ∀ B ∈ Bs, F B = G B) : Bs.findSome? F = Bs.findSome? G := by
  induction Bs with
  | nil => rfl
  | cons B Bs ih =>
      simp only [List.findSome?_cons, h B (List.mem_cons_self _ _),
        ih (fun B' hB' => h B' (List.mem_cons_of_mem _ hB'))]

theorem flatMap_congr {β : Type} (F G : Ty → List β) (Bs : List Ty)
    (h : ∀ B ∈ Bs, F B = G B) : Bs.flatMap F = Bs.flatMap G := by
  induction Bs with
  | nil => rfl
  | cons B Bs ih =>
      simp only [List.flatMap_cons, h B (List.mem_cons_self _ _),
        ih (fun B' hB' => h B' (List.mem_cons_of_mem _ hB'))]

theorem all_congr (F G : Ty → Bool) (Bs : List Ty)
    (h : ∀ B ∈ Bs, F B = G B) : Bs.all F = Bs.all G := by
  induction Bs with
  | nil => rfl
  | cons B Bs ih =>
      simp only [List.all_cons, h B (List.mem_cons_self _ _),
        ih (fun B' hB' => h B' (List.mem_cons_of_mem _ hB'))]

theorem finalOverrider_fuel (op : String) (f : Nat) :
    ∀ (g : Nat) (C : Ty), C.weight ≤ f → C.weight ≤ g →
      finalOverrider f C op = finalOverrider g C op := by
  induction f with
  | zero =>
      intro g C hf _
      have := Ty.weight_pos C
      omega
  | succ f ih =>
      intro g C hf hg
      have hpos := Ty.weight_pos C
      obtain ⟨g, rfl⟩ : ∃ g', g = g' + 1 := ⟨g - 1, by omega⟩
      cases C with
      | Model S H =>
          simp only [finalOverrider]
          split
          · rfl
          · cases hb : bases (.Model S H) with
            | none => rfl
            | some Bs =>
                simp only
                apply findSome_congr
                intro B hB
                have := weight_bases _ Bs hb B hB
                exact ih g B (by omega) (by omega)
      | _ => rfl

theorem overriders_fuel (f : Nat) :
    ∀ (g : Nat) (C : Ty), C.weight ≤ f → C.weight ≤ g → overriders f C = overriders g C := by
  induction f with
  | zero =>
      intro g C hf _
      have := Ty.weight_pos C
      omega
  | succ f ih =>
      intro g C hf hg
      have hpos := Ty.weight_pos C
      obtain ⟨g, rfl⟩ : ∃ g', g = g' + 1 := ⟨g - 1, by omega⟩
      cases C with
      | Model S H =>
          simp only [overriders]
          congr 1
          cases hb : bases (.Model S H) with
          | none => rfl
          | some Bs =>
              simp only
              apply flatMap_congr
              intro B hB
              have := weight_bases _ Bs hb B hB
              exact ih g B (by omega) (by omega)
      | _ => rfl

theorem layers_fuel (f : Nat) :
    ∀ (g : Nat) (C : Ty), C.weight ≤ f → C.weight ≤ g → layers f C = layers g C := by
  induction f with
  | zero =>
      intro g C hf _
      have := Ty.weight_pos C
      omega
  | succ f ih =>
      intro g C hf hg
      have hpos := Ty.weight_pos C
      obtain ⟨g, rfl⟩ : ∃ g', g = g' + 1 := ⟨g - 1, by omega⟩
      cases C with
      | Model S H =>
          simp only [layers]
          congr 1
          cases hb : bases (.Model S H) with
          | none => rfl
          | some Bs =>
              simp only
              apply flatMap_congr
              intro B hB
              have := weight_bases _ Bs hb B hB
              exact ih g B (by omega) (by omega)
      | _ => rfl

theorem operations_fuel (f : Nat) :
    ∀ (g : Nat) (K : Ty), K.weight ≤ f → K.weight ≤ g → operations f K = operations g K := by
  induction f with
  | zero =>
      intro g K hf _
      have := Ty.weight_pos K
      omega
  | succ f ih =>
      intro g K hf hg
      have hpos := Ty.weight_pos K
      obtain ⟨g, rfl⟩ : ∃ g', g = g' + 1 := ⟨g - 1, by omega⟩
      cases K with
      | Concept S =>
          cases S with
          | spec n ops => rfl
          | _ =>
              simp only [operations]
              split
              · rfl
              · rename_i Bs hb
                apply flatMap_congr
                intro B hB
                have := weight_bases _ Bs hb B hB
                exact ih g B (by omega) (by omega)
      | _ => rfl

theorem complete_fuel (f : Nat) :
    ∀ (g : Nat) (C : Ty), C.weight ≤ f → C.weight ≤ g → complete f C = complete g C := by
  induction f with
  | zero =>
      intro g C hf _
      have := Ty.weight_pos C
      omega
  | succ f ih =>
      intro g C hf hg
      have hpos := Ty.weight_pos C
      obtain ⟨g, rfl⟩ : ∃ g', g = g' + 1 := ⟨g - 1, by omega⟩
      simp only [complete]
      cases hb : bases C with
      | none => rfl
      | some Bs =>
          simp only
          apply all_congr
          intro B hB
          have := weight_bases _ Bs hb B hB
          exact ih g B (by omega) (by omega)

/-! ## The right fold and the layering of a merge -/

/-- C9 (layering order of a merge).  For a list of at least two descriptions and a base,
`Rfold<F, S1, ..., Sn, B>` is the right fold `F<S1, F<S2, ... F<Sn, B>>>`; so the base of
the merged model is the chain of the models of `S1, ..., Sn` in input order, `S1` outermost,
ending at the holder, and the base of the merged facade is the same fold of the facades,
ending at the container. -/
theorem merge_layering_order {α : Type} (F : α → α → α) (Ss : List α) (B : α)
    (Specs : List Ty) (Holder Container : Ty)
    (hSs : 2 ≤ Ss.length) (hSpecs : 2 ≤ Specs.length) :
    Rfold F (Ss ++ [B]) = some (Ss.foldr F B) ∧
    MergeSpecs.Model.Base Specs Holder = some (Specs.foldr ModelOf Holder) ∧
    bases (.Model (.MergeSpecs (Pack.ofList Specs)) Holder) =
      some [Specs.foldr ModelOf Holder, .Concept (.MergeSpecs (Pack.ofList Specs))] ∧
    MergeSpecs.ExternalInterface.Base Specs Container =
      some (Specs.foldr ExternalInterfaceOf Container) ∧
    bases (.ExternalInterface (.MergeSpecs (Pack.ofList Specs)) Container) =
      some [Specs.foldr ExternalInterfaceOf Container] := by
  obtain ⟨S, Ss, rfl⟩ : ∃ S Ss', Ss = S :: Ss' := by
    cases Ss with
    | nil => simp at hSs
    | cons S Ss => exact ⟨S, Ss, rfl⟩
  obtain ⟨S1, S2, Specs, rfl⟩ : ∃ S1 S2 Specs', Specs = S1 :: S2 :: Specs' := by
    match Specs, hSpecs with
    | S1 :: S2 :: Specs, _ => exact ⟨S1, S2, Specs, rfl⟩
  have hM := rfold_snoc ModelOf S1 (S2 :: Specs) Holder
  have hE := rfold_snoc ExternalInterfaceOf S1 (S2 :: Specs) Container
  refine ⟨rfold_snoc F S Ss B, hM, ?_, hE, ?_⟩
  · simp only [Pack.ofList, bases, MergeSpecs.Model.Base, Rfold, Pack.toList, toList_ofList]
    rw [hM]
    rfl
  · simp only [Pack.ofList, bases, MergeSpecs.ExternalInterface.Base, Rfold, Pack.toList,
      toList_ofList]
    rw [hE]
    rfl

/-- Witness for `merge_layering_order`: the three descriptions of the examples. -/
theorem merge_layering_order_witness :
    Rfold Nat.add ([1, 2] ++ [3]) = some ([1, 2].foldr Nat.add 3) ∧
    MergeSpecs.Model.Base [examples.GeometrySpec, examples.WidgetSpec]
        (.Holder (.named "UserWidget")) =
      some ([examples.GeometrySpec, examples.WidgetSpec].foldr ModelOf
        (.Holder (.named "UserWidget"))) :=
  have h := merge_layering_order Nat.add [1, 2] 3 [examples.GeometrySpec, examples.WidgetSpec]
    (.Holder (.named "UserWidget")) (.Container (.named "K") (.named "M"))
    (by decide) (by decide)
  ⟨h.1, h.2.1⟩

/-! ## Chains of model layers -/

theorem weight_chain (Ss : List (String × List String)) (T : Ty) :
    (Ss.foldr (fun S H => Ty.Model (.spec S.1 S.2) H) (.Holder T)).weight = Ss.length + 1 := by
  induction Ss with
  | nil => rfl
  | cons S Ss ih => simp only [List.foldr_cons, Ty.weight, ih, List.length_cons]; omega

theorem lookup_spec_Concept (f : Nat) (n : String) (ops : List String) (m : Member)
    (hm : (ops.map Member.op).contains m = false) :
    lookup f (.Concept (.spec n ops)) m = .notFound := by
  cases f with
  | zero => rfl
  | succ f =>
      simp only [lookup_Concept, declared, hm, bases, Bool.false_eq_true, if_false,
        List.foldl_nil]

theorem lookup_chain (Ss : List (String × List String)) (T : Ty) (m : Member)
    (hm : m = .Data ∨ m = .get_from_rubber_types_holder_) (f : Nat) (hf : Ss.length + 1 ≤ f) :
    lookup f (Ss.foldr (fun S H => Ty.Model (.spec S.1 S.2) H) (.Holder T)) m =
      .found (.Holder T) := by
  induction Ss generalizing f with
  | nil =>
      obtain ⟨f, rfl⟩ : ∃ g, f = g + 1 := ⟨f - 1, by simp at hf; omega⟩
      rcases hm with rfl | rfl <;> simp [lookup_Holder, declared]
  | cons S Ss ih =>
      obtain ⟨f, rfl⟩ : ∃ g, f = g + 1 := ⟨f - 1, by simp at hf; omega⟩
      have h1 := ih f (by simp at hf; omega)
      have hc : (S.2.map Member.op).contains m = false := by
        rcases hm with rfl | rfl
        · exact contains_op_Data _
        · exact contains_op_holder _
      have h2 := lookup_spec_Concept f S.1 S.2 m hc
      simp only [List.foldr_cons, lookup_Model, declared, hc, bases, List.foldl_cons,
        List.foldl_nil, h1, h2, Lookup.merge, Bool.false_eq_true, if_false]

theorem model_get_chain {V : Type} (S : String × List String) (Ss : List (String × List String))
    (T : Ty) (this_ : Object V) :
    model_get ((S :: Ss).foldr (fun S H => Ty.Model (.spec S.1 S.2) H) (.Holder T)) this_ =
      .ok (T, this_.data_) := by
  have hw := weight_chain Ss T
  have h1 := lookup_chain Ss T .Data (Or.inl rfl) (Ss.length + 1) (le_refl _)
  have h2 := lookup_chain Ss T .get_from_rubber_types_holder_ (Or.inr rfl) (Ss.length + 1)
    (le_refl _)
  simp only [model_get, model_get.Data, List.foldr_cons, UnwrapHolder, unwrap_holder, resolve,
    memberLookup, hw, h1, h2, Except.map, Holder.get_from_rubber_types_holder_]

/-- C10 (holder unwrapping), what the code computes.  On a chain of model layers around
`Holder<T>`, `UnwrapHolder` gives `Holder<T>` for no layer and for one layer; for two or
more layers it peels off the outermost layer only, so its result is the rest of the chain
and not the holder, although the comment above `unwrap_holder` says that it peels off
layers until it reaches the holder.  `model_get` nevertheless returns the payload the
holder was built with, for every chain of layers of descriptions: the accessor and `Data`
are found in the holder through the remaining base classes. -/
theorem UnwrapHolder_peels_one_layer {V : Type} (M1 M2 H T : Ty)
    (S : String × List String) (Ss : List (String × List String)) (this_ : Object V) :
    UnwrapHolder (.Holder T) = some (.Holder T) ∧
    UnwrapHolder (.Model M1 (.Holder T)) = some (.Holder T) ∧
    UnwrapHolder (.Model M1 (.Model M2 H)) = some (.Model M2 H) ∧
    UnwrapHolder (.Model M1 (.Model M2 H)) ≠ some (.Holder T) ∧
    model_get ((S :: Ss).foldr (fun S H => Ty.Model (.spec S.1 S.2) H) (.Holder T)) this_ =
      .ok (T, this_.data_) := by
  refine ⟨rfl, rfl, rfl, ?_, model_get_chain S Ss T this_⟩
  intro h
  simp [UnwrapHolder, unwrap_holder] at h

/-! ## One description -/

theorem instantiate_single {V A R : Type} (Γ : Duck V A R) (name : String) (ops : List String)
    (T : Ty) (hT : ∀ op ∈ ops, (Γ T op).isSome) :
    instantiate Γ (.Concept (.spec name ops)) (.Model (.spec name ops) (.Holder T)) = .ok () := by
  apply instantiate_ok
  · simp [Ty.weight, Pack.weight, Pack.ofList, complete_Model, complete_Concept, complete_Holder,
      bases, MergeSpecs.Model.Base, Rfold, rfold, Pack.toList, ModelOf, ConceptOf, declaringSpec]
  · intro x hx
    have hx' : ∃ op ∈ ops, (Ty.Model (.spec name ops) (.Holder T), op) = x := by
      simpa [Ty.weight, Pack.weight, Pack.ofList, overriders_Model, overriders_Holder,
        overriders_Concept, bases, MergeSpecs.Model.Base, Rfold, rfold, Pack.toList, ModelOf,
        declaringSpec] using hx
    obtain ⟨op, hop, rfl⟩ := hx'
    have := hT op hop
    simp [Model.compiles, model_get.Data, UnwrapHolder, unwrap_holder, resolve, memberLookup,
      Ty.weight, Pack.weight, Pack.ofList, Pack.toList, lookup_Model, lookup_Holder,
      lookup_Concept, declared, bases, MergeSpecs.Model.Base, Rfold, rfold, ModelOf, ConceptOf,
      declaringSpec, Lookup.merge, contains_op_Data, contains_op_holder, this]
  · intro op hop
    have hop' : op ∈ ops := by
      simpa [Ty.weight, Pack.weight, Pack.ofList, operations_spec, operations_MergeSpecs, bases,
        ConceptOf, declaringSpec, Pack.toList] using hop
    simp [Ty.weight, Pack.weight, Pack.ofList, finalOverrider_Model, finalOverrider_Holder,
      finalOverrider_Concept, declared, bases, MergeSpecs.Model.Base, Rfold, rfold,
      Pack.toList, ModelOf, declaringSpec, contains_op, hop']

theorem construct_single {V A R : Type} (Γ : Duck V A R) (σ : Store V) (name : String)
    (ops : List String) (T : Ty) (v : V) (hT : ∀ op ∈ ops, (Γ T op).isSome) :
    construct Γ σ (TypeErasure [.spec name ops]) T v =
      .ok (⟨.Model (.spec name ops) (.Holder T), v⟩ :: σ, ⟨σ.length⟩) := by
  have h := instantiate_single Γ name ops T hT
  simp [construct, resolve, memberLookup, TypeErasure, Ty.weight, Pack.weight, Pack.ofList,
    lookup_TypeErasureSingeSpec, lookup_ExternalInterface, lookup_Container, declared, bases,
    MergeSpecs.ExternalInterface.Base, Rfold, rfold, Pack.toList, ExternalInterfaceOf,
    ConceptOf, declaringSpec, Lookup.merge, contains_op_container, h]

theorem invoke_single {V A R : Type} (Γ : Duck V A R) (σ : Store V) (name : String)
    (ops : List String) (T : Ty) (v : V) (op : String) (f : V → A → R) (args : A)
    (hop : op ∈ ops) (hf : Γ T op = some f) :
    invoke Γ (⟨.Model (.spec name ops) (.Holder T), v⟩ :: σ) (TypeErasure [.spec name ops])
        ⟨σ.length⟩ op args =
      .ok ⟨.ExternalInterface (.spec name ops)
            (.Container (.Concept (.spec name ops)) (.spec name ops)),
          .Model (.spec name ops) (.Holder T), f v args⟩ := by
  simp [invoke, ExternalInterface.op, Concept.op, Model.op, model_get, model_get.Data,
    Holder.get_from_rubber_types_holder_, interface_get, interface_get.Concept,
    Container.get_from_rubber_types_container_, resolve, memberLookup, UnwrapHolder,
    unwrap_holder, UnwrapContainer, unwrap_container, TypeErasure, Ty.weight, Pack.weight,
    Pack.ofList, Pack.toList, lookup_TypeErasureSingeSpec, lookup_ExternalInterface,
    lookup_Container, lookup_Concept, lookup_Model, lookup_Holder, finalOverrider_Model,
    finalOverrider_Holder, finalOverrider_Concept, declared, bases, MergeSpecs.Model.Base,
    MergeSpecs.ExternalInterface.Base, Rfold, rfold, ModelOf, ConceptOf, ExternalInterfaceOf,
    declaringSpec, Lookup.merge, contains_op, contains_op_Data, contains_op_holder,
    contains_op_Concept, contains_op_container, deref_new, Except.map, hop, hf]

/-! ## Two merged descriptions -/

theorem instantiate_pair {V A R : Type} (Γ : Duck V A R) (nA nB : String)
    (opsA opsB : List String) (T : Ty) (P : Pack) (hne : nA ≠ nB)
    (hP : P = .ofList [.spec nA opsA, .spec nB opsB] ∨
      P = .ofList [.MergeSpecs (.ofList [.spec nA opsA]), .MergeSpecs (.ofList [.spec nB opsB])])
    (hT : ∀ op ∈ opsA ++ opsB, (Γ T op).isSome) :
    instantiate Γ (.Concept (.MergeSpecs P)) (.Model (.MergeSpecs P) (.Holder T)) = .ok () := by
  apply instantiate_ok
  · rcases hP with rfl | rfl <;>
    simp [Ty.weight, Pack.weight, Pack.ofList, complete_Model, complete_Concept, complete_Holder,
      bases, MergeSpecs.Model.Base, Rfold, rfold, Pack.toList, ModelOf, ConceptOf, declaringSpec, hne]
  · intro x hx
    have hx' : (∃ a ∈ opsA,
          (Ty.Model (.spec nA opsA) (.Model (.spec nB opsB) (.Holder T)), a) = x) ∨
        ∃ a ∈ opsB, (Ty.Model (.spec nB opsB) (.Holder T), a) = x := by
      rcases hP with rfl | rfl <;>
      simpa [Ty.weight, Pack.weight, Pack.ofList, overriders_Model, overriders_Holder,
        overriders_Concept, bases, MergeSpecs.Model.Base, Rfold, rfold, Pack.toList, ModelOf,
        declaringSpec] using hx
    rcases hx' with ⟨op, hop, rfl⟩ | ⟨op, hop, rfl⟩
    · have := hT op (by simp [hop])
      simp [Model.compiles, model_get.Data, UnwrapHolder, unwrap_holder, resolve, memberLookup,
      Ty.weight, Pack.weight, Pack.ofList, Pack.toList, lookup_Model, lookup_Holder,
      lookup_Concept, declared, bases, MergeSpecs.Model.Base, Rfold, rfold, ModelOf, ConceptOf,
      declaringSpec, Lookup.merge, contains_op_Data, contains_op_holder, this]
    · have := hT op (by simp [hop])
      simp [Model.compiles, model_get.Data, UnwrapHolder, unwrap_holder, resolve, memberLookup,
      Ty.weight, Pack.weight, Pack.ofList, Pack.toList, lookup_Model, lookup_Holder,
      lookup_Concept, declared, bases, MergeSpecs.Model.Base, Rfold, rfold, ModelOf, ConceptOf,
      declaringSpec, Lookup.merge, contains_op_Data, contains_op_holder, this]
  · intro op hop
    have hop' : op ∈ opsA ∨ op ∈ opsB := by
      rcases hP with rfl | rfl <;>
      simpa [Ty.weight, Pack.weight, Pack.ofList, operations_spec, operations_MergeSpecs, bases,
        ConceptOf, declaringSpec, Pack.toList, hne] using hop
    by_cases hA : op ∈ opsA
    · rcases hP with rfl | rfl <;>
      simp [Ty.weight, Pack.weight, Pack.ofList, finalOverrider_Model, finalOverrider_Holder,
      finalOverrider_Concept, declared, bases, MergeSpecs.Model.Base, Rfold, rfold,
      Pack.toList, ModelOf, declaringSpec, contains_op, hA]
    · have hB : op ∈ opsB := hop'.resolve_left hA
      rcases hP with rfl | rfl <;>
      simp [Ty.weight, Pack.weight, Pack.ofList, finalOverrider_Model, finalOverrider_Holder,
      finalOverrider_Concept, declared, bases, MergeSpecs.Model.Base, Rfold, rfold,
      Pack.toList, ModelOf, declaringSpec, contains_op, hA, hB]

theorem construct_pair {V A R : Type} (Γ : Duck V A R) (σ : Store V) (nA nB : String)
    (opsA opsB : List String) (T : Ty) (v : V) (P : Pack) (hne : nA ≠ nB)
    (hP : P = .ofList [.spec nA opsA, .spec nB opsB] ∨
      P = .ofList [.MergeSpecs (.ofList [.spec nA opsA]), .MergeSpecs (.ofList [.spec nB opsB])])
    (hT : ∀ op ∈ opsA ++ opsB, (Γ T op).isSome) :
    construct Γ σ (.TypeErasureSingeSpec (.MergeSpecs P)) T v =
      .ok (⟨.Model (.MergeSpecs P) (.Holder T), v⟩ :: σ, ⟨σ.length⟩) := by
  have h := instantiate_pair Γ nA nB opsA opsB T P hne hP hT
  rcases hP with rfl | rfl <;>
  simp [construct, resolve, memberLookup, TypeErasure, Ty.weight, Pack.weight, Pack.ofList,
    lookup_TypeErasureSingeSpec, lookup_ExternalInterface, lookup_Container, declared, bases,
    MergeSpecs.ExternalInterface.Base, Rfold, rfold, Pack.toList, ExternalInterfaceOf,
    ConceptOf, declaringSpec, Lookup.merge, contains_op_container] <;>
  simp only [Pack.ofList] at h <;> rw [h]

theorem invoke_pair_first {V A R : Type} (Γ : Duck V A R) (σ : Store V) (nA nB : String)
    (opsA opsB : List String) (T : Ty) (v : V) (P : Pack) (hne : nA ≠ nB)
    (hP : P = .ofList [.spec nA opsA, .spec nB opsB] ∨
      P = .ofList [.MergeSpecs (.ofList [.spec nA opsA]), .MergeSpecs (.ofList [.spec nB opsB])])
    (op : String) (f : V → A → R) (args : A)
    (hA : op ∈ opsA) (hB : op ∉ opsB) (hf : Γ T op = some f) :
    invoke Γ (⟨.Model (.MergeSpecs P) (.Holder T), v⟩ :: σ)
        (.TypeErasureSingeSpec (.MergeSpecs P)) ⟨σ.length⟩ op args =
      .ok ⟨.ExternalInterface (.spec nA opsA) (.ExternalInterface (.spec nB opsB)
            (.Container (.Concept (.MergeSpecs P)) (.MergeSpecs P))),
          .Model (.spec nA opsA) (.Model (.spec nB opsB) (.Holder T)), f v args⟩ := by
  rcases hP with rfl | rfl <;>
  simp [invoke, ExternalInterface.op, Concept.op, Model.op, model_get, model_get.Data,
    Holder.get_from_rubber_types_holder_, interface_get, interface_get.Concept,
    Container.get_from_rubber_types_container_, resolve, memberLookup, UnwrapHolder,
    unwrap_holder, UnwrapContainer, unwrap_container, TypeErasure, Ty.weight, Pack.weight,
    Pack.ofList, Pack.toList, lookup_TypeErasureSingeSpec, lookup_ExternalInterface,
    lookup_Container, lookup_Concept, lookup_Model, lookup_Holder, finalOverrider_Model,
    finalOverrider_Holder, finalOverrider_Concept, declared, bases, MergeSpecs.Model.Base,
    MergeSpecs.ExternalInterface.Base, Rfold, rfold, ModelOf, ConceptOf, ExternalInterfaceOf,
    declaringSpec, Lookup.merge, contains_op, contains_op_Data, contains_op_holder,
    contains_op_Concept, contains_op_container, deref_new, Except.map, hne, hA, hB, hf]

theorem invoke_pair_second {V A R : Type} (Γ : Duck V A R) (σ : Store V) (nA nB : String)
    (opsA opsB : List String) (T : Ty) (v : V) (P : Pack) (hne : nA ≠ nB)
    (hP : P = .ofList [.spec nA opsA, .spec nB opsB] ∨
      P = .ofList [.MergeSpecs (.ofList [.spec nA opsA]), .MergeSpecs (.ofList [.spec nB opsB])])
    (op : String) (f : V → A → R) (args : A)
    (hA : op ∉ opsA) (hB : op ∈ opsB) (hf : Γ T op = some f) :
    invoke Γ (⟨.Model (.MergeSpecs P) (.Holder T), v⟩ :: σ)
        (.TypeErasureSingeSpec (.MergeSpecs P)) ⟨σ.length⟩ op args =
      .ok ⟨.ExternalInterface (.spec nB opsB)
            (.Container (.Concept (.MergeSpecs P)) (.MergeSpecs P)),
          .Model (.spec nB opsB) (.Holder T), f v args⟩ := by
  rcases hP with rfl | rfl <;>
  simp [invoke, ExternalInterface.op, Concept.op, Model.op, model_get, model_get.Data,
    Holder.get_from_rubber_types_holder_, interface_get, interface_get.Concept,
    Container.get_from_rubber_types_container_, resolve, memberLookup, UnwrapHolder,
    unwrap_holder, UnwrapContainer, unwrap_container, TypeErasure, Ty.weight, Pack.weight,
    Pack.ofList, Pack.toList, lookup_TypeErasureSingeSpec, lookup_ExternalInterface,
    lookup_Container, lookup_Concept, lookup_Model, lookup_Holder, finalOverrider_Model,
    finalOverrider_Holder, finalOverrider_Concept, declared, bases, MergeSpecs.Model.Base,
    MergeSpecs.ExternalInterface.Base, Rfold, rfold, ModelOf, ConceptOf, ExternalInterfaceOf,
    declaringSpec, Lookup.merge, contains_op, contains_op_Data, contains_op_holder,
    contains_op_Concept, contains_op_container, deref_new, Except.map, hne, hA, hB, hf]

theorem invoke_pair_both {V A R : Type} (Γ : Duck V A R) (σ : Store V) (nA nB : String)
    (opsA opsB : List String) (T : Ty) (v : V) (P : Pack) (hne : nA ≠ nB)
    (hP : P = .ofList [.spec nA opsA, .spec nB opsB] ∨
      P = .ofList [.MergeSpecs (.ofList [.spec nA opsA]), .MergeSpecs (.ofList [.spec nB opsB])])
    (op : String) (args : A) (hA : op ∈ opsA) (hB : op ∈ opsB) :
    invoke Γ (⟨.Model (.MergeSpecs P) (.Holder T), v⟩ :: σ)
        (.TypeErasureSingeSpec (.MergeSpecs P)) ⟨σ.length⟩ op args =
      .error (.ambiguous (.Concept (.MergeSpecs P)) (.op op)) := by
  rcases hP with rfl | rfl <;>
  simp [invoke, ExternalInterface.op, Concept.op, Model.op, model_get, model_get.Data,
    Holder.get_from_rubber_types_holder_, interface_get, interface_get.Concept,
    Container.get_from_rubber_types_container_, resolve, memberLookup, UnwrapHolder,
    unwrap_holder, UnwrapContainer, unwrap_container, TypeErasure, Ty.weight, Pack.weight,
    Pack.ofList, Pack.toList, lookup_TypeErasureSingeSpec, lookup_ExternalInterface,
    lookup_Container, lookup_Concept, lookup_Model, lookup_Holder, finalOverrider_Model,
    finalOverrider_Holder, finalOverrider_Concept, declared, bases, MergeSpecs.Model.Base,
    MergeSpecs.ExternalInterface.Base, Rfold, rfold, ModelOf, ConceptOf, ExternalInterfaceOf,
    declaringSpec, Lookup.merge, contains_op, contains_op_Data, contains_op_holder,
    contains_op_Concept, contains_op_container, deref_new, Except.map, isBaseOf_spec_Concept, hides, Lookup.classes,
    hne, Ne.symm hne, hA, hB]

theorem invoke_pair_neither {V A R : Type} (Γ : Duck V A R) (σ : Store V) (nA nB : String)
    (opsA opsB : List String) (T : Ty) (v : V) (P : Pack)
    (hP : P = .ofList [.spec nA opsA, .spec nB opsB] ∨
      P = .ofList [.MergeSpecs (.ofList [.spec nA opsA]), .MergeSpecs (.ofList [.spec nB opsB])])
    (op : String) (args : A) (hA : op ∉ opsA) (hB : op ∉ opsB) :
    invoke Γ (⟨.Model (.MergeSpecs P) (.Holder T), v⟩ :: σ)
        (.TypeErasureSingeSpec (.MergeSpecs P)) ⟨σ.length⟩ op args =
      .error (.no_member (.TypeErasureSingeSpec (.MergeSpecs P)) (.op op)) := by
  rcases hP with rfl | rfl <;>
  simp [invoke, ExternalInterface.op, Concept.op, Model.op, model_get, model_get.Data,
    Holder.get_from_rubber_types_holder_, interface_get, interface_get.Concept,
    Container.get_from_rubber_types_container_, resolve, memberLookup, UnwrapHolder,
    unwrap_holder, UnwrapContainer, unwrap_container, TypeErasure, Ty.weight, Pack.weight,
    Pack.ofList, Pack.toList, lookup_TypeErasureSingeSpec, lookup_ExternalInterface,
    lookup_Container, lookup_Concept, lookup_Model, lookup_Holder, finalOverrider_Model,
    finalOverrider_Holder, finalOverrider_Concept, declared, bases, MergeSpecs.Model.Base,
    MergeSpecs.ExternalInterface.Base, Rfold, rfold, ModelOf, ConceptOf, ExternalInterfaceOf,
    declaringSpec, Lookup.merge, contains_op, contains_op_Data, contains_op_holder,
    contains_op_Concept, contains_op_container, deref_new, Except.map, hA, hB]

/-! ## Three descriptions merged in two groupings -/

theorem instantiate_triple {V A R : Type} (Γ : Duck V A R) (nA nB nC : String)
    (opsA opsB opsC : List String) (T : Ty) (P : Pack)
    (hAB : nA ≠ nB) (hBC : nB ≠ nC)
    (hP : P = .ofList [.spec nA opsA, .MergeSpecs (.ofList [.spec nB opsB, .spec nC opsC])] ∨
      P = .ofList [.MergeSpecs (.ofList [.spec nA opsA, .spec nB opsB]), .spec nC opsC])
    (hT : ∀ op ∈ opsA ++ opsB ++ opsC, (Γ T op).isSome) :
    instantiate Γ (.Concept (.MergeSpecs P)) (.Model (.MergeSpecs P) (.Holder T)) = .ok () := by
  apply instantiate_ok
  · rcases hP with rfl | rfl <;>
    simp [Ty.weight, Pack.weight, Pack.ofList, complete_Model, complete_Concept, complete_Holder,
      bases, MergeSpecs.Model.Base, Rfold, rfold, Pack.toList, ModelOf, ConceptOf, declaringSpec,
      hAB, hBC]
  · intro x hx
    have hx' : ∃ op M, x = (M, op) ∧ (op ∈ opsA ∨ op ∈ opsB ∨ op ∈ opsC) ∧
        (M = .Model (.spec nA opsA) (.Model (.MergeSpecs (.ofList [.spec nB opsB, .spec nC opsC])) (.Holder T)) ∨
         M = .Model (.spec nA opsA) (.Model (.spec nB opsB) (.Model (.spec nC opsC) (.Holder T))) ∨
         M = .Model (.spec nB opsB) (.Model (.spec nC opsC) (.Holder T)) ∨
         M = .Model (.spec nC opsC) (.Holder T)) := by
      rcases hP with rfl | rfl <;>
      simp [Ty.weight, Pack.weight, Pack.ofList, overriders_Model, overriders_Holder,
        overriders_Concept, bases, MergeSpecs.Model.Base, Rfold, rfold, Pack.toList, ModelOf,
        declaringSpec] at hx <;>
      rcases hx with ⟨op, hop, rfl⟩ | ⟨op, hop, rfl⟩ | ⟨op, hop, rfl⟩ <;>
      refine ⟨op, _, rfl, ?_, ?_⟩ <;> simp [hop, Pack.ofList]
    obtain ⟨op, M, rfl, hop, hM⟩ := hx'
    have := hT op (by simpa [or_assoc] using hop)
    rcases hM with rfl | rfl | rfl | rfl <;>
    simp [Model.compiles, model_get.Data, UnwrapHolder, unwrap_holder, resolve, memberLookup,
      Ty.weight, Pack.weight, Pack.ofList, Pack.toList, lookup_Model, lookup_Holder, lookup_Concept, declared, bases,
      MergeSpecs.Model.Base, Rfold, rfold, ModelOf, ConceptOf, declaringSpec, Lookup.merge,
      contains_op_Data, contains_op_holder, hBC, this]
  · intro op hop
    have hop' : op ∈ opsA ∨ op ∈ opsB ∨ op ∈ opsC := by
      rcases hP with rfl | rfl <;>
      simpa [Ty.weight, Pack.weight, Pack.ofList, operations_spec, operations_MergeSpecs, bases,
        ConceptOf, declaringSpec, Pack.toList, hAB, hBC, or_assoc] using hop
    by_cases hA : op ∈ opsA
    · rcases hP with rfl | rfl <;>
      simp [Ty.weight, Pack.weight, Pack.ofList, finalOverrider_Model, finalOverrider_Holder,
        finalOverrider_Concept, declared, bases, MergeSpecs.Model.Base, Rfold, rfold,
        Pack.toList, ModelOf, declaringSpec, contains_op, hA]
    · by_cases hB : op ∈ opsB
      · rcases hP with rfl | rfl <;>
        simp [Ty.weight, Pack.weight, Pack.ofList, finalOverrider_Model, finalOverrider_Holder,
          finalOverrider_Concept, declared, bases, MergeSpecs.Model.Base, Rfold, rfold,
          Pack.toList, ModelOf, declaringSpec, contains_op, hA, hB]
      · have hC : op ∈ opsC := (hop'.resolve_left hA).resolve_left hB
        rcases hP with rfl | rfl <;>
        simp [Ty.weight, Pack.weight, Pack.ofList, finalOverrider_Model, finalOverrider_Holder,
          finalOverrider_Concept, declared, bases, MergeSpecs.Model.Base, Rfold, rfold,
          Pack.toList, ModelOf, declaringSpec, contains_op, hA, hB, hC]

theorem construct_triple {V A R : Type} (Γ : Duck V A R) (σ : Store V) (nA nB nC : String)
    (opsA opsB opsC : List String) (T : Ty) (v : V) (P : Pack)
    (hAB : nA ≠ nB) (hBC : nB ≠ nC)
    (hP : P = .ofList [.spec nA opsA, .MergeSpecs (.ofList [.spec nB opsB, .spec nC opsC])] ∨
      P = .ofList [.MergeSpecs (.ofList [.spec nA opsA, .spec nB opsB]), .spec nC opsC])
    (hT : ∀ op ∈ opsA ++ opsB ++ opsC, (Γ T op).isSome) :
    construct Γ σ (.TypeErasureSingeSpec (.MergeSpecs P)) T v =
      .ok (⟨.Model (.MergeSpecs P) (.Holder T), v⟩ :: σ, ⟨σ.length⟩) := by
  have h := instantiate_triple Γ nA nB nC opsA opsB opsC T P hAB hBC hP hT
  rcases hP with rfl | rfl <;>
  simp [construct, resolve, memberLookup, Ty.weight, Pack.weight, Pack.ofList,
    lookup_TypeErasureSingeSpec, lookup_ExternalInterface, lookup_Container, declared, bases,
    MergeSpecs.ExternalInterface.Base, Rfold, rfold, Pack.toList, ExternalInterfaceOf,
    ConceptOf, declaringSpec, Lookup.merge, contains_op_container] <;>
  simp only [Pack.ofList] at h <;> rw [h]

theorem invoke_triple {V A R : Type} (Γ : Duck V A R) (σ : Store V) (nA nB nC : String)
    (opsA opsB opsC : List String) (T : Ty) (v : V) (P : Pack)
    (hAB : nA ≠ nB) (hBC : nB ≠ nC)
    (hP : P = .ofList [.spec nA opsA, .MergeSpecs (.ofList [.spec nB opsB, .spec nC opsC])] ∨
      P = .ofList [.MergeSpecs (.ofList [.spec nA opsA, .spec nB opsB]), .spec nC opsC])
    (dAB : ∀ op ∈ opsA, op ∉ opsB) (dAC : ∀ op ∈ opsA, op ∉ opsC) (dBC : ∀ op ∈ opsB, op ∉ opsC)
    (op : String) (f : V → A → R) (args : A)
    (hop : op ∈ opsA ++ opsB ++ opsC) (hf : Γ T op = some f) :
    (invoke Γ (⟨.Model (.MergeSpecs P) (.Holder T), v⟩ :: σ) (.TypeErasureSingeSpec (.MergeSpecs P))
        ⟨σ.length⟩ op args).map (fun i => i.result) = .ok (f v args) := by
  have hop' : op ∈ opsA ∨ op ∈ opsB ∨ op ∈ opsC := by simpa [or_assoc] using hop
  by_cases hA : op ∈ opsA
  · have hB := dAB op hA
    have hC := dAC op hA
    rcases hP with rfl | rfl <;>
    simp [invoke, ExternalInterface.op, Concept.op, Model.op, model_get, model_get.Data,
      Holder.get_from_rubber_types_holder_, interface_get, interface_get.Concept,
      Container.get_from_rubber_types_container_, resolve, memberLookup, UnwrapHolder,
      unwrap_holder, UnwrapContainer, unwrap_container, Ty.weight, Pack.weight, Pack.ofList,
      Pack.toList, lookup_TypeErasureSingeSpec, lookup_ExternalInterface, lookup_Container,
      lookup_Concept, lookup_Model, lookup_Holder, finalOverrider_Model, finalOverrider_Holder,
      finalOverrider_Concept, declared, bases, MergeSpecs.Model.Base,
      MergeSpecs.ExternalInterface.Base, Rfold, rfold, ModelOf, ConceptOf, ExternalInterfaceOf,
      declaringSpec, Lookup.merge, contains_op, contains_op_Data, contains_op_holder,
      contains_op_Concept, contains_op_container, deref_new, Except.map, hAB, hBC, hA, hB, hC, hf]
  · by_cases hB : op ∈ opsB
    · have hC := dBC op hB
      rcases hP with rfl | rfl <;>
      simp [invoke, ExternalInterface.op, Concept.op, Model.op, model_get, model_get.Data,
        Holder.get_from_rubber_types_holder_, interface_get, interface_get.Concept,
        Container.get_from_rubber_types_container_, resolve, memberLookup, UnwrapHolder,
        unwrap_holder, UnwrapContainer, unwrap_container, Ty.weight, Pack.weight, Pack.ofList,
        Pack.toList, lookup_TypeErasureSingeSpec, lookup_ExternalInterface, lookup_Container,
        lookup_Concept, lookup_Model, lookup_Holder, finalOverrider_Model, finalOverrider_Holder,
        finalOverrider_Concept, declared, bases, MergeSpecs.Model.Base,
        MergeSpecs.ExternalInterface.Base, Rfold, rfold, ModelOf, ConceptOf, ExternalInterfaceOf,
        declaringSpec, Lookup.merge, contains_op, contains_op_Data, contains_op_holder,
        contains_op_Concept, contains_op_container, deref_new, Except.map, hAB, hBC, hA, hB, hC, hf]
    · have hC : op ∈ opsC := (hop'.resolve_left hA).resolve_left hB
      rcases hP with rfl | rfl <;>
      simp [invoke, ExternalInterface.op, Concept.op, Model.op, model_get, model_get.Data,
        Holder.get_from_rubber_types_holder_, interface_get, interface_get.Concept,
        Container.get_from_rubber_types_container_, resolve, memberLookup, UnwrapHolder,
        unwrap_holder, UnwrapContainer, unwrap_container, Ty.weight, Pack.weight, Pack.ofList,
        Pack.toList, lookup_TypeErasureSingeSpec, lookup_ExternalInterface, lookup_Container,
        lookup_Concept, lookup_Model, lookup_Holder, finalOverrider_Model, finalOverrider_Holder,
        finalOverrider_Concept, declared, bases, MergeSpecs.Model.Base,
        MergeSpecs.ExternalInterface.Base, Rfold, rfold, ModelOf, ConceptOf, ExternalInterfaceOf,
        declaringSpec, Lookup.merge, contains_op, contains_op_Data, contains_op_holder,
        contains_op_Concept, contains_op_container, deref_new, Except.map, hAB, hBC, hA, hB, hC, hf]

/-! ## Behavioural transparency -/

/-- C1 (behavioural transparency).  For every description `D = spec name ops`, every payload
type `T` that provides the operations of `D` and every payload `v`, constructing
`TypeErasure<D>` from `v` succeeds, and invoking any operation of `D` on the instance runs
the facade member of `D`, which through `interface_get`, the virtual call on the concept and
`model_get` in the model of `D` returns exactly what the duck-typed operation returns on `v`
with the same arguments.  For the example `simple.cpp`, `render_widget` of a `UserWidget`
writes what `UserWidget::render` writes. -/
theorem behavioural_transparency {V A R : Type} (Γ : Duck V A R) (σ : Store V)
    (name : String) (ops : List String) (T : Ty) (v : V)
    (hT : ∀ op ∈ ops, (Γ T op).isSome) :
    construct Γ σ (TypeErasure [.spec name ops]) T v =
        .ok (⟨.Model (.spec name ops) (.Holder T), v⟩ :: σ, ⟨σ.length⟩) ∧
    (∀ op ∈ ops, ∀ f, Γ T op = some f → ∀ args,
      invoke Γ (⟨.Model (.spec name ops) (.Holder T), v⟩ :: σ) (TypeErasure [.spec name ops])
          ⟨σ.length⟩ op args =
        .ok ⟨.ExternalInterface (.spec name ops)
              (.Container (.Concept (.spec name ops)) (.spec name ops)),
            .Model (.spec name ops) (.Holder T), f v args⟩) ∧
    ∀ (σ0 : Store examples.UserWidget) (w : examples.UserWidget) (cout : examples.ostream),
      examples.render_widget σ0 w cout = .ok (examples.UserWidget.render w cout).cout := by
  refine ⟨construct_single Γ σ name ops T v hT, ?_, ?_⟩
  · intro op hop f hf args
    exact invoke_single Γ σ name ops T v op f args hop hf
  · intro σ0 w cout
    have hΓ : ∀ op ∈ ["render"], (examples.Γ (.named "UserWidget") op).isSome := by
      intro op hop
      simp only [List.mem_singleton] at hop
      subst hop
      rfl
    have hc := construct_single examples.Γ σ0 "WidgetSpec" ["render"] (.named "UserWidget") w hΓ
    have hi := invoke_single examples.Γ σ0 "WidgetSpec" ["render"] (.named "UserWidget") w
      "render" examples.UserWidget.render cout (by simp) rfl
    simp only [examples.render_widget, examples.Widget, examples.WidgetSpec, hc, hi, bind,
      Except.bind, pure, Except.pure]

/-- Witness for `behavioural_transparency`: the description and payload of `simple.cpp`. -/
theorem behavioural_transparency_witness :
    (∀ op ∈ ["render"], (examples.Γ (.named "UserWidget") op).isSome) ∧
    construct examples.Γ [] (TypeErasure [.spec "WidgetSpec" ["render"]])
        (.named "UserWidget") ⟨⟩ =
      .ok ([⟨.Model (.spec "WidgetSpec" ["render"]) (.Holder (.named "UserWidget")), ⟨⟩⟩],
        ⟨0⟩) :=
  ⟨by decide,
   (behavioural_transparency examples.Γ [] "WidgetSpec" ["render"] (.named "UserWidget") ⟨⟩
      (by decide)).1⟩

/-! ## Aliasing -/

/-- C4 (aliasing).  A copy of an erasure instance holds the same adapter object as the
original: the handle is the same address, the store is unchanged (nothing is allocated, so
the payload is not copied), both handles refer to the same object, and every operation
invoked on the copy gives what it gives on the original; for an instance constructed from
a payload `v`, that is the result of the duck-typed operation on `v`. -/
theorem copy_aliases {V A R : Type} (Γ : Duck V A R) (σ : Store V) (E : Ty) (e : Container)
    (name : String) (ops : List String) (T : Ty) (v : V) :
    (Container.copy σ e).2.self_ = e.self_ ∧
    (Container.copy σ e).1 = σ ∧
    (Container.copy σ e).2.get_from_rubber_types_container_ (Container.copy σ e).1 =
      e.get_from_rubber_types_container_ σ ∧
    (∀ op args, invoke Γ (Container.copy σ e).1 E (Container.copy σ e).2 op args =
      invoke Γ σ E e op args) ∧
    ∀ op ∈ ops, ∀ f, Γ T op = some f → ∀ args,
      invoke Γ
          (Container.copy (⟨.Model (.spec name ops) (.Holder T), v⟩ :: σ) ⟨σ.length⟩).1
          (TypeErasure [.spec name ops])
          (Container.copy (⟨.Model (.spec name ops) (.Holder T), v⟩ :: σ) ⟨σ.length⟩).2
          op args =
        .ok ⟨.ExternalInterface (.spec name ops)
              (.Container (.Concept (.spec name ops)) (.spec name ops)),
            .Model (.spec name ops) (.Holder T), f v args⟩ :=
  ⟨rfl, rfl, rfl, fun _ _ => rfl,
   fun op hop f hf args => invoke_single Γ σ name ops T v op f args hop hf⟩

/-- Witness for `copy_aliases`: a copy of the `Widget` of `simple.cpp` renders what the
`UserWidget` renders. -/
theorem copy_aliases_witness :
    "render" ∈ ["render"] ∧
    examples.Γ (.named "UserWidget") "render" = some examples.UserWidget.render ∧
    invoke examples.Γ
        (Container.copy ([⟨.Model (.spec "WidgetSpec" ["render"])
          (.Holder (.named "UserWidget")), ⟨⟩⟩] : Store examples.UserWidget) ⟨0⟩).1
        (TypeErasure [.spec "WidgetSpec" ["render"]])
        (Container.copy ([⟨.Model (.spec "WidgetSpec" ["render"])
          (.Holder (.named "UserWidget")), ⟨⟩⟩] : Store examples.UserWidget) ⟨0⟩).2
        "render" "" =
      .ok ⟨.ExternalInterface (.spec "WidgetSpec" ["render"])
            (.Container (.Concept (.spec "WidgetSpec" ["render"])) (.spec "WidgetSpec" ["render"])),
          .Model (.spec "WidgetSpec" ["render"]) (.Holder (.named "UserWidget")),
          examples.UserWidget.render ⟨⟩ ""⟩ :=
  ⟨by decide, rfl,
   (copy_aliases examples.Γ [] (TypeErasure [.spec "WidgetSpec" ["render"]]) ⟨0⟩ "WidgetSpec"
      ["render"] (.named "UserWidget") ⟨⟩).2.2.2.2 "render" (by decide)
      examples.UserWidget.render rfl ""⟩

/-! ## Merging two descriptions -/

/-- C2 (merge correctness).  For descriptions `A` with the operation `size` and `B` with
the operation `render` and a payload whose type provides both, the merged erasure type
builds and exposes both operations: `size` runs the facade and the model of `A` and returns
`v.size()`, `render` runs the facade and the model of `B` and performs `v.render()`; in
neither call does a member of the other description run.  For the `UserWidget` of
`merge_concepts.cpp`, `measure_and_render` writes `size: 42` and then what `render`
writes. -/
theorem merge_correctness {V A R : Type} (Γ : Duck V A R) (σ : Store V) (nA nB : String)
    (T : Ty) (v : V) (size render : V → A → R) (hne : nA ≠ nB)
    (hsize : Γ T "size" = some size) (hrender : Γ T "render" = some render) :
    construct Γ σ (TypeErasure [.spec nA ["size"], .spec nB ["render"]]) T v =
      .ok (⟨.Model (.MergeSpecs (.ofList [.spec nA ["size"], .spec nB ["render"]]))
              (.Holder T), v⟩ :: σ, ⟨σ.length⟩) ∧
    (∀ args,
      invoke Γ (⟨.Model (.MergeSpecs (.ofList [.spec nA ["size"], .spec nB ["render"]]))
            (.Holder T), v⟩ :: σ)
          (TypeErasure [.spec nA ["size"], .spec nB ["render"]]) ⟨σ.length⟩ "size" args =
        .ok ⟨.ExternalInterface (.spec nA ["size"]) (.ExternalInterface (.spec nB ["render"])
              (.Container
                (.Concept (.MergeSpecs (.ofList [.spec nA ["size"], .spec nB ["render"]])))
                (.MergeSpecs (.ofList [.spec nA ["size"], .spec nB ["render"]])))),
            .Model (.spec nA ["size"]) (.Model (.spec nB ["render"]) (.Holder T)),
            size v args⟩) ∧
    (∀ args,
      invoke Γ (⟨.Model (.MergeSpecs (.ofList [.spec nA ["size"], .spec nB ["render"]]))
            (.Holder T), v⟩ :: σ)
          (TypeErasure [.spec nA ["size"], .spec nB ["render"]]) ⟨σ.length⟩ "render" args =
        .ok ⟨.ExternalInterface (.spec nB ["render"])
              (.Container
                (.Concept (.MergeSpecs (.ofList [.spec nA ["size"], .spec nB ["render"]])))
                (.MergeSpecs (.ofList [.spec nA ["size"], .spec nB ["render"]]))),
            .Model (.spec nB ["render"]) (.Holder T), render v args⟩) ∧
    ∀ (σ0 : Store examples.UserWidget) (w : examples.UserWidget) (cout : examples.ostream),
      examples.measure_and_render σ0 w cout =
        .ok (cout ++ "size: " ++ "42" ++ "\n" ++ "UserWidget::render\n") := by
  have hT : ∀ op ∈ ["size"] ++ ["render"], (Γ T op).isSome := by
    intro op hop
    simp only [List.singleton_append, List.mem_cons, List.mem_singleton, List.not_mem_nil,
      or_false] at hop
    rcases hop with rfl | rfl
    · simp [hsize]
    · simp [hrender]
  refine ⟨construct_pair Γ σ nA nB _ _ T v _ hne (Or.inl rfl) hT, ?_, ?_, ?_⟩
  · intro args
    exact invoke_pair_first Γ σ nA nB _ _ T v _ hne (Or.inl rfl) "size" size args
      (by simp) (by simp) hsize
  · intro args
    exact invoke_pair_second Γ σ nA nB _ _ T v _ hne (Or.inl rfl) "render" render args
      (by simp) (by simp) hrender
  · intro σ0 w cout
    have hΓ : ∀ op ∈ ["size"] ++ ["render"], (examples.Γ (.named "UserWidget") op).isSome := by
      decide
    have hP : Pack.ofList [.MergeSpecs (.ofList [.spec "GeometrySpec" ["size"]]),
          .MergeSpecs (.ofList [.spec "WidgetSpec" ["render"]])] =
          .ofList [.spec "GeometrySpec" ["size"], .spec "WidgetSpec" ["render"]] ∨
        Pack.ofList [.MergeSpecs (.ofList [.spec "GeometrySpec" ["size"]]),
          .MergeSpecs (.ofList [.spec "WidgetSpec" ["render"]])] =
          .ofList [.MergeSpecs (.ofList [.spec "GeometrySpec" ["size"]]),
            .MergeSpecs (.ofList [.spec "WidgetSpec" ["render"]])] := Or.inr rfl
    have hc := construct_pair examples.Γ σ0 "GeometrySpec" "WidgetSpec" ["size"] ["render"]
      (.named "UserWidget") w _ (by decide) hP hΓ
    have hs := fun args => invoke_pair_first examples.Γ σ0 "GeometrySpec" "WidgetSpec"
      ["size"] ["render"] (.named "UserWidget") w _ (by decide) hP "size"
      examples.UserWidget.size args (by simp) (by simp) rfl
    have hr := fun args => invoke_pair_second examples.Γ σ0 "GeometrySpec" "WidgetSpec"
      ["size"] ["render"] (.named "UserWidget") w _ (by decide) hP "render"
      examples.UserWidget.render args (by simp) (by simp) rfl
    have hG : examples.GeomWidget = some (.TypeErasureSingeSpec (.MergeSpecs (.ofList
        [.MergeSpecs (.ofList [.spec "GeometrySpec" ["size"]]),
          .MergeSpecs (.ofList [.spec "WidgetSpec" ["render"]])]))) := rfl
    have h42 : toString (42 : Int) = "42" := by decide
    simp only [examples.measure_and_render, hG, hc, hs, hr, bind, Except.bind, pure,
      Except.pure, examples.UserWidget.size, examples.UserWidget.render, Option.getD_some, h42]

/-- Witness for `merge_correctness`: the descriptions and the payload of
`merge_concepts.cpp`. -/
theorem merge_correctness_witness :
    "GeometrySpec" ≠ "WidgetSpec" ∧
    examples.Γ (.named "UserWidget") "size" = some examples.UserWidget.size ∧
    examples.Γ (.named "UserWidget") "render" = some examples.UserWidget.render ∧
    (∀ args,
      invoke examples.Γ
          [⟨.Model (.MergeSpecs (.ofList [.spec "GeometrySpec" ["size"],
            .spec "WidgetSpec" ["render"]])) (.Holder (.named "UserWidget")), ⟨⟩⟩]
          (TypeErasure [.spec "GeometrySpec" ["size"], .spec "WidgetSpec" ["render"]]) ⟨0⟩
          "size" args =
        .ok ⟨.ExternalInterface (.spec "GeometrySpec" ["size"])
              (.ExternalInterface (.spec "WidgetSpec" ["render"])
              (.Container
                (.Concept (.MergeSpecs (.ofList [.spec "GeometrySpec" ["size"],
                  .spec "WidgetSpec" ["render"]])))
                (.MergeSpecs (.ofList [.spec "GeometrySpec" ["size"],
                  .spec "WidgetSpec" ["render"]])))),
            .Model (.spec "GeometrySpec" ["size"])
              (.Model (.spec "WidgetSpec" ["render"]) (.Holder (.named "UserWidget"))),
            ⟨some 42, args⟩⟩) :=
  ⟨by decide, rfl, rfl,
   (merge_correctness examples.Γ [] "GeometrySpec" "WidgetSpec" (.named "UserWidget") ⟨⟩
      examples.UserWidget.size examples.UserWidget.render (by decide) rfl rfl).2.1⟩

/-- C3 (merge equivalence).  For two descriptions `S1`, `S2`, `MergeConcepts` of their
single-description erasure types recovers `E1::Spec = MergeSpecs<S1>` and
`E2::Spec = MergeSpecs<S2>` and builds the erasure type of these; this type behaves like
`TypeErasure<S1, S2>`: for every payload that provides the operations of both, instances of
both types are constructed, every call gives the same outcome on both (the same model layer
runs and returns the same result, or neither call builds), and an operation of exactly one
of the descriptions returns the result of the duck-typed operation on both. -/
theorem merge_equivalence {V A R : Type} (Γ : Duck V A R) (σ : Store V) (n1 n2 : String)
    (ops1 ops2 : List String) (T : Ty) (v : V) (hne : n1 ≠ n2)
    (hT : ∀ op ∈ ops1 ++ ops2, (Γ T op).isSome) :
    MergeConcepts [TypeErasure [.spec n1 ops1], TypeErasure [.spec n2 ops2]] =
      some (TypeErasure [.MergeSpecs (.ofList [.spec n1 ops1]),
        .MergeSpecs (.ofList [.spec n2 ops2])]) ∧
    construct Γ σ (TypeErasure [.MergeSpecs (.ofList [.spec n1 ops1]),
        .MergeSpecs (.ofList [.spec n2 ops2])]) T v =
      .ok (⟨.Model (.MergeSpecs (.ofList [.MergeSpecs (.ofList [.spec n1 ops1]),
        .MergeSpecs (.ofList [.spec n2 ops2])])) (.Holder T), v⟩ :: σ, ⟨σ.length⟩) ∧
    construct Γ σ (TypeErasure [.spec n1 ops1, .spec n2 ops2]) T v =
      .ok (⟨.Model (.MergeSpecs (.ofList [.spec n1 ops1, .spec n2 ops2])) (.Holder T), v⟩ :: σ,
        ⟨σ.length⟩) ∧
    (∀ op args,
      (invoke Γ (⟨.Model (.MergeSpecs (.ofList [.MergeSpecs (.ofList [.spec n1 ops1]),
            .MergeSpecs (.ofList [.spec n2 ops2])])) (.Holder T), v⟩ :: σ)
          (TypeErasure [.MergeSpecs (.ofList [.spec n1 ops1]),
            .MergeSpecs (.ofList [.spec n2 ops2])]) ⟨σ.length⟩ op args).toOption.map
          (fun i => (i.adapter, i.result)) =
      (invoke Γ (⟨.Model (.MergeSpecs (.ofList [.spec n1 ops1, .spec n2 ops2])) (.Holder T),
            v⟩ :: σ)
          (TypeErasure [.spec n1 ops1, .spec n2 ops2]) ⟨σ.length⟩ op args).toOption.map
          (fun i => (i.adapter, i.result))) ∧
    (∀ op f args, Γ T op = some f → (op ∈ ops1 ∧ op ∉ ops2 ∨ op ∉ ops1 ∧ op ∈ ops2) →
      (invoke Γ (⟨.Model (.MergeSpecs (.ofList [.MergeSpecs (.ofList [.spec n1 ops1]),
            .MergeSpecs (.ofList [.spec n2 ops2])])) (.Holder T), v⟩ :: σ)
          (TypeErasure [.MergeSpecs (.ofList [.spec n1 ops1]),
            .MergeSpecs (.ofList [.spec n2 ops2])]) ⟨σ.length⟩ op args).toOption.map
          (fun i => i.result) = some (f v args) ∧
      (invoke Γ (⟨.Model (.MergeSpecs (.ofList [.spec n1 ops1, .spec n2 ops2])) (.Holder T),
            v⟩ :: σ)
          (TypeErasure [.spec n1 ops1, .spec n2 ops2]) ⟨σ.length⟩ op args).toOption.map
          (fun i => i.result) = some (f v args)) := by
  refine ⟨rfl, construct_pair Γ σ n1 n2 ops1 ops2 T v _ hne (Or.inr rfl) hT,
    construct_pair Γ σ n1 n2 ops1 ops2 T v _ hne (Or.inl rfl) hT, ?_, ?_⟩
  · intro op args
    simp only [TypeErasure]
    by_cases h1 : op ∈ ops1 <;> by_cases h2 : op ∈ ops2
    · rw [invoke_pair_both Γ σ n1 n2 ops1 ops2 T v _ hne (Or.inr rfl) op args h1 h2,
        invoke_pair_both Γ σ n1 n2 ops1 ops2 T v _ hne (Or.inl rfl) op args h1 h2]
      rfl
    · obtain ⟨f, hf⟩ := Option.isSome_iff_exists.mp (hT op (by simp [h1]))
      rw [invoke_pair_first Γ σ n1 n2 ops1 ops2 T v _ hne (Or.inr rfl) op f args h1 h2 hf,
        invoke_pair_first Γ σ n1 n2 ops1 ops2 T v _ hne (Or.inl rfl) op f args h1 h2 hf]
      rfl
    · obtain ⟨f, hf⟩ := Option.isSome_iff_exists.mp (hT op (by simp [h2]))
      rw [invoke_pair_second Γ σ n1 n2 ops1 ops2 T v _ hne (Or.inr rfl) op f args h1 h2 hf,
        invoke_pair_second Γ σ n1 n2 ops1 ops2 T v _ hne (Or.inl rfl) op f args h1 h2 hf]
      rfl
    · rw [invoke_pair_neither Γ σ n1 n2 ops1 ops2 T v _ (Or.inr rfl) op args h1 h2,
        invoke_pair_neither Γ σ n1 n2 ops1 ops2 T v _ (Or.inl rfl) op args h1 h2]
      rfl
  · intro op f args hf hop
    simp only [TypeErasure]
    rcases hop with ⟨h1, h2⟩ | ⟨h1, h2⟩
    · rw [invoke_pair_first Γ σ n1 n2 ops1 ops2 T v _ hne (Or.inr rfl) op f args h1 h2 hf,
        invoke_pair_first Γ σ n1 n2 ops1 ops2 T v _ hne (Or.inl rfl) op f args h1 h2 hf]
      exact ⟨rfl, rfl⟩
    · rw [invoke_pair_second Γ σ n1 n2 ops1 ops2 T v _ hne (Or.inr rfl) op f args h1 h2 hf,
        invoke_pair_second Γ σ n1 n2 ops1 ops2 T v _ hne (Or.inl rfl) op f args h1 h2 hf]
      exact ⟨rfl, rfl⟩

/-- Witness for `merge_equivalence`: `GeomWidget` of `merge_concepts.cpp`, built by
`MergeConcepts<Geometry, Widget>`. -/
theorem merge_equivalence_witness :
    "GeometrySpec" ≠ "WidgetSpec" ∧
    (∀ op ∈ ["size"] ++ ["render"], (examples.Γ (.named "UserWidget") op).isSome) ∧
    MergeConcepts [TypeErasure [.spec "GeometrySpec" ["size"]],
        TypeErasure [.spec "WidgetSpec" ["render"]]] =
      some (TypeErasure [.MergeSpecs (.ofList [.spec "GeometrySpec" ["size"]]),
        .MergeSpecs (.ofList [.spec "WidgetSpec" ["render"]])]) :=
  ⟨by decide, by decide,
   (merge_equivalence examples.Γ [] "GeometrySpec" "WidgetSpec" ["size"] ["render"]
      (.named "UserWidget") ⟨⟩ (by decide) (by decide)).1⟩

/-! ## Associativity of merging -/

/-- C7 (merge associativity).  For three descriptions `A`, `B`, `C` with pairwise distinct
operation names, merging `A` with the merge of `B` and `C`, and merging the merge of `A`
and `B` with `C`, give equivalent interfaces: both merged concepts have the operations of
`A`, `B` and `C`; for every payload that provides them, instances of both erasure types are
constructed and every operation returns on both the result of the duck-typed operation;
the model layers of both adapters are those of `A`, `B`, `C` in this order, while the
nesting of the two adapter chains differs. -/
theorem merge_associativity {V A R : Type} (Γ : Duck V A R) (σ : Store V) (nA nB nC : String)
    (opsA opsB opsC : List String) (T : Ty) (v : V)
    (hAB : nA ≠ nB) (hBC : nB ≠ nC)
    (dAB : ∀ op ∈ opsA, op ∉ opsB) (dAC : ∀ op ∈ opsA, op ∉ opsC) (dBC : ∀ op ∈ opsB, op ∉ opsC)
    (hT : ∀ op ∈ opsA ++ opsB ++ opsC, (Γ T op).isSome) :
    (operations
        (Ty.Concept (.MergeSpecs (.ofList [.spec nA opsA,
          .MergeSpecs (.ofList [.spec nB opsB, .spec nC opsC])]))).weight
        (.Concept (.MergeSpecs (.ofList [.spec nA opsA,
          .MergeSpecs (.ofList [.spec nB opsB, .spec nC opsC])]))) = opsA ++ opsB ++ opsC ∧
     operations
        (Ty.Concept (.MergeSpecs (.ofList [.MergeSpecs (.ofList [.spec nA opsA, .spec nB opsB]),
          .spec nC opsC]))).weight
        (.Concept (.MergeSpecs (.ofList [.MergeSpecs (.ofList [.spec nA opsA, .spec nB opsB]),
          .spec nC opsC]))) = opsA ++ opsB ++ opsC) ∧
    (construct Γ σ (TypeErasure [.spec nA opsA,
          .MergeSpecs (.ofList [.spec nB opsB, .spec nC opsC])]) T v =
        .ok (⟨.Model (.MergeSpecs (.ofList [.spec nA opsA,
          .MergeSpecs (.ofList [.spec nB opsB, .spec nC opsC])])) (.Holder T), v⟩ :: σ,
          ⟨σ.length⟩) ∧
     construct Γ σ (TypeErasure [.MergeSpecs (.ofList [.spec nA opsA, .spec nB opsB]),
          .spec nC opsC]) T v =
        .ok (⟨.Model (.MergeSpecs (.ofList [.MergeSpecs (.ofList [.spec nA opsA,
          .spec nB opsB]), .spec nC opsC])) (.Holder T), v⟩ :: σ, ⟨σ.length⟩)) ∧
    (∀ op ∈ opsA ++ opsB ++ opsC, ∀ f, Γ T op = some f → ∀ args,
      (invoke Γ (⟨.Model (.MergeSpecs (.ofList [.spec nA opsA,
            .MergeSpecs (.ofList [.spec nB opsB, .spec nC opsC])])) (.Holder T), v⟩ :: σ)
          (TypeErasure [.spec nA opsA, .MergeSpecs (.ofList [.spec nB opsB, .spec nC opsC])])
          ⟨σ.length⟩ op args).map (fun i => i.result) = .ok (f v args) ∧
      (invoke Γ (⟨.Model (.MergeSpecs (.ofList [.MergeSpecs (.ofList [.spec nA opsA,
            .spec nB opsB]), .spec nC opsC])) (.Holder T), v⟩ :: σ)
          (TypeErasure [.MergeSpecs (.ofList [.spec nA opsA, .spec nB opsB]), .spec nC opsC])
          ⟨σ.length⟩ op args).map (fun i => i.result) = .ok (f v args)) ∧
    (layers
        (Ty.Model (.MergeSpecs (.ofList [.spec nA opsA,
          .MergeSpecs (.ofList [.spec nB opsB, .spec nC opsC])])) (.Holder T)).weight
        (.Model (.MergeSpecs (.ofList [.spec nA opsA,
          .MergeSpecs (.ofList [.spec nB opsB, .spec nC opsC])])) (.Holder T)) =
        [.spec nA opsA, .spec nB opsB, .spec nC opsC] ∧
     layers
        (Ty.Model (.MergeSpecs (.ofList [.MergeSpecs (.ofList [.spec nA opsA, .spec nB opsB]),
          .spec nC opsC])) (.Holder T)).weight
        (.Model (.MergeSpecs (.ofList [.MergeSpecs (.ofList [.spec nA opsA, .spec nB opsB]),
          .spec nC opsC])) (.Holder T)) =
        [.spec nA opsA, .spec nB opsB, .spec nC opsC]) ∧
    (MergeSpecs.Model.Base [.spec nA opsA, .MergeSpecs (.ofList [.spec nB opsB, .spec nC opsC])]
        (.Holder T) =
      some (.Model (.spec nA opsA)
        (.Model (.MergeSpecs (.ofList [.spec nB opsB, .spec nC opsC])) (.Holder T))) ∧
     MergeSpecs.Model.Base [.MergeSpecs (.ofList [.spec nA opsA, .spec nB opsB]), .spec nC opsC]
        (.Holder T) =
      some (.Model (.MergeSpecs (.ofList [.spec nA opsA, .spec nB opsB]))
        (.Model (.spec nC opsC) (.Holder T))) ∧
     MergeSpecs.Model.Base [.spec nA opsA, .MergeSpecs (.ofList [.spec nB opsB, .spec nC opsC])]
        (.Holder T) ≠
      MergeSpecs.Model.Base [.MergeSpecs (.ofList [.spec nA opsA, .spec nB opsB]),
        .spec nC opsC] (.Holder T)) := by
  refine ⟨⟨?_, ?_⟩,
    ⟨construct_triple Γ σ nA nB nC opsA opsB opsC T v _ hAB hBC (Or.inl rfl) hT,
     construct_triple Γ σ nA nB nC opsA opsB opsC T v _ hAB hBC (Or.inr rfl) hT⟩,
    ?_, ⟨?_, ?_⟩, ⟨rfl, rfl, ?_⟩⟩
  · simp [Ty.weight, Pack.weight, Pack.ofList, operations_spec, operations_MergeSpecs, bases,
      ConceptOf, declaringSpec, Pack.toList, hBC]
  · simp [Ty.weight, Pack.weight, Pack.ofList, operations_spec, operations_MergeSpecs, bases,
      ConceptOf, declaringSpec, Pack.toList, hAB]
  · intro op hop f hf args
    exact ⟨invoke_triple Γ σ nA nB nC opsA opsB opsC T v _ hAB hBC (Or.inl rfl) dAB dAC dBC
        op f args hop hf,
      invoke_triple Γ σ nA nB nC opsA opsB opsC T v _ hAB hBC (Or.inr rfl) dAB dAC dBC
        op f args hop hf⟩
  · simp [Ty.weight, Pack.weight, Pack.ofList, layers_Model, layers_Holder, layers_Concept,
      bases, MergeSpecs.Model.Base, Rfold, rfold, Pack.toList, ModelOf, declaringSpec]
  · simp [Ty.weight, Pack.weight, Pack.ofList, layers_Model, layers_Holder, layers_Concept,
      bases, MergeSpecs.Model.Base, Rfold, rfold, Pack.toList, ModelOf, declaringSpec]
  · simp [MergeSpecs.Model.Base, Rfold, rfold, ModelOf, declaringSpec, Pack.ofList]

/-- Witness for `merge_associativity`: three descriptions with one operation each and a
payload type (numbers) that provides every operation. -/
theorem merge_associativity_witness :
    "A" ≠ "B" ∧ "B" ≠ "C" ∧
    (∀ op ∈ ["a"], op ∉ ["b"]) ∧ (∀ op ∈ ["a"], op ∉ ["c"]) ∧ (∀ op ∈ ["b"], op ∉ ["c"]) ∧
    (∀ op ∈ ["a"] ++ ["b"] ++ ["c"],
      ((fun _ _ => some fun (v a : Nat) => v + a : Duck Nat Nat Nat) (.named "T") op).isSome) ∧
    construct (fun _ _ => some fun (v a : Nat) => v + a : Duck Nat Nat Nat) []
        (TypeErasure [.spec "A" ["a"], .MergeSpecs (.ofList [.spec "B" ["b"], .spec "C" ["c"]])])
        (.named "T") 5 =
      .ok ([⟨.Model (.MergeSpecs (.ofList [.spec "A" ["a"],
        .MergeSpecs (.ofList [.spec "B" ["b"], .spec "C" ["c"]])])) (.Holder (.named "T")), 5⟩],
        ⟨0⟩) :=
  ⟨by decide, by decide, by decide, by decide, by decide, by simp,
   (merge_associativity (fun _ _ => some fun (v a : Nat) => v + a) [] "A" "B" "C"
      ["a"] ["b"] ["c"] (.named "T") 5 (by decide) (by decide) (by decide) (by decide)
      (by decide) (by simp)).2.1.1⟩

/-! ## Erasure types of arbitrary lists of descriptions -/

theorem descriptions_toList : (P : Pack) → P.descriptions = P.toList.flatMap Ty.descriptions
  | .nil => rfl
  | .cons t p => by
      simp only [Pack.descriptions, Pack.toList, List.flatMap_cons, descriptions_toList p]

theorem areDescriptions_toList : (P : Pack) →
    P.areDescriptions = P.toList.all Ty.isDescription
  | .nil => rfl
  | .cons t p => by
      simp only [Pack.areDescriptions, Pack.toList, List.all_cons, areDescriptions_toList p]

theorem mem_toList_weight : (P : Pack) → (t : Ty) → t ∈ P.toList → t.weight ≤ P.weight
  | .nil, t, h => by simp [Pack.toList] at h
  | .cons a p, t, h => by
      simp only [Pack.toList, List.mem_cons] at h
      simp only [Pack.weight]
      rcases h with rfl | h
      · omega
      · have := mem_toList_weight p t h
        omega

/-- Induction on descriptions, up to the class that declares their members. -/
theorem description_induct (motive : Ty → Prop)
    (hspec : ∀ n ops, motive (.spec n ops))
    (hmerge : ∀ a b p, (Pack.cons a (.cons b p)).areDescriptions = true →
      (∀ D ∈ (Pack.cons a (.cons b p)).toList, motive (declaringSpec D)) →
      motive (.MergeSpecs (.cons a (.cons b p))))
    (D : Ty) (hD : D.isDescription = true) : motive (declaringSpec D) := by
  generalize hw : D.weight = w
  induction w using Nat.strong_induction_on generalizing D with
  | _ w ih =>
    cases D with
    | spec n ops => exact hspec n ops
    | MergeSpecs P =>
        cases P with
        | nil => simp [Ty.isDescription] at hD
        | cons a p =>
            cases p with
            | nil =>
                simp only [Ty.isDescription, Pack.areDescriptions, Bool.and_true] at hD
                simp only [declaringSpec]
                refine ih a.weight ?_ a hD rfl
                simp only [Ty.weight, Pack.weight] at hw
                omega
            | cons b p =>
                have hP : (Pack.cons a (.cons b p)).areDescriptions = true := by
                  simpa [Ty.isDescription] using hD
                simp only [declaringSpec]
                refine hmerge a b p hP ?_
                intro D' hD'
                have h1 := mem_toList_weight _ D' hD'
                have h2 : D'.isDescription = true := by
                  rw [areDescriptions_toList] at hP
                  exact List.all_eq_true.mp hP D' hD'
                refine ih D'.weight ?_ D' h2 rfl
                simp only [Ty.weight] at hw
                omega
    | named _ => simp [Ty.isDescription] at hD
    | Holder _ => simp [Ty.isDescription] at hD
    | Concept _ => simp [Ty.isDescription] at hD
    | Model _ _ => simp [Ty.isDescription] at hD
    | ExternalInterface _ _ => simp [Ty.isDescription] at hD
    | Container _ _ => simp [Ty.isDescription] at hD
    | TypeErasureSingeSpec _ => simp [Ty.isDescription] at hD

theorem descriptions_declaringSpec (D : Ty) : (declaringSpec D).descriptions = D.descriptions := by
  induction D using declaringSpec.induct with
  | case1 S ih =>
      simp only [declaringSpec, Ty.descriptions, Pack.descriptions, List.append_nil]
      exact ih
  | case2 S h =>
      rw [declaringSpec]
      intro S' hS
      exact h S' hS

theorem descriptions_ne_nil (D : Ty) (hD : D.isDescription = true) : D.descriptions ≠ [] := by
  rw [← descriptions_declaringSpec]
  refine description_induct (fun S => S.descriptions ≠ []) ?_ ?_ D hD
  · intro n ops
    simp [Ty.descriptions]
  · intro a b p _ ih
    have : (declaringSpec a).descriptions ≠ [] := ih a (by simp [Pack.toList])
    rw [descriptions_declaringSpec] at this
    simp [Ty.descriptions, Pack.descriptions, this]

/-! ### The walks at the weight of the class -/

theorem memberLookup_eq (C : Ty) (m : Member) :
    memberLookup C m =
      if (declared C).contains m then .found C
      else match bases C with
        | none => .notFound
        | some Bs => Bs.foldl (fun acc B => acc.merge (memberLookup B m)) .notFound := by
  have hpos := Ty.weight_pos C
  obtain ⟨w, hw⟩ : ∃ w, C.weight = w + 1 := ⟨C.weight - 1, by omega⟩
  show lookup C.weight C m = _
  rw [hw]
  simp only [lookup]
  split
  · rfl
  · cases hb : bases C with
    | none => rfl
    | some Bs =>
        simp only
        apply foldl_merge_congr
        intro B hB
        have := weight_bases C Bs hb B hB
        exact memberLookup_fuel B m w (by omega)

theorem finalOverrider_eq (S H : Ty) (op : String) :
    finalOverrider (Ty.Model S H).weight (.Model S H) op =
      if (declared (.Model S H)).contains (.op op) then some (.Model S H)
      else match bases (.Model S H) with
        | none => none
        | some Bs => Bs.findSome? fun B => finalOverrider B.weight B op := by
  have hpos := Ty.weight_pos (.Model S H)
  obtain ⟨w, hw⟩ : ∃ w, (Ty.Model S H).weight = w + 1 := ⟨(Ty.Model S H).weight - 1, by omega⟩
  rw [hw, finalOverrider_Model]
  split
  · rfl
  · cases hb : bases (.Model S H) with
    | none => rfl
    | some Bs =>
        simp only
        apply findSome_congr
        intro B hB
        have := weight_bases _ Bs hb B hB
        exact finalOverrider_fuel op w B.weight B (by omega) (le_refl _)

theorem overriders_eq (S H : Ty) :
    overriders (Ty.Model S H).weight (.Model S H) =
      (match S with
        | .spec _ ops => ops.map fun op => (Ty.Model S H, op)
        | _ => []) ++
      (match bases (.Model S H) with
        | none => []
        | some Bs => Bs.flatMap fun B => overriders B.weight B) := by
  have hpos := Ty.weight_pos (.Model S H)
  obtain ⟨w, hw⟩ : ∃ w, (Ty.Model S H).weight = w + 1 := ⟨(Ty.Model S H).weight - 1, by omega⟩
  rw [hw, overriders_Model]
  congr 1
  cases hb : bases (.Model S H) with
  | none => rfl
  | some Bs =>
      simp only
      apply flatMap_congr
      intro B hB
      have := weight_bases _ Bs hb B hB
      exact overriders_fuel w B.weight B (by omega) (le_refl _)

theorem operations_eq (P : Pack) :
    operations (Ty.Concept (.MergeSpecs P)).weight (.Concept (.MergeSpecs P)) =
      match bases (.Concept (.MergeSpecs P)) with
      | none => []
      | some Bs => Bs.flatMap fun B => operations B.weight B := by
  have hpos := Ty.weight_pos (.Concept (.MergeSpecs P))
  obtain ⟨w, hw⟩ : ∃ w, (Ty.Concept (.MergeSpecs P)).weight = w + 1 :=
    ⟨(Ty.Concept (.MergeSpecs P)).weight - 1, by omega⟩
  rw [hw, operations_MergeSpecs]
  cases hb : bases (.Concept (.MergeSpecs P)) with
  | none => rfl
  | some Bs =>
      simp only
      apply flatMap_congr
      intro B hB
      have := weight_bases _ Bs hb B hB
      exact operations_fuel w B.weight B (by omega) (le_refl _)

theorem complete_eq (C : Ty) :
    complete C.weight C =
      match bases C with
      | none => false
      | some Bs => Bs.all fun B => complete B.weight B := by
  have hpos := Ty.weight_pos C
  obtain ⟨w, hw⟩ : ∃ w, C.weight = w + 1 := ⟨C.weight - 1, by omega⟩
  rw [hw]
  simp only [complete]
  cases hb : bases C with
  | none => rfl
  | some Bs =>
      simp only
      apply all_congr
      intro B hB
      have := weight_bases _ Bs hb B hB
      exact complete_fuel w B.weight B (by omega) (le_refl _)

/-! ### The base classes of merged classes -/

theorem bases_Concept_merge (a b : Ty) (p : Pack) :
    bases (.Concept (.MergeSpecs (.cons a (.cons b p)))) =
      if ((Pack.cons a (.cons b p)).toList.map ConceptOf).Nodup then
        some ((Pack.cons a (.cons b p)).toList.map ConceptOf)
      else none := rfl

theorem bases_Model_merge (a b : Ty) (p : Pack) (H : Ty) :
    bases (.Model (.MergeSpecs (.cons a (.cons b p))) H) =
      some [(Pack.cons a (.cons b p)).toList.foldr ModelOf H,
        .Concept (.MergeSpecs (.cons a (.cons b p)))] := by
  have h := rfold_snoc ModelOf a (b :: p.toList) H
  simp only [bases, MergeSpecs.Model.Base, Rfold, Pack.toList]
  rw [h]
  rfl

theorem bases_ExternalInterface_merge (a b : Ty) (p : Pack) (C : Ty) :
    bases (.ExternalInterface (.MergeSpecs (.cons a (.cons b p))) C) =
      some [(Pack.cons a (.cons b p)).toList.foldr ExternalInterfaceOf C] := by
  have h := rfold_snoc ExternalInterfaceOf a (b :: p.toList) C
  simp only [bases, MergeSpecs.ExternalInterface.Base, Rfold, Pack.toList]
  rw [h]
  rfl

theorem foldl_merge_notFound (F : Ty → Lookup) (Bs : List Ty)
    (h : ∀ B ∈ Bs, F B = .notFound) :
    Bs.foldl (fun acc B => Lookup.merge acc (F B)) Lookup.notFound = Lookup.notFound := by
  induction Bs with
  | nil => rfl
  | cons B Bs ih =>
      simp only [List.foldl_cons, h B (List.mem_cons_self _ _), Lookup.merge]
      exact ih fun B' hB' => h B' (List.mem_cons_of_mem _ hB')

theorem declared_Concept (S : Ty) (m : Member) (hm : ∀ op, m ≠ .op op) :
    (declared (.Concept S)).contains m = false := by
  cases S with
  | spec n ops =>
      simp only [declared]
      induction ops with
      | nil => rfl
      | cons a as ih =>
          simp only [List.map_cons, List.contains_cons, ih, Bool.or_false, beq_eq_false_iff_ne]
          exact hm a
  | _ => rfl

theorem bases_Concept_mem (S : Ty) (Bs : List Ty) (h : bases (.Concept S) = some Bs) :
    ∀ B ∈ Bs, ∃ S', B = .Concept S' := by
  intro B hB
  cases S with
  | spec n ops =>
      simp only [bases, Option.some.injEq] at h
      subst h
      simp at hB
  | MergeSpecs P =>
      cases P with
      | nil =>
          simp only [bases, Pack.toList, List.map_nil, List.nodup_nil, if_true,
            Option.some.injEq] at h
          subst h
          simp at hB
      | cons a p =>
          cases p with
          | nil => simp [bases] at h
          | cons b p =>
              rw [bases_Concept_merge] at h
              split at h
              · simp only [Option.some.injEq] at h
                subst h
                obtain ⟨D, _, rfl⟩ := List.mem_map.mp hB
                exact ⟨_, rfl⟩
              · simp at h
  | named _ => simp [bases] at h
  | Holder _ => simp [bases] at h
  | Concept _ => simp [bases] at h
  | Model _ _ => simp [bases] at h
  | ExternalInterface _ _ => simp [bases] at h
  | Container _ _ => simp [bases] at h
  | TypeErasureSingeSpec _ => simp [bases] at h

/-- A concept class declares operations only: a name that is not an operation is not found
in it. -/
theorem memberLookup_Concept_notFound (m : Member) (hm : ∀ op, m ≠ .op op) (w : Nat) :
    ∀ S : Ty, (Ty.Concept S).weight ≤ w → memberLookup (.Concept S) m = .notFound := by
  induction w with
  | zero =>
      intro S h
      have := Ty.weight_pos (.Concept S)
      omega
  | succ w ih =>
      intro S h
      rw [memberLookup_eq, declared_Concept S m hm]
      simp only [Bool.false_eq_true, if_false]
      cases hb : bases (.Concept S) with
      | none => rfl
      | some Bs =>
          simp only
          apply foldl_merge_notFound
          intro B hB
          obtain ⟨S', rfl⟩ := bases_Concept_mem S Bs hb B hB
          have := weight_bases _ Bs hb _ hB
          exact ih S' (by omega)

/-! ### Lookup sets of concept classes -/

theorem ofClasses_classes (l : List Ty) : (Lookup.ofClasses l).classes = l := by
  match l with
  | [] => rfl
  | [_] => rfl
  | _ :: _ :: _ => rfl

theorem ofClasses_eq_notFound (l : List Ty) (h : Lookup.ofClasses l = .notFound) : l = [] := by
  cases l with
  | nil => rfl
  | cons x xs => cases xs <;> simp [Lookup.ofClasses] at h

theorem merge_of_ne (l r : Lookup) (hl : l ≠ .notFound) :
    l.merge r =
      if hides l.classes r.classes then l
      else if hides r.classes l.classes then r
      else .ambiguous (l.classes ++ r.classes.filter fun D => !l.classes.contains D) := by
  cases l <;> cases r <;> first | rfl | exact absurd rfl hl

theorem hides_false (l r : List Ty) (D : Ty) (hD : D ∈ r) (hDl : D ∉ l)
    (hl : ∀ C ∈ l, ∃ n ops, C = .Concept (.spec n ops)) : hides l r = false := by
  simp only [hides, Bool.eq_false_iff, ne_eq, List.all_eq_true, not_forall]
  refine ⟨D, hD, ?_⟩
  simp only [List.any_eq_true, not_exists, not_and, Bool.or_eq_true, decide_eq_true_eq, not_or]
  intro C hC
  obtain ⟨n, ops, rfl⟩ := hl C hC
  refine ⟨fun h => hDl (h ▸ hC), ?_⟩
  simp [isBaseOf_spec_Concept]

theorem ofClasses_merge (l r : List Ty)
    (hl : ∀ C ∈ l, ∃ n ops, C = .Concept (.spec n ops))
    (hr : ∀ C ∈ r, ∃ n ops, C = .Concept (.spec n ops))
    (hd : ∀ C ∈ r, C ∉ l) :
    (Lookup.ofClasses l).merge (Lookup.ofClasses r) = Lookup.ofClasses (l ++ r) := by
  cases l with
  | nil =>
      cases r with
      | nil => rfl
      | cons y ys => cases ys <;> rfl
  | cons x xs =>
      cases r with
      | nil =>
          simp only [List.append_nil]
          cases xs <;> rfl
      | cons y ys =>
          have h1 : Lookup.ofClasses (x :: xs) ≠ .notFound := fun h => by
            have := ofClasses_eq_notFound _ h
            simp at this
          rw [merge_of_ne _ _ h1, ofClasses_classes, ofClasses_classes,
            hides_false (x :: xs) (y :: ys) y (List.mem_cons_self _ _)
              (hd y (List.mem_cons_self _ _)) hl,
            hides_false (y :: ys) (x :: xs) x (List.mem_cons_self _ _)
              (fun h => hd x h (List.mem_cons_self _ _)) hr]
          have hf : (y :: ys).filter (fun D => !(x :: xs).contains D) = y :: ys := by
            apply List.filter_eq_self.mpr
            intro D hD
            have := hd D hD
            simpa using this
          simp only [Bool.false_eq_true, if_false, hf]
          cases xs <;> rfl

theorem foldl_ofClasses (cls : Ty → List Ty) (G : Ty → Lookup) (Ds : List Ty) :
    ∀ acc : List Ty, (∀ D ∈ Ds, G D = Lookup.ofClasses (cls D)) →
      (acc ++ Ds.flatMap cls).Nodup →
      (∀ C ∈ acc ++ Ds.flatMap cls, ∃ n ops, C = Ty.Concept (.spec n ops)) →
      Ds.foldl (fun a D => Lookup.merge a (G D)) (Lookup.ofClasses acc) =
        Lookup.ofClasses (acc ++ Ds.flatMap cls) := by
  induction Ds with
  | nil =>
      intro acc _ _ _
      simp
  | cons D Ds ih =>
      intro acc hG hnd hleaf
      simp only [List.flatMap_cons, ← List.append_assoc] at hnd hleaf ⊢
      have hnd1 : (acc ++ cls D).Nodup := (List.nodup_append.mp hnd).1
      rw [List.foldl_cons, hG D (List.mem_cons_self _ _), ofClasses_merge acc (cls D)
        (fun C hC => hleaf C (by simp [hC])) (fun C hC => hleaf C (by simp [hC]))
        (fun C hC hCa => (List.nodup_append.mp hnd1).2.2 hCa hC)]
      exact ih (acc ++ cls D) (fun D' hD' => hG D' (List.mem_cons_of_mem _ hD')) hnd hleaf

/-! ### The merged concept -/

theorem nodup_of_mem_flatMap {β : Type} (f : Ty → List β) (Ds : List Ty) (D : Ty) (hD : D ∈ Ds)
    (h : (Ds.flatMap f).Nodup) : (f D).Nodup := by
  induction Ds with
  | nil => simp at hD
  | cons a as ih =>
      simp only [List.flatMap_cons] at h
      rcases List.mem_cons.mp hD with rfl | hD
      · exact (List.nodup_append.mp h).1
      · exact ih hD (List.nodup_append.mp h).2.1

theorem nodup_ConceptOf (Ds : List Ty) (hDs : ∀ D ∈ Ds, D.isDescription = true)
    (h : (Ds.flatMap Ty.descriptions).Nodup) : (Ds.map ConceptOf).Nodup := by
  induction Ds with
  | nil => simp
  | cons a as ih =>
      simp only [List.flatMap_cons] at h
      obtain ⟨_, h2, h3⟩ := List.nodup_append.mp h
      simp only [List.map_cons, List.nodup_cons]
      refine ⟨?_, ih (fun D hD => hDs D (List.mem_cons_of_mem _ hD)) h2⟩
      intro hmem
      obtain ⟨D, hD, hDa⟩ := List.mem_map.mp hmem
      have heq : D.descriptions = a.descriptions := by
        simp only [ConceptOf, Ty.Concept.injEq] at hDa
        rw [← descriptions_declaringSpec D, ← descriptions_declaringSpec a, hDa]
      obtain ⟨x, hx⟩ := List.exists_mem_of_ne_nil _
        (descriptions_ne_nil a (hDs a (List.mem_cons_self _ _)))
      exact h3 hx (List.mem_flatMap.mpr ⟨D, hD, heq ▸ hx⟩)

theorem complete_Concept_description (D : Ty) (hD : D.isDescription = true)
    (hn : D.descriptions.Nodup) :
    complete (ConceptOf D).weight (ConceptOf D) = true := by
  rw [← descriptions_declaringSpec] at hn
  revert hn
  refine description_induct
    (fun S => S.descriptions.Nodup → complete (Ty.Concept S).weight (.Concept S) = true)
    ?_ ?_ D hD
  · intro n ops _
    rw [complete_eq]
    rfl
  · intro a b p hP ih hn
    have hP1 := hP
    rw [areDescriptions_toList] at hP1
    simp only [Ty.descriptions, descriptions_toList] at hn
    rw [complete_eq, bases_Concept_merge,
      if_pos (nodup_ConceptOf _ (fun D hD => List.all_eq_true.mp hP1 D hD) hn)]
    simp only [List.all_eq_true, List.mem_map, forall_exists_index, and_imp]
    intro B D' hD' hB
    subst hB
    apply ih D' hD'
    rw [descriptions_declaringSpec]
    exact nodup_of_mem_flatMap _ _ D' hD' hn

theorem flatMap_filter_map (op : String) (Ds : List Ty) :
    Ds.flatMap (fun D => (D.descriptions.filter (declares op)).map Ty.Concept) =
      ((Ds.flatMap Ty.descriptions).filter (declares op)).map Ty.Concept := by
  induction Ds with
  | nil => rfl
  | cons a as ih => simp only [List.flatMap_cons, List.filter_append, List.map_append, ih]

theorem declares_spec (op : String) (S : Ty) (h : declares op S = true) :
    ∃ n ops, S = .spec n ops ∧ op ∈ ops := by
  cases S with
  | spec n ops => exact ⟨n, ops, rfl, by simpa [declares] using h⟩
  | _ => simp [declares] at h

/-- Name lookup of an operation in the concept of a description finds the declarations
of the user-authored descriptions that declare it. -/
theorem memberLookup_Concept_description (op : String) (D : Ty) (hD : D.isDescription = true)
    (hn : D.descriptions.Nodup) :
    memberLookup (ConceptOf D) (.op op) =
      Lookup.ofClasses ((D.descriptions.filter (declares op)).map Ty.Concept) := by
  rw [← descriptions_declaringSpec] at hn ⊢
  revert hn
  refine description_induct
    (fun S => S.descriptions.Nodup → memberLookup (.Concept S) (.op op) =
      Lookup.ofClasses ((S.descriptions.filter (declares op)).map Ty.Concept))
    ?_ ?_ D hD
  · intro n ops _
    rw [memberLookup_eq]
    simp only [declared, contains_op, bases, Ty.descriptions, List.filter_cons, declares,
      List.filter_nil, List.foldl_nil]
    split <;> rfl
  · intro a b p hP ih hn
    have hP1 := hP
    rw [areDescriptions_toList] at hP1
    simp only [Ty.descriptions, descriptions_toList] at hn ⊢
    rw [memberLookup_eq, bases_Concept_merge,
      if_pos (nodup_ConceptOf _ (fun D hD => List.all_eq_true.mp hP1 D hD) hn)]
    simp only [declared, List.contains_nil, Bool.false_eq_true, if_false, List.foldl_map]
    have hnd : (([] : List Ty) ++ (Pack.cons a (.cons b p)).toList.flatMap
        (fun D => (D.descriptions.filter (declares op)).map Ty.Concept)).Nodup := by
      rw [List.nil_append, flatMap_filter_map]
      exact (hn.filter _).map (fun _ _ h => Ty.Concept.inj h)
    have h := foldl_ofClasses (fun D => (D.descriptions.filter (declares op)).map Ty.Concept)
      (fun D => memberLookup (ConceptOf D) (.op op)) (Pack.cons a (.cons b p)).toList []
      (by
        intro D' hD'
        have := ih D' hD' (by
          rw [descriptions_declaringSpec]
          exact nodup_of_mem_flatMap _ _ D' hD' hn)
        rw [descriptions_declaringSpec] at this
        exact this)
      hnd
      (by
        intro C hC
        rw [List.nil_append, flatMap_filter_map] at hC
        obtain ⟨S, hS, rfl⟩ := List.mem_map.mp hC
        obtain ⟨n, ops, rfl, _⟩ := declares_spec op S (List.mem_filter.mp hS).2
        exact ⟨n, ops, rfl⟩)
    rw [List.nil_append, flatMap_filter_map] at h
    exact h

/-- The operations of the concept of a description are declared by its user-authored
descriptions. -/
theorem operations_description (op : String) (D : Ty) (hD : D.isDescription = true)
    (h : op ∈ operations (ConceptOf D).weight (ConceptOf D)) :
    ∃ n ops, Ty.spec n ops ∈ D.descriptions ∧ op ∈ ops := by
  rw [← descriptions_declaringSpec]
  revert h
  refine description_induct
    (fun S => op ∈ operations (Ty.Concept S).weight (.Concept S) →
      ∃ n ops, Ty.spec n ops ∈ S.descriptions ∧ op ∈ ops)
    ?_ ?_ D hD
  · intro n ops h
    exact ⟨n, ops, by simp [Ty.descriptions], by simpa [Ty.weight, operations] using h⟩
  · intro a b p hP ih h
    rw [operations_eq, bases_Concept_merge] at h
    by_cases hnd : ((Pack.cons a (.cons b p)).toList.map ConceptOf).Nodup
    · rw [if_pos hnd] at h
      simp only [List.mem_flatMap, List.mem_map] at h
      obtain ⟨B, ⟨D', hD', rfl⟩, hop⟩ := h
      obtain ⟨n, ops, hmem, hops⟩ := ih D' hD' hop
      rw [descriptions_declaringSpec] at hmem
      refine ⟨n, ops, ?_, hops⟩
      simp only [Ty.descriptions, descriptions_toList]
      exact List.mem_flatMap.mpr ⟨D', hD', hmem⟩
    · rw [if_neg hnd] at h
      simp at h

/-! ### The merged model -/

theorem foldr_induct (Φ : Ty → Prop) (F : Ty → Ty → Ty) (Ds : List Ty) (H : Ty)
    (h : ∀ D ∈ Ds, ∀ H', Φ H' → Φ (F D H')) (hH : Φ H) : Φ (Ds.foldr F H) := by
  induction Ds with
  | nil => exact hH
  | cons D Ds ih =>
      exact h D (List.mem_cons_self _ _) _ (ih fun D' hD' => h D' (List.mem_cons_of_mem _ hD'))

theorem mem_areDescriptions (P : Pack) (hP : P.areDescriptions = true) (D : Ty)
    (hD : D ∈ P.toList) : D.isDescription = true := by
  rw [areDescriptions_toList] at hP
  exact List.all_eq_true.mp hP D hD

/-- The members of the holder are found in the holder from every model of a description
wrapped around it. -/
theorem memberLookup_Model_description (T : Ty) (m : Member)
    (hm : m = .Data ∨ m = .get_from_rubber_types_holder_) (D : Ty)
    (hD : D.isDescription = true) (H : Ty) (hH : memberLookup H m = .found (.Holder T)) :
    memberLookup (ModelOf D H) m = .found (.Holder T) := by
  have hop : ∀ op, m ≠ .op op := by
    rcases hm with rfl | rfl <;> intro op h <;> cases h
  revert H
  refine description_induct
    (fun S => ∀ H, memberLookup H m = .found (.Holder T) →
      memberLookup (.Model S H) m = .found (.Holder T))
    ?_ ?_ D hD
  · intro n ops H hH
    have hc : (declared (.Model (.spec n ops) H)).contains m = false := by
      rcases hm with rfl | rfl
      · exact contains_op_Data ops
      · exact contains_op_holder ops
    rw [memberLookup_eq, hc]
    simp only [bases, List.foldl_cons, List.foldl_nil, hH,
      memberLookup_Concept_notFound m hop _ _ (le_refl _), Lookup.merge, Bool.false_eq_true,
      if_false]
  · intro a b p hP ih H hH
    have hc : (declared (.Model (.MergeSpecs (.cons a (.cons b p))) H)).contains m = false := by
      rcases hm with rfl | rfl <;> rfl
    have hf := foldr_induct (fun H' => memberLookup H' m = .found (.Holder T)) ModelOf
      (Pack.cons a (.cons b p)).toList H (fun D' hD' H' hH' => ih D' hD' H' hH') hH
    simp only at hf
    rw [memberLookup_eq, hc, bases_Model_merge]
    simp only [List.foldl_cons, List.foldl_nil, hf,
      memberLookup_Concept_notFound m hop _ _ (le_refl _), Lookup.merge, Bool.false_eq_true,
      if_false]

theorem complete_Model_description (D : Ty) (hD : D.isDescription = true)
    (hn : D.descriptions.Nodup) (H : Ty) (hH : complete H.weight H = true) :
    complete (ModelOf D H).weight (ModelOf D H) = true := by
  rw [← descriptions_declaringSpec] at hn
  revert H hn
  refine description_induct
    (fun S => S.descriptions.Nodup → ∀ H, complete H.weight H = true →
      complete (Ty.Model S H).weight (.Model S H) = true)
    ?_ ?_ D hD
  · intro n ops _ H hH
    have hK : complete (Ty.Concept (.spec n ops)).weight (.Concept (.spec n ops)) = true := by
      rw [complete_eq]
      rfl
    rw [complete_eq]
    simp only [bases, List.all_cons, List.all_nil, hH, hK, Bool.and_self]
  · intro a b p hP ih hn H hH
    have hn1 := hn
    simp only [Ty.descriptions, descriptions_toList] at hn1
    have hf := foldr_induct (fun H' => complete H'.weight H' = true) ModelOf
      (Pack.cons a (.cons b p)).toList H
      (fun D' hD' H' hH' => ih D' hD' (by
        rw [descriptions_declaringSpec]
        exact nodup_of_mem_flatMap _ _ D' hD' hn1) H' hH') hH
    have hK := complete_Concept_description (.MergeSpecs (.cons a (.cons b p)))
      (by simpa [Ty.isDescription] using hP) hn
    simp only [ConceptOf, declaringSpec] at hK
    simp only at hf
    rw [complete_eq, bases_Model_merge]
    simp only [List.all_cons, List.all_nil, hf, hK, Bool.and_self]

/-- The overrides of the model of a description compile when the payload type provides
the operations of its user-authored descriptions. -/
theorem overriders_description {V A R : Type} (Γ : Duck V A R) (T : Ty) (D : Ty)
    (hD : D.isDescription = true)
    (hT : ∀ n ops, Ty.spec n ops ∈ D.descriptions → ∀ op ∈ ops, (Γ T op).isSome = true)
    (H : Ty) (h1 : memberLookup H .Data = .found (.Holder T))
    (h2 : memberLookup H .get_from_rubber_types_holder_ = .found (.Holder T))
    (h3 : ∀ x ∈ overriders H.weight H, Model.compiles Γ x.1 x.2 = .ok ()) :
    ∀ x ∈ overriders (ModelOf D H).weight (ModelOf D H), Model.compiles Γ x.1 x.2 = .ok () := by
  rw [← descriptions_declaringSpec] at hT
  have key : ∀ H, (memberLookup H .Data = .found (.Holder T) ∧
      memberLookup H .get_from_rubber_types_holder_ = .found (.Holder T) ∧
      ∀ x ∈ overriders H.weight H, Model.compiles Γ x.1 x.2 = .ok ()) →
      (memberLookup (.Model (declaringSpec D) H) .Data = .found (.Holder T) ∧
      memberLookup (.Model (declaringSpec D) H) .get_from_rubber_types_holder_ =
        .found (.Holder T) ∧
      ∀ x ∈ overriders (Ty.Model (declaringSpec D) H).weight (.Model (declaringSpec D) H),
        Model.compiles Γ x.1 x.2 = .ok ()) := by
    revert hT
    refine description_induct
      (fun S => (∀ n ops, Ty.spec n ops ∈ S.descriptions → ∀ op ∈ ops, (Γ T op).isSome = true) →
        ∀ H, (memberLookup H .Data = .found (.Holder T) ∧
          memberLookup H .get_from_rubber_types_holder_ = .found (.Holder T) ∧
          ∀ x ∈ overriders H.weight H, Model.compiles Γ x.1 x.2 = .ok ()) →
          (memberLookup (.Model S H) .Data = .found (.Holder T) ∧
          memberLookup (.Model S H) .get_from_rubber_types_holder_ = .found (.Holder T) ∧
          ∀ x ∈ overriders (Ty.Model S H).weight (.Model S H),
            Model.compiles Γ x.1 x.2 = .ok ()))
      ?_ ?_ D hD
    · intro n ops hT H ⟨h1, h2, h3⟩
      refine ⟨memberLookup_Model_description T .Data (Or.inl rfl) (.spec n ops) rfl H h1,
        memberLookup_Model_description T _ (Or.inr rfl) (.spec n ops) rfl H h2, ?_⟩
      intro x hx
      rw [overriders_eq] at hx
      simp only [bases, List.flatMap_cons, List.flatMap_nil, overriders_Concept, List.append_nil,
        List.mem_append, List.mem_map] at hx
      rcases hx with ⟨op, hop, rfl⟩ | hx
      · have hΓ := hT n ops (by simp [Ty.descriptions]) op hop
        simp only [Model.compiles, model_get.Data, UnwrapHolder, unwrap_holder, resolve, h1, h2,
          hΓ, if_true]
      · exact h3 x hx
    · intro a b p hP ih hT H hH
      have hf := foldr_induct (fun H' => memberLookup H' .Data = .found (.Holder T) ∧
          memberLookup H' .get_from_rubber_types_holder_ = .found (.Holder T) ∧
          ∀ x ∈ overriders H'.weight H', Model.compiles Γ x.1 x.2 = .ok ()) ModelOf
        (Pack.cons a (.cons b p)).toList H
        (fun D' hD' H' hH' => ih D' hD' (by
          intro n ops hmem
          rw [descriptions_declaringSpec] at hmem
          apply hT n ops
          simp only [Ty.descriptions, descriptions_toList]
          exact List.mem_flatMap.mpr ⟨D', hD', hmem⟩) H' hH') hH
      obtain ⟨h1, h2, _⟩ := hH
      obtain ⟨_, _, f3⟩ := hf
      have hD2 : (Ty.MergeSpecs (.cons a (.cons b p))).isDescription = true := by
        simpa [Ty.isDescription] using hP
      refine ⟨memberLookup_Model_description T .Data (Or.inl rfl) _ hD2 H h1,
        memberLookup_Model_description T _ (Or.inr rfl) _ hD2 H h2, ?_⟩
      intro x hx
      rw [overriders_eq, bases_Model_merge] at hx
      simp only [List.flatMap_cons, List.flatMap_nil, overriders_Concept, List.append_nil,
        List.nil_append] at hx
      exact f3 x hx
  exact (key H ⟨h1, h2, h3⟩).2.2

/-- Every operation declared by a user-authored description of a description has a final
overrider in the model of the description. -/
theorem finalOverrider_description (op : String) (D : Ty) (hD : D.isDescription = true) (H : Ty)
    (h : (∃ n ops, Ty.spec n ops ∈ D.descriptions ∧ op ∈ ops) ∨
      (finalOverrider H.weight H op).isSome = true) :
    (finalOverrider (ModelOf D H).weight (ModelOf D H) op).isSome = true := by
  rw [← descriptions_declaringSpec] at h
  revert H
  refine description_induct
    (fun S => ∀ H, ((∃ n ops, Ty.spec n ops ∈ S.descriptions ∧ op ∈ ops) ∨
        (finalOverrider H.weight H op).isSome = true) →
      (finalOverrider (Ty.Model S H).weight (.Model S H) op).isSome = true)
    ?_ ?_ D hD
  · intro n ops H h
    rw [finalOverrider_eq]
    simp only [declared, contains_op, bases, List.findSome?_cons, List.findSome?_nil,
      finalOverrider_Concept]
    by_cases hc : op ∈ ops
    · have hc1 : ops.contains op = true := by simpa using hc
      simp only [hc1, if_true, Option.isSome_some]
    · have hc1 : ops.contains op = false := by simpa using hc
      rcases h with ⟨n', ops', hmem, hop⟩ | h
      · simp only [Ty.descriptions, List.mem_singleton, Ty.spec.injEq] at hmem
        obtain ⟨_, rfl⟩ := hmem
        exact absurd hop hc
      · simp only [hc1, Bool.false_eq_true, if_false]
        cases hf : finalOverrider H.weight H op with
        | none => simp [hf] at h
        | some M => rfl
  · intro a b p hP ih H h
    have key : ∀ (Es : List Ty), (∀ D' ∈ Es, D' ∈ (Pack.cons a (.cons b p)).toList) →
        ((∃ n ops, Ty.spec n ops ∈ Es.flatMap Ty.descriptions ∧ op ∈ ops) ∨
          (finalOverrider H.weight H op).isSome = true) →
        (finalOverrider (Es.foldr ModelOf H).weight (Es.foldr ModelOf H) op).isSome = true := by
      intro Es
      induction Es with
      | nil =>
          intro _ h
          rcases h with ⟨n, ops, hmem, _⟩ | h
          · simp at hmem
          · exact h
      | cons E Es ihE =>
          intro hsub h
          have hsub' : ∀ D' ∈ Es, D' ∈ (Pack.cons a (.cons b p)).toList :=
            fun D' hD' => hsub D' (List.mem_cons_of_mem _ hD')
          simp only [List.foldr_cons]
          apply ih E (hsub E (List.mem_cons_self _ _))
          rcases h with ⟨n, ops, hmem, hop⟩ | h
          · simp only [List.flatMap_cons, List.mem_append] at hmem
            rcases hmem with hmem | hmem
            · left
              exact ⟨n, ops, by rw [descriptions_declaringSpec]; exact hmem, hop⟩
            · right
              exact ihE hsub' (Or.inl ⟨n, ops, hmem, hop⟩)
          · right
            exact ihE hsub' (Or.inr h)
    simp only [Ty.descriptions, descriptions_toList] at h
    have hf := key _ (fun _ h => h) h
    rw [finalOverrider_eq, bases_Model_merge]
    cases hf' : finalOverrider ((Pack.cons a (.cons b p)).toList.foldr ModelOf H).weight
        ((Pack.cons a (.cons b p)).toList.foldr ModelOf H) op with
    | none => simp [hf'] at hf
    | some M =>
        have hc : (declared (.Model (.MergeSpecs (.cons a (.cons b p))) H)).contains (.op op)
            = false := rfl
        simp only [hc, Bool.false_eq_true, if_false, List.findSome?_cons, hf']
        rfl

/-! ### The merged facade -/

/-- The members of the container are found in the container from every facade of a
description wrapped around it. -/
theorem memberLookup_ExternalInterface_description (X : Ty) (m : Member)
    (hm : m = .Concept ∨ m = .get_from_rubber_types_container_) (D : Ty)
    (hD : D.isDescription = true) (C : Ty) (hC : memberLookup C m = .found X) :
    memberLookup (ExternalInterfaceOf D C) m = .found X := by
  revert C
  refine description_induct
    (fun S => ∀ C, memberLookup C m = .found X →
      memberLookup (.ExternalInterface S C) m = .found X)
    ?_ ?_ D hD
  · intro n ops C hC
    have hc : (declared (.ExternalInterface (.spec n ops) C)).contains m = false := by
      rcases hm with rfl | rfl
      · exact contains_op_Concept ops
      · exact contains_op_container ops
    rw [memberLookup_eq, hc]
    simp only [bases, List.foldl_cons, List.foldl_nil, hC, Lookup.merge, Bool.false_eq_true,
      if_false]
  · intro a b p hP ih C hC
    have hc : (declared (.ExternalInterface (.MergeSpecs (.cons a (.cons b p))) C)).contains m
        = false := by
      rcases hm with rfl | rfl <;> rfl
    have hf := foldr_induct (fun C' => memberLookup C' m = .found X) ExternalInterfaceOf
      (Pack.cons a (.cons b p)).toList C (fun D' hD' C' hC' => ih D' hD' C' hC') hC
    simp only at hf
    rw [memberLookup_eq, hc, bases_ExternalInterface_merge]
    simp only [List.foldl_cons, List.foldl_nil, hf, Lookup.merge, Bool.false_eq_true, if_false]

/-- Name lookup of an operation in the facade of a description finds the member of a facade
layer wrapped around a class in which the members of the container are found. -/
theorem memberLookup_op_ExternalInterface_description (X : Ty) (op : String) (D : Ty)
    (hD : D.isDescription = true) (C : Ty)
    (h1 : memberLookup C .Concept = .found X)
    (h2 : memberLookup C .get_from_rubber_types_container_ = .found X)
    (h : (∃ n ops, Ty.spec n ops ∈ D.descriptions ∧ op ∈ ops) ∨
      ∃ S' C', memberLookup C (.op op) = .found (.ExternalInterface S' C') ∧
        memberLookup C' .Concept = .found X ∧
        memberLookup C' .get_from_rubber_types_container_ = .found X) :
    ∃ S' C', memberLookup (ExternalInterfaceOf D C) (.op op) = .found (.ExternalInterface S' C') ∧
      memberLookup C' .Concept = .found X ∧
      memberLookup C' .get_from_rubber_types_container_ = .found X := by
  rw [← descriptions_declaringSpec] at h
  revert C
  refine description_induct
    (fun S => ∀ C, memberLookup C .Concept = .found X →
      memberLookup C .get_from_rubber_types_container_ = .found X →
      ((∃ n ops, Ty.spec n ops ∈ S.descriptions ∧ op ∈ ops) ∨
        ∃ S' C', memberLookup C (.op op) = .found (.ExternalInterface S' C') ∧
          memberLookup C' .Concept = .found X ∧
          memberLookup C' .get_from_rubber_types_container_ = .found X) →
      ∃ S' C', memberLookup (.ExternalInterface S C) (.op op) =
          .found (.ExternalInterface S' C') ∧
        memberLookup C' .Concept = .found X ∧
        memberLookup C' .get_from_rubber_types_container_ = .found X)
    ?_ ?_ D hD
  · intro n ops C h1 h2 h
    rw [memberLookup_eq]
    simp only [declared, contains_op, bases, List.foldl_cons, List.foldl_nil]
    by_cases hc : op ∈ ops
    · have hc1 : ops.contains op = true := by simpa using hc
      exact ⟨.spec n ops, C, by simp only [hc1, if_true], h1, h2⟩
    · have hc1 : ops.contains op = false := by simpa using hc
      rcases h with ⟨n', ops', hmem, hop⟩ | ⟨S', C', h3, h4, h5⟩
      · simp only [Ty.descriptions, List.mem_singleton, Ty.spec.injEq] at hmem
        obtain ⟨_, rfl⟩ := hmem
        exact absurd hop hc
      · exact ⟨S', C', by simp only [hc1, Bool.false_eq_true, if_false, h3, Lookup.merge],
          h4, h5⟩
  · intro a b p hP ih C h1 h2 h
    have key : ∀ (Es : List Ty), (∀ D' ∈ Es, D' ∈ (Pack.cons a (.cons b p)).toList) →
        ((∃ n ops, Ty.spec n ops ∈ Es.flatMap Ty.descriptions ∧ op ∈ ops) ∨
          ∃ S' C', memberLookup C (.op op) = .found (.ExternalInterface S' C') ∧
            memberLookup C' .Concept = .found X ∧
            memberLookup C' .get_from_rubber_types_container_ = .found X) →
        memberLookup (Es.foldr ExternalInterfaceOf C) .Concept = .found X ∧
        memberLookup (Es.foldr ExternalInterfaceOf C) .get_from_rubber_types_container_ =
          .found X ∧
        ∃ S' C', memberLookup (Es.foldr ExternalInterfaceOf C) (.op op) =
            .found (.ExternalInterface S' C') ∧
          memberLookup C' .Concept = .found X ∧
          memberLookup C' .get_from_rubber_types_container_ = .found X := by
      intro Es
      induction Es with
      | nil =>
          intro _ h
          refine ⟨h1, h2, ?_⟩
          rcases h with ⟨n, ops, hmem, _⟩ | h
          · simp at hmem
          · exact h
      | cons E Es ihE =>
          intro hsub h
          have hE := hsub E (List.mem_cons_self _ _)
          have hEd := mem_areDescriptions _ hP E hE
          have hsub' : ∀ D' ∈ Es, D' ∈ (Pack.cons a (.cons b p)).toList :=
            fun D' hD' => hsub D' (List.mem_cons_of_mem _ hD')
          have g1 : memberLookup (Es.foldr ExternalInterfaceOf C) .Concept = .found X ∧
              memberLookup (Es.foldr ExternalInterfaceOf C) .get_from_rubber_types_container_ =
                .found X := by
            have := foldr_induct (fun C' => memberLookup C' .Concept = .found X ∧
                memberLookup C' .get_from_rubber_types_container_ = .found X)
              ExternalInterfaceOf Es C
              (fun D' hD' C' hC' =>
                ⟨memberLookup_ExternalInterface_description X _ (Or.inl rfl) D'
                    (mem_areDescriptions _ hP D' (hsub' D' hD')) C' hC'.1,
                  memberLookup_ExternalInterface_description X _ (Or.inr rfl) D'
                    (mem_areDescriptions _ hP D' (hsub' D' hD')) C' hC'.2⟩) ⟨h1, h2⟩
            exact this
          simp only [List.foldr_cons]
          refine ⟨memberLookup_ExternalInterface_description X _ (Or.inl rfl) E hEd _ g1.1,
            memberLookup_ExternalInterface_description X _ (Or.inr rfl) E hEd _ g1.2, ?_⟩
          apply ih E hE _ g1.1 g1.2
          rcases h with ⟨n, ops, hmem, hop⟩ | h
          · simp only [List.flatMap_cons, List.mem_append] at hmem
            rcases hmem with hmem | hmem
            · left
              exact ⟨n, ops, by rw [descriptions_declaringSpec]; exact hmem, hop⟩
            · right
              exact (ihE hsub' (Or.inl ⟨n, ops, hmem, hop⟩)).2.2
          · right
            exact (ihE hsub' (Or.inr h)).2.2
    simp only [Ty.descriptions, descriptions_toList] at h
    obtain ⟨_, _, S', C', h3, h4, h5⟩ := key _ (fun _ h => h) h
    refine ⟨S', C', ?_, h4, h5⟩
    have hc : (declared (.ExternalInterface (.MergeSpecs (.cons a (.cons b p))) C)).contains
        (.op op) = false := rfl
    rw [memberLookup_eq, hc, bases_ExternalInterface_merge]
    simp only [List.foldl_cons, List.foldl_nil, h3, Lookup.merge, Bool.false_eq_true, if_false]

/-! ### Erasure types of a list of descriptions -/

theorem ofList_cons_cons (Specs : List Ty) (h : 2 ≤ Specs.length) :
    ∃ a b p, Pack.ofList Specs = .cons a (.cons b p) := by
  match Specs, h with
  | a :: b :: rest, _ => exact ⟨a, b, Pack.ofList rest, rfl⟩

theorem memberLookup_Container (K M : Ty) (m : Member)
    (hm : m = .Concept ∨ m = .get_from_rubber_types_container_) :
    memberLookup (.Container K M) m = .found (.Container K M) := by
  rcases hm with rfl | rfl <;> rfl

theorem memberLookup_Holder (T : Ty) (m : Member)
    (hm : m = .Data ∨ m = .get_from_rubber_types_holder_) :
    memberLookup (.Holder T) m = .found (.Holder T) := by
  rcases hm with rfl | rfl <;> rfl

theorem memberLookup_TypeErasureSingeSpec (a b : Ty) (p : Pack) (m : Member)
    (hm : m ≠ .Base ∧ m ≠ .Spec) :
    memberLookup (.TypeErasureSingeSpec (.MergeSpecs (.cons a (.cons b p)))) m =
      memberLookup (.ExternalInterface (.MergeSpecs (.cons a (.cons b p)))
        (.Container (.Concept (.MergeSpecs (.cons a (.cons b p))))
          (.MergeSpecs (.cons a (.cons b p))))) m := by
  have hc : (declared (.TypeErasureSingeSpec (.MergeSpecs (.cons a (.cons b p))))).contains m
      = false := by
    simp only [declared, List.contains_cons, List.contains_nil, Bool.or_false,
      Bool.or_eq_false_iff, beq_eq_false_iff_ne, ne_eq]
    exact hm
  rw [memberLookup_eq, hc]
  simp only [bases, ExternalInterfaceOf, ConceptOf, declaringSpec, List.foldl_cons,
    List.foldl_nil, Lookup.merge, Bool.false_eq_true, if_false]

/-- An erasure type of at least two pairwise different descriptions builds and constructs
for every payload type that provides the operations of the descriptions, also when some of
the descriptions declare the same operation. -/
theorem construct_descriptions {V A R : Type} (Γ : Duck V A R) (σ : Store V) (Specs : List Ty)
    (T : Ty) (v : V) (hlen : 2 ≤ Specs.length)
    (hD : (Pack.ofList Specs).areDescriptions = true)
    (hn : (Pack.ofList Specs).descriptions.Nodup)
    (hT : ∀ n ops, Ty.spec n ops ∈ (Pack.ofList Specs).descriptions →
      ∀ op ∈ ops, (Γ T op).isSome = true) :
    construct Γ σ (TypeErasure Specs) T v =
      .ok (⟨.Model (.MergeSpecs (.ofList Specs)) (.Holder T), v⟩ :: σ, ⟨σ.length⟩) := by
  obtain ⟨a, b, p, hP⟩ := ofList_cons_cons Specs hlen
  simp only [TypeErasure]
  rw [hP] at hD hn hT ⊢
  have hM : (Ty.MergeSpecs (.cons a (.cons b p))).isDescription = true := by
    simpa [Ty.isDescription] using hD
  have hr : resolve (.TypeErasureSingeSpec (.MergeSpecs (.cons a (.cons b p))))
      .get_from_rubber_types_container_ =
      .ok (.Container (.Concept (.MergeSpecs (.cons a (.cons b p))))
        (.MergeSpecs (.cons a (.cons b p)))) := by
    have := memberLookup_ExternalInterface_description _ _ (Or.inr rfl) _ hM _
      (memberLookup_Container (.Concept (.MergeSpecs (.cons a (.cons b p))))
        (.MergeSpecs (.cons a (.cons b p))) .get_from_rubber_types_container_ (Or.inr rfl))
    simp only [ExternalInterfaceOf, declaringSpec] at this
    simp only [resolve, memberLookup_TypeErasureSingeSpec a b p .get_from_rubber_types_container_
      (And.intro (by intro h; cases h) (by intro h; cases h)), this]
  have h1 := memberLookup_Holder T .Data (Or.inl rfl)
  have h2 := memberLookup_Holder T .get_from_rubber_types_holder_ (Or.inr rfl)
  have hc := complete_Model_description _ hM hn (.Holder T) rfl
  have ho := overriders_description Γ T _ hM hT (.Holder T) h1 h2
    (by simp [overriders_Holder])
  simp only [ModelOf, declaringSpec] at hc ho
  have hi : instantiate Γ (.Concept (.MergeSpecs (.cons a (.cons b p))))
      (.Model (.MergeSpecs (.cons a (.cons b p))) (.Holder T)) = .ok () := by
    refine instantiate_ok Γ _ _ hc ho ?_
    intro op hop
    have h3 := operations_description op _ hM hop
    have h4 := finalOverrider_description op _ hM (.Holder T) (Or.inl h3)
    simpa only [ModelOf, declaringSpec] using h4
  simp only [construct, hr, hi]

theorem ofClasses_ambiguous (l : List Ty) (x y : Ty) (hx : x ∈ l) (hy : y ∈ l) (hxy : x ≠ y) :
    Lookup.ofClasses l = .ambiguous l := by
  match l, hx, hy with
  | [z], hx, hy =>
      simp only [List.mem_singleton] at hx hy
      exact absurd (hx.trans hy.symm) hxy
  | _ :: _ :: _, _, _ => rfl

/-- Calling, on an instance of an erasure type of a list of pairwise different
descriptions, an operation that two of the user-authored descriptions declare does not
build: name lookup of the operation in the merged concept is ambiguous. -/
theorem invoke_descriptions_collision {V A R : Type} (Γ : Duck V A R) (σ : Store V)
    (Specs : List Ty) (obj : Object V) (op : String) (args : A)
    (nA nB : String) (opsA opsB : List String) (hlen : 2 ≤ Specs.length)
    (hD : (Pack.ofList Specs).areDescriptions = true)
    (hn : (Pack.ofList Specs).descriptions.Nodup)
    (hA : Ty.spec nA opsA ∈ (Pack.ofList Specs).descriptions)
    (hB : Ty.spec nB opsB ∈ (Pack.ofList Specs).descriptions)
    (hne : nA ≠ nB) (hopA : op ∈ opsA) (hopB : op ∈ opsB) :
    invoke Γ (obj :: σ) (TypeErasure Specs) ⟨σ.length⟩ op args =
      .error (.ambiguous (.Concept (.MergeSpecs (.ofList Specs))) (.op op)) := by
  obtain ⟨a, b, p, hP⟩ := ofList_cons_cons Specs hlen
  simp only [TypeErasure]
  rw [hP] at hD hn hA hB ⊢
  have hM : (Ty.MergeSpecs (.cons a (.cons b p))).isDescription = true := by
    simpa [Ty.isDescription] using hD
  obtain ⟨S', C', h3, h4, h5⟩ := memberLookup_op_ExternalInterface_description
    (.Container (.Concept (.MergeSpecs (.cons a (.cons b p))))
      (.MergeSpecs (.cons a (.cons b p)))) op _ hM _
    (memberLookup_Container _ _ .Concept (Or.inl rfl))
    (memberLookup_Container _ _ .get_from_rubber_types_container_ (Or.inr rfl))
    (Or.inl ⟨nA, opsA, hA, hopA⟩)
  simp only [ExternalInterfaceOf, declaringSpec] at h3
  have hK := memberLookup_Concept_description op _ hM hn
  simp only [ConceptOf, declaringSpec] at hK
  have hamb := ofClasses_ambiguous
    (((Ty.MergeSpecs (.cons a (.cons b p))).descriptions.filter (declares op)).map Ty.Concept)
    (.Concept (.spec nA opsA)) (.Concept (.spec nB opsB))
    (List.mem_map.mpr ⟨_, List.mem_filter.mpr ⟨hA, by simpa [declares] using hopA⟩, rfl⟩)
    (List.mem_map.mpr ⟨_, List.mem_filter.mpr ⟨hB, by simpa [declares] using hopB⟩, rfl⟩)
    (by
      intro h
      simp only [Ty.Concept.injEq, Ty.spec.injEq] at h
      exact hne h.1)
  rw [hamb] at hK
  simp only [invoke, resolve, memberLookup_TypeErasureSingeSpec a b p (.op op)
    (And.intro (by intro h; cases h) (by intro h; cases h)), h3, ExternalInterface.op,
    interface_get, interface_get.Concept, UnwrapContainer, unwrap_container, h4, h5,
    Container.get_from_rubber_types_container_, deref_new, Except.map, Concept.op, hK]

/-! ## Colliding operation names -/

/-- C8, counterexample.  `WidgetSpec` and a second description `ButtonSpec` both declare
`render`; merging them is not rejected: for a `UserWidget` the merged erasure type is
built and an instance is constructed, and in its adapter the override of the first-listed
description is the final overrider of `render`. -/
theorem merge_name_collision_builds :
    construct examples.Γ []
        (TypeErasure [.spec "WidgetSpec" ["render"], .spec "ButtonSpec" ["render"]])
        (.named "UserWidget") ⟨⟩ =
      .ok ([⟨.Model (.MergeSpecs (.ofList [.spec "WidgetSpec" ["render"],
          .spec "ButtonSpec" ["render"]])) (.Holder (.named "UserWidget")), ⟨⟩⟩], ⟨0⟩) ∧
    finalOverrider
        (Ty.Model (.MergeSpecs (.ofList [.spec "WidgetSpec" ["render"],
          .spec "ButtonSpec" ["render"]])) (.Holder (.named "UserWidget"))).weight
        (.Model (.MergeSpecs (.ofList [.spec "WidgetSpec" ["render"],
          .spec "ButtonSpec" ["render"]])) (.Holder (.named "UserWidget"))) "render" =
      some (.Model (.spec "WidgetSpec" ["render"])
        (.Model (.spec "ButtonSpec" ["render"]) (.Holder (.named "UserWidget")))) := by
  refine ⟨construct_pair examples.Γ [] "WidgetSpec" "ButtonSpec" ["render"] ["render"]
    (.named "UserWidget") ⟨⟩ _ (by decide) (Or.inl rfl) (by decide), ?_⟩
  decide

/-- C8, amended.  For every list of at least two pairwise different descriptions
(user-authored, or themselves merges of descriptions) among whose user-authored descriptions
two declare the operation `op`, and every payload type that provides the operations of the
descriptions, the merge builds: the erasure type of the list, written with `TypeErasure` or
with `MergeConcepts` of erasure types whose descriptions these are, is formed and instances
are constructed.  What is rejected at build time is every invocation of `op` through the
merged facade: name lookup of `op` in the merged concept is ambiguous, so no call through
the facade selects one of the colliding implementations. -/
theorem merge_name_collision {V A R : Type} (Γ : Duck V A R) (σ : Store V) (Specs : List Ty)
    (T : Ty) (v : V) (op : String) (nA nB : String) (opsA opsB : List String)
    (hlen : 2 ≤ Specs.length)
    (hD : (Pack.ofList Specs).areDescriptions = true)
    (hn : (Pack.ofList Specs).descriptions.Nodup)
    (hA : Ty.spec nA opsA ∈ (Pack.ofList Specs).descriptions)
    (hB : Ty.spec nB opsB ∈ (Pack.ofList Specs).descriptions)
    (hne : nA ≠ nB) (hopA : op ∈ opsA) (hopB : op ∈ opsB)
    (hT : ∀ n ops, Ty.spec n ops ∈ (Pack.ofList Specs).descriptions →
      ∀ op ∈ ops, (Γ T op).isSome = true) :
    construct Γ σ (TypeErasure Specs) T v =
      .ok (⟨.Model (.MergeSpecs (.ofList Specs)) (.Holder T), v⟩ :: σ, ⟨σ.length⟩) ∧
    (∀ args,
      invoke Γ (⟨.Model (.MergeSpecs (.ofList Specs)) (.Holder T), v⟩ :: σ) (TypeErasure Specs)
          ⟨σ.length⟩ op args =
        .error (.ambiguous (.Concept (.MergeSpecs (.ofList Specs))) (.op op))) ∧
    ∀ Concepts : List Ty, Concepts.mapM SpecOf = some Specs →
      MergeConcepts Concepts = some (TypeErasure Specs) := by
  refine ⟨construct_descriptions Γ σ Specs T v hlen hD hn hT, ?_, ?_⟩
  · intro args
    exact invoke_descriptions_collision Γ σ Specs _ op args nA nB opsA opsB hlen hD hn hA hB
      hne hopA hopB
  · intro Concepts h
    simp only [MergeConcepts, h, Option.map_some']

/-- Witness for `merge_name_collision`: `MergeConcepts` of the erasure type of `WidgetSpec`
and the erasure type of `GeometrySpec` and `ButtonSpec`, where `WidgetSpec` and
`ButtonSpec` both declare `render`, and the `UserWidget` of the examples. -/
theorem merge_name_collision_witness :
    2 ≤ [Ty.MergeSpecs (.ofList [.spec "WidgetSpec" ["render"]]),
      Ty.MergeSpecs (.ofList [.spec "GeometrySpec" ["size"], .spec "ButtonSpec" ["render"]])].length ∧
    (Pack.ofList [Ty.MergeSpecs (.ofList [.spec "WidgetSpec" ["render"]]),
      .MergeSpecs (.ofList [.spec "GeometrySpec" ["size"], .spec "ButtonSpec" ["render"]])]
      ).areDescriptions = true ∧
    (Pack.ofList [Ty.MergeSpecs (.ofList [.spec "WidgetSpec" ["render"]]),
      .MergeSpecs (.ofList [.spec "GeometrySpec" ["size"], .spec "ButtonSpec" ["render"]])]
      ).descriptions.Nodup ∧
    Ty.spec "WidgetSpec" ["render"] ∈
      (Pack.ofList [Ty.MergeSpecs (.ofList [.spec "WidgetSpec" ["render"]]),
        .MergeSpecs (.ofList [.spec "GeometrySpec" ["size"], .spec "ButtonSpec" ["render"]])]
        ).descriptions ∧
    Ty.spec "ButtonSpec" ["render"] ∈
      (Pack.ofList [Ty.MergeSpecs (.ofList [.spec "WidgetSpec" ["render"]]),
        .MergeSpecs (.ofList [.spec "GeometrySpec" ["size"], .spec "ButtonSpec" ["render"]])]
        ).descriptions ∧
    "WidgetSpec" ≠ "ButtonSpec" ∧ "render" ∈ ["render"] ∧
    (∀ n ops, Ty.spec n ops ∈
      (Pack.ofList [Ty.MergeSpecs (.ofList [.spec "WidgetSpec" ["render"]]),
        .MergeSpecs (.ofList [.spec "GeometrySpec" ["size"], .spec "ButtonSpec" ["render"]])]
        ).descriptions →
      ∀ op ∈ ops, (examples.Γ (.named "UserWidget") op).isSome = true) ∧
    (∀ args,
      invoke examples.Γ
          [⟨.Model (.MergeSpecs (.ofList [.MergeSpecs (.ofList [.spec "WidgetSpec" ["render"]]),
            .MergeSpecs (.ofList [.spec "GeometrySpec" ["size"],
              .spec "ButtonSpec" ["render"]])])) (.Holder (.named "UserWidget")), ⟨⟩⟩]
          (TypeErasure [.MergeSpecs (.ofList [.spec "WidgetSpec" ["render"]]),
            .MergeSpecs (.ofList [.spec "GeometrySpec" ["size"],
              .spec "ButtonSpec" ["render"]])]) ⟨0⟩ "render" args =
        .error (.ambiguous (.Concept (.MergeSpecs (.ofList
          [.MergeSpecs (.ofList [.spec "WidgetSpec" ["render"]]),
            .MergeSpecs (.ofList [.spec "GeometrySpec" ["size"],
              .spec "ButtonSpec" ["render"]])]))) (.op "render"))) ∧
    MergeConcepts [TypeErasure [.spec "WidgetSpec" ["render"]],
        TypeErasure [.spec "GeometrySpec" ["size"], .spec "ButtonSpec" ["render"]]] =
      some (TypeErasure [.MergeSpecs (.ofList [.spec "WidgetSpec" ["render"]]),
        .MergeSpecs (.ofList [.spec "GeometrySpec" ["size"], .spec "ButtonSpec" ["render"]])]) :=
  have hT : ∀ n ops, Ty.spec n ops ∈
      (Pack.ofList [Ty.MergeSpecs (.ofList [.spec "WidgetSpec" ["render"]]),
        .MergeSpecs (.ofList [.spec "GeometrySpec" ["size"], .spec "ButtonSpec" ["render"]])]
        ).descriptions →
      ∀ op ∈ ops, (examples.Γ (.named "UserWidget") op).isSome = true := by
    intro n ops h op hop
    simp only [Pack.ofList, Pack.descriptions, Ty.descriptions, List.append_nil,
      List.cons_append, List.nil_append, List.mem_cons, Ty.spec.injEq, List.mem_singleton,
      List.not_mem_nil, or_false] at h
    rcases h with ⟨_, rfl⟩ | ⟨_, rfl⟩ | ⟨_, rfl⟩ <;>
      simp only [List.mem_singleton] at hop <;> subst hop <;> rfl
  have h := merge_name_collision examples.Γ []
    [.MergeSpecs (.ofList [.spec "WidgetSpec" ["render"]]),
      .MergeSpecs (.ofList [.spec "GeometrySpec" ["size"], .spec "ButtonSpec" ["render"]])]
    (.named "UserWidget") ⟨⟩ "render" "WidgetSpec" "ButtonSpec" ["render"] ["render"]
    (by decide) (by decide) (by decide) (by decide) (by decide) (by decide) (by decide)
    (by decide) hT
  ⟨by decide, by decide, by decide, by decide, by decide, by decide, by decide, hT, h.2.1,
    h.2.2 _ rfl⟩

/-! ## The drawable example: auxiliary facts -/

namespace drawable

theorem deref_none {V : Type} (σ : Store V) (p : Nat) (h : σ.length ≤ p) : σ.deref p = none := by
  induction σ with
  | nil => rfl
  | cons obj older ih =>
      simp only [List.length_cons] at h
      have hne : p ≠ older.length := by omega
      simp only [Store.deref, hne, if_false]
      exact ih (by omega)

theorem draw_Drawable_nil_of_dangling (σ : Store Payload) (e : Drawable) (o : ostream)
    (pos : Int) (h : σ.length ≤ e.self_) : draw_Drawable σ e o pos = none := by
  induction σ with
  | nil => rfl
  | cons obj older ih =>
      simp only [List.length_cons] at h
      have hne : e.self_ ≠ older.length := by omega
      simp only [draw_Drawable, hne, if_false]
      exact ih (by omega)

/-- The overload of `draw` for a `Drawable` is `interface_get(e).draw_(o, pos)`: the handle
is dereferenced and the override of the pointee runs, the handles of a document payload
being resolved among the objects older than the pointee. -/
theorem draw_Drawable_eq (σ : Store Payload) (e : Drawable) (o : ostream) (pos : Int) :
    draw_Drawable σ e o pos =
      match e.get_from_rubber_types_container_ σ with
      | .ok this =>
          DrawableSpec.Model.draw_ (draw_Drawable (σ.drop (σ.length - e.self_))) this o pos
      | .error _ => none := by
  induction σ with
  | nil => rfl
  | cons obj older ih =>
      by_cases he : e.self_ = older.length
      · simp [draw_Drawable, Container.get_from_rubber_types_container_, Store.deref, he]
      · rcases Nat.lt_or_gt_of_ne he with hlt | hgt
        · have hd : (obj :: older).length - e.self_ = (older.length - e.self_) + 1 := by
            simp only [List.length_cons]
            omega
          simp only [draw_Drawable, he, if_false, ih, Container.get_from_rubber_types_container_,
            Store.deref, hd, List.drop_succ_cons]
        · have h1 := deref_none older e.self_ (by omega)
          have h2 := draw_Drawable_nil_of_dangling older e o pos (by omega)
          simp only [draw_Drawable, he, if_false, h2, Container.get_from_rubber_types_container_,
            Store.deref, h1]

/-- The converting constructor of `Drawable` is the constructor of the library: for
operations of the payload types under which each of them provides `draw_`, it builds and
allocates the object that `Drawable.construct` allocates. -/
theorem Drawable_construct_eq {A R : Type} (Γ : Duck Payload A R) (σ : Store Payload)
    (obj : Payload) (h : (Γ obj.type "draw_").isSome = true) :
    construct Γ σ (TypeErasure [DrawableSpec]) obj.type obj = .ok (Drawable.construct σ obj) := by
  have hT : ∀ op ∈ ["draw_"], (Γ obj.type op).isSome = true := by
    intro op hop
    simp only [List.mem_singleton] at hop
    subst hop
    exact h
  exact construct_single Γ σ "DrawableSpec" ["draw_"] obj.type obj hT

theorem as_int_ok (n : Nat) (h : n ≤ 2147483647) : as_int (n : Int) = some (n : Int) := by
  have h0 : INT_MIN ≤ (n : Int) := by unfold INT_MIN; omega
  have h1 : (n : Int) ≤ INT_MAX := by unfold INT_MAX; omega
  simp [as_int, h0, h1]

theorem std_string_ok (n : Nat) : std_string (n : Int) ' ' = some (spaces n) := by
  simp [std_string, spaces]

theorem draw_int_ok (i : Int) (o : ostream) (depth : Nat) (h : 2 * depth ≤ 2147483647) :
    draw_int i o depth = some (o ++ (spaces (2 * depth) ++ toString i ++ "\n")) := by
  have h2 : ((depth : Int) * 2) = ((2 * depth : Nat) : Int) := by push_cast; ring
  simp only [draw_int, h2, as_int_ok _ h, std_string_ok, Option.bind_eq_bind, Option.some_bind,
    Option.pure_def, String.append_assoc]

theorem draw_string_ok (s : String) (o : ostream) (depth : Nat) (h : 2 * depth ≤ 2147483647) :
    draw_string s o depth = some (o ++ (spaces (2 * depth) ++ s ++ "\n")) := by
  have h2 : ((depth : Int) * 2) = ((2 * depth : Nat) : Int) := by push_cast; ring
  simp only [draw_string, h2, as_int_ok _ h, std_string_ok, Option.bind_eq_bind,
    Option.some_bind, Option.pure_def, String.append_assoc]

theorem concat_nil : concat [] = "" := rfl

theorem concat_cons (line : String) (lines : List String) :
    concat (line :: lines) = line ++ concat lines := rfl

theorem draw_items_ok (drawItem : Drawable → ostream → Int → Option ostream)
    (R : Drawable → String) (doc : Document) (depth : Nat) (h : depth + 1 ≤ 2147483647)
    (hR : ∀ item ∈ doc, ∀ o, drawItem item o ((depth + 1 : Nat) : Int) = some (o ++ R item))
    (o : ostream) :
    draw_items drawItem doc o depth = some (o ++ concat (doc.map R)) := by
  induction doc generalizing o with
  | nil => simp [draw_items, concat_nil]
  | cons item rest ih =>
      have h1 : as_int ((depth : Int) + 1) = some ((depth + 1 : Nat) : Int) := by
        have := as_int_ok (depth + 1) h
        simpa using this
      have h2 := hR item (List.mem_cons_self _ _) o
      have h3 := ih (fun x hx => hR x (List.mem_cons_of_mem _ hx)) (o ++ R item)
      simp only [draw_items, h1, h2, h3, Option.bind_eq_bind, Option.some_bind, List.map_cons,
        concat_cons, String.append_assoc]

theorem draw_body_ok (drawItem : Drawable → ostream → Int → Option ostream)
    (R : Drawable → String) (doc : Document) (depth : Nat)
    (h : 2 * (depth + (doc.map fun _ => 1).foldr max 0) ≤ 2147483647)
    (hR : ∀ item ∈ doc, ∀ o, drawItem item o ((depth + 1 : Nat) : Int) = some (o ++ R item))
    (o : ostream) :
    draw_body drawItem doc o depth =
      some (o ++ (spaces (2 * depth) ++ "<document>\n" ++ concat (doc.map R) ++
        spaces (2 * depth) ++ "</document>\n")) := by
  have hd : 2 * depth ≤ 2147483647 := by omega
  have h2 : ((depth : Int) * 2) = ((2 * depth : Nat) : Int) := by push_cast; ring
  have h1 : doc ≠ [] → depth + 1 ≤ 2147483647 := by
    intro hne
    cases doc with
    | nil => exact absurd rfl hne
    | cons item rest =>
        simp only [List.map_cons, List.foldr_cons] at h
        omega
  have h3 : draw_items drawItem doc (o ++ spaces (2 * depth) ++ "<document>\n") depth =
      some (o ++ spaces (2 * depth) ++ "<document>\n" ++ concat (doc.map R)) := by
    cases doc with
    | nil => simp [draw_items, concat_nil]
    | cons item rest => exact draw_items_ok drawItem R _ depth (h1 (by simp)) hR _
  simp only [String.append_assoc] at h3
  simp only [draw_body, h3, h2, as_int_ok _ hd, std_string_ok, Option.bind_eq_bind,
    Option.some_bind, Option.pure_def, String.append_assoc]

theorem le_foldr_max (f : Drawable → Nat) (doc : Document) (item : Drawable)
    (h : item ∈ doc) : f item ≤ (doc.map f).foldr max 0 := by
  induction doc with
  | nil => simp at h
  | cons x xs ih =>
      simp only [List.map_cons, List.foldr_cons]
      rcases List.mem_cons.mp h with rfl | h
      · exact le_max_left _ _
      · exact le_trans (ih h) (le_max_right _ _)

theorem foldr_max_one_le (f : Drawable → Nat) (doc : Document) :
    (doc.map fun _ => 1).foldr max 0 ≤ (doc.map fun item => f item + 1).foldr max 0 := by
  induction doc with
  | nil => simp
  | cons x xs ih =>
      simp only [List.map_cons, List.foldr_cons]
      omega

theorem draw_Drawable_ok (σ : Store Payload) (e : Drawable) (o : ostream) (depth : Nat)
    (hlive : live σ e = true) (h : 2 * (depth + levels σ e) ≤ 2147483647) :
    draw_Drawable σ e o depth = some (o ++ rendering σ e depth) := by
  induction σ generalizing e o depth with
  | nil => simp [live] at hlive
  | cons this older ih =>
      by_cases he : e.self_ = older.length
      · simp only [draw_Drawable, rendering, he, if_true, DrawableSpec.Model.draw_,
          Holder.get_from_rubber_types_holder_]
        simp only [live, levels, he, if_true] at hlive h
        cases hd : this.data_ with
        | int i => exact draw_int_ok i o depth (by omega)
        | string s => exact draw_string_ok s o depth (by omega)
        | Document doc =>
            simp only [hd] at hlive h
            have hb := draw_body_ok (draw_Drawable older)
              (fun item => rendering older item (depth + 1)) doc depth
              (by have := foldr_max_one_le (levels older) doc; omega)
              (by
                intro item hitem o
                apply ih
                · exact List.all_eq_true.mp hlive item hitem
                · have := le_foldr_max (fun item => levels older item + 1) doc item hitem
                  simp only at this
                  omega) o
            simpa only [String.append_assoc] using hb
      · simp only [draw_Drawable, rendering, live, levels, he, if_false] at hlive h ⊢
        exact ih e o depth hlive h

/-! ## Rendering a document -/

/-- C5, counterexample.  At depth `2^30`, which is not negative, `pos * 2` overflows the
type `int`: drawing even the empty document has no defined result, so nothing of what the
claim states is appended. -/
theorem draw_Document_overflow :
    (0 : Int) ≤ 1073741824 ∧ draw_Document [] [] "" 1073741824 = none := by
  decide

/-- C5, amended.  For every document `doc` whose handles are live and every depth
`depth ≥ 0` such that the widest indentation reached, `2 * (depth + levels)`, is a value of
`int`, `draw(doc, o, depth)` appends to `o` exactly the rendering of the document: `2 * depth`
spaces and the start marker, then for each item in sequence order its rendering at depth
`depth + 1` (one line of `2 * (depth + 1)` spaces, the text of the value and a newline for
an integer or a string), then `2 * depth` spaces and the end marker.  For the items `0` and
`"Hello World"` at depth 0 this is the text of the specification. -/
theorem draw_Document_rendering (σ : Store Payload) (doc : Document) (o : ostream)
    (depth : Nat) (hlive : ∀ item ∈ doc, live σ item = true)
    (h : 2 * (depth + document_levels σ doc) ≤ 2147483647) :
    draw_Document σ doc o depth = some (o ++ document_rendering σ doc depth) ∧
    (∀ (i : Int) (T : Ty) (older : Store Payload) (d : Nat),
      rendering (⟨T, .int i⟩ :: older) ⟨older.length⟩ d =
        spaces (2 * d) ++ toString i ++ "\n") ∧
    (∀ (s : String) (T : Ty) (older : Store Payload) (d : Nat),
      rendering (⟨T, .string s⟩ :: older) ⟨older.length⟩ d = spaces (2 * d) ++ s ++ "\n") ∧
    draw_Document
        (Drawable.construct (Drawable.construct [] (.int 0)).1 (.string "Hello World")).1
        [(Drawable.construct [] (.int 0)).2,
          (Drawable.construct (Drawable.construct [] (.int 0)).1 (.string "Hello World")).2]
        "" 0 =
      some "<document>\n  0\n  Hello World\n</document>\n" := by
  refine ⟨?_, ?_, ?_, ?_⟩
  · have hb := draw_body_ok (draw_Drawable σ) (fun item => rendering σ item (depth + 1)) doc
      depth
      (by have := foldr_max_one_le (levels σ) doc; simp only [document_levels] at h; omega)
      (by
        intro item hitem o
        apply draw_Drawable_ok
        · exact hlive item hitem
        · have := le_foldr_max (fun item => levels σ item + 1) doc item hitem
          simp only [document_levels] at h
          simp only at this
          omega) o
    simpa only [draw_Document, document_rendering, String.append_assoc] using hb
  · intro i T older d
    simp [rendering]
  · intro s T older d
    simp [rendering]
  · decide

/-- Witness for `draw_Document_rendering`: the document with the items `0` and
`"Hello World"` at depth 0. -/
theorem draw_Document_rendering_witness :
    (∀ item ∈ ([⟨0⟩, ⟨1⟩] : Document),
      live [⟨.Model DrawableSpec (.Holder (.named "string")), .string "Hello World"⟩,
        ⟨.Model DrawableSpec (.Holder (.named "int")), .int 0⟩] item = true) ∧
    2 * (0 + document_levels
      [⟨.Model DrawableSpec (.Holder (.named "string")), .string "Hello World"⟩,
        ⟨.Model DrawableSpec (.Holder (.named "int")), .int 0⟩] [⟨0⟩, ⟨1⟩]) ≤ 2147483647 ∧
    draw_Document
        [⟨.Model DrawableSpec (.Holder (.named "string")), .string "Hello World"⟩,
          ⟨.Model DrawableSpec (.Holder (.named "int")), .int 0⟩] [⟨0⟩, ⟨1⟩] "" (0 : Nat) =
      some ("" ++ document_rendering
        [⟨.Model DrawableSpec (.Holder (.named "string")), .string "Hello World"⟩,
          ⟨.Model DrawableSpec (.Holder (.named "int")), .int 0⟩] [⟨0⟩, ⟨1⟩] 0) :=
  ⟨by decide, by decide,
   (draw_Document_rendering
      [⟨.Model DrawableSpec (.Holder (.named "string")), .string "Hello World"⟩,
        ⟨.Model DrawableSpec (.Holder (.named "int")), .int 0⟩] [⟨0⟩, ⟨1⟩] "" 0
      (by decide) (by decide)).1⟩

/-! ## Snapshot and restore -/

theorem draw_Drawable_older (new σ : Store Payload) (e : Drawable) (o : ostream) (pos : Int)
    (h : e.self_ < σ.length) :
    draw_Drawable (new ++ σ) e o pos = draw_Drawable σ e o pos := by
  induction new with
  | nil => rfl
  | cons this rest ih =>
      have hne : e.self_ ≠ (rest ++ σ).length := by
        simp only [List.length_append]
        omega
      show (if e.self_ = (rest ++ σ).length then
          DrawableSpec.Model.draw_ (draw_Drawable (rest ++ σ)) this o pos
        else draw_Drawable (rest ++ σ) e o pos) = draw_Drawable σ e o pos
      rw [if_neg hne, ih]

theorem draw_items_congr (f g : Drawable → ostream → Int → Option ostream) (doc : Document)
    (hfg : ∀ item ∈ doc, ∀ o pos, f item o pos = g item o pos) (o : ostream) (pos : Int) :
    draw_items f doc o pos = draw_items g doc o pos := by
  induction doc generalizing o with
  | nil => rfl
  | cons item rest ih =>
      simp only [draw_items, hfg item (List.mem_cons_self _ _)]
      congr 1
      funext pos1
      congr 1
      funext o1
      exact ih (fun x hx => hfg x (List.mem_cons_of_mem _ hx)) o1

theorem draw_Document_older (new σ : Store Payload) (doc : Document) (o : ostream) (pos : Int)
    (h : ∀ e ∈ doc, e.self_ < σ.length) :
    draw_Document (new ++ σ) doc o pos = draw_Document σ doc o pos := by
  have hitems : draw_items (draw_Drawable (new ++ σ)) doc = draw_items (draw_Drawable σ) doc := by
    funext o pos
    exact draw_items_congr _ _ doc
      (fun item hitem o pos => draw_Drawable_older new σ item o pos (h item hitem)) o pos
  simp only [draw_Document, draw_body, hitems]

theorem toDrawable_store (σ : Store Payload) (cur : Document) (x : Arg) :
    ∃ new, (x.toDrawable σ cur).1 = new ++ σ := by
  cases x with
  | int i => exact ⟨[_], rfl⟩
  | string s => exact ⟨[_], rfl⟩
  | Document doc => exact ⟨[_], rfl⟩
  | current => exact ⟨[_], rfl⟩
  | Drawable e => exact ⟨[], rfl⟩

theorem current_concat (hs : History) (doc : Document) : current (hs ++ [doc]) = some doc := by
  simp [current]

theorem mutate_concat (ms : List Mutation) (σ : Store Payload) (hs : History) (doc : Document)
    (h : inBounds doc.length ms = true) :
    ∃ new doc', mutate σ (hs ++ [doc]) ms = some (new ++ σ, hs ++ [doc']) := by
  induction ms generalizing σ doc with
  | nil => exact ⟨[], doc, rfl⟩
  | cons m ms ih =>
      cases m with
      | emplace_back x =>
          obtain ⟨new1, h1⟩ := toDrawable_store σ doc x
          simp only [inBounds] at h
          obtain ⟨new, doc', h2⟩ := ih (x.toDrawable σ doc).1 (doc ++ [(x.toDrawable σ doc).2])
            (by simpa using h)
          refine ⟨new ++ new1, doc', ?_⟩
          rw [h1] at h2
          simp only [mutate, current_concat, Mutation.apply, List.dropLast_concat, h2, h1,
            List.append_assoc]
      | assign i x =>
          obtain ⟨new1, h1⟩ := toDrawable_store σ doc x
          simp only [inBounds, Bool.and_eq_true, decide_eq_true_eq] at h
          obtain ⟨new, doc', h2⟩ := ih (x.toDrawable σ doc).1 (doc.set i (x.toDrawable σ doc).2)
            (by simpa using h.2)
          refine ⟨new ++ new1, doc', ?_⟩
          rw [h1] at h2
          simp only [mutate, current_concat, Mutation.apply, h.1, if_true,
            List.dropLast_concat, h2, h1, List.append_assoc]

set_option maxRecDepth 100000 in
theorem main_output :
    main = some ("<document>\n  0\n  1\n</document>\n" ++
      "--------------------------\n" ++
      "<document>\n  0\n  Roof\n  Hello World\n  <document>\n    0\n    1\n    Hello World\n  </document>\n</document>\n" ++
      "--------------------------\n" ++
      "<document>\n  0\n  1\n</document>\n") := by
  decide

/-- C6 (snapshot and restore).  For every non-empty history `h` with current document
`doc`, `commit` pushes a copy of `doc`; every sequence of mutations of the live copy
(appending an item, replacing an existing element by assignment) only allocates new objects
and changes the last entry of the history; `undo` then gives back exactly `h`.  No object
the snapshot's handles point to is touched, so the restored document and each of its
handles render, for every stream and depth, exactly what they rendered before the
mutations.  In `main` the text written after `undo` is the text written before
`commit`. -/
theorem snapshot_restore (σ : Store Payload) (h : History) (doc : Document)
    (ms : List Mutation) (hcur : current h = some doc)
    (hlive : ∀ e ∈ doc, e.self_ < σ.length) (hms : inBounds doc.length ms = true) :
    (∃ new doc',
      commit h = some (h ++ [doc]) ∧
      mutate σ (h ++ [doc]) ms = some (new ++ σ, h ++ [doc']) ∧
      undo (h ++ [doc']) = some h ∧
      (∀ o pos, draw_Document (new ++ σ) doc o pos = draw_Document σ doc o pos) ∧
      ∀ e ∈ doc, ∀ o pos, draw_Drawable (new ++ σ) e o pos = draw_Drawable σ e o pos) ∧
    main = some ("<document>\n  0\n  1\n</document>\n" ++
      "--------------------------\n" ++
      "<document>\n  0\n  Roof\n  Hello World\n  <document>\n    0\n    1\n    Hello World\n  </document>\n</document>\n" ++
      "--------------------------\n" ++
      "<document>\n  0\n  1\n</document>\n") := by
  obtain ⟨new, doc', hm⟩ := mutate_concat ms σ h doc hms
  refine ⟨⟨new, doc', ?_, hm, ?_, ?_, ?_⟩, main_output⟩
  · simp only [current] at hcur
    simp only [commit, hcur]
  · simp [undo]
  · intro o pos
    exact draw_Document_older new σ doc o pos hlive
  · intro e he o pos
    exact draw_Drawable_older new σ e o pos (hlive e he)

/-- Witness for `snapshot_restore`: the history, the mutations and the outputs of `main`. -/
theorem snapshot_restore_witness :
    current [[⟨0⟩, ⟨1⟩]] = some [⟨0⟩, ⟨1⟩] ∧
    (∀ e ∈ ([⟨0⟩, ⟨1⟩] : Document), e.self_ <
      ([⟨.Model DrawableSpec (.Holder (.named "int")), .int 1⟩,
        ⟨.Model DrawableSpec (.Holder (.named "int")), .int 0⟩] : Store Payload).length) ∧
    inBounds ([⟨0⟩, ⟨1⟩] : Document).length
      [.emplace_back (.string "Hello World"), .emplace_back .current,
        .assign 1 (.string "Roof")] = true ∧
    ∃ new doc',
      commit [[⟨0⟩, ⟨1⟩]] = some ([[⟨0⟩, ⟨1⟩]] ++ [[⟨0⟩, ⟨1⟩]]) ∧
      mutate [⟨.Model DrawableSpec (.Holder (.named "int")), .int 1⟩,
          ⟨.Model DrawableSpec (.Holder (.named "int")), .int 0⟩]
          ([[⟨0⟩, ⟨1⟩]] ++ [[⟨0⟩, ⟨1⟩]])
          [.emplace_back (.string "Hello World"), .emplace_back .current,
            .assign 1 (.string "Roof")] =
        some (new ++ [⟨.Model DrawableSpec (.Holder (.named "int")), .int 1⟩,
          ⟨.Model DrawableSpec (.Holder (.named "int")), .int 0⟩], [[⟨0⟩, ⟨1⟩]] ++ [doc']) ∧
      undo ([[⟨0⟩, ⟨1⟩]] ++ [doc']) = some [[⟨0⟩, ⟨1⟩]] :=
  ⟨by decide, by decide, by decide,
   (snapshot_restore
      [⟨.Model DrawableSpec (.Holder (.named "int")), .int 1⟩,
        ⟨.Model DrawableSpec (.Holder (.named "int")), .int 0⟩]
      [[⟨0⟩, ⟨1⟩]] [⟨0⟩, ⟨1⟩]
      [.emplace_back (.string "Hello World"), .emplace_back .current,
        .assign 1 (.string "Roof")]
      (by decide) (by decide) (by decide)).1.imp fun _ hnew =>
        hnew.imp fun _ hdoc => ⟨hdoc.1, hdoc.2.1, hdoc.2.2.1⟩⟩

end drawable

end rubber_types
